import Mathlib

/-!
# Threshold secret sharing: a shallow embedding of `sshare.cpp`

The program splits a byte string into `n` shares by evaluating a random
polynomial over `GF(p)` at the points `1..n`, and rebuilds the byte string from
share files by polynomial interpolation.  All field arithmetic is delegated to
the NTL library (`ZZ`, `ZZ_p`, `ZZ_pX`); the NTL routines the program calls are
modelled here on natural numbers with explicit reduction modulo `p`, following
the NTL documentation and implementation.  Bytes are natural numbers below 256
and byte buffers are lists, least significant byte first where a buffer holds a
number.

Conventions of the model:
* counts and sizes (`n`, `t`, the length of the secret) are natural numbers; the
  program holds them in `size_t` and `long`, which agree below `2^63`, and no
  larger value is meant.  The one narrowing conversion of the program, the
  share index stored as `uint32_t`, is modelled (`toUInt32`);
* the random generator is a parameter: a stream `rnd` whose `i`-th element is
  the `i`-th field element drawn by `random_ZZ_pX`;
* a computation that NTL ends with an error, or that leaves the range of a
  vector, has the result `none`;
* files are their contents; opening, naming and closing them is left out;
* a run of `main` is the list of its events in order (message on standard
  error, selection of the modulus, share file written, bytes written to
  standard output, abnormal end) together with the value returned.
-/

namespace SShare

/-! ## NTL integer primitives -/

/-- Byte strings: every entry is below 256. -/
def IsBytes (d : List Nat) : Prop := ∀ b ∈ d, b < 256

instance (d : List Nat) : Decidable (IsBytes d) := by
  unfold IsBytes; infer_instance

/-- NTL `ProbPrime`, taken as an exact primality test. -/
def ProbPrime (x : Nat) : Bool := decide (Nat.Prime x)

/-- The search loop of NTL `NextPrime`, `while (!ProbPrime(x)) x++`, run for at
most `fuel` tests. -/
def NextPrimeLoop : Nat → Nat → Nat
  | 0, x => x
  | fuel + 1, x => if ProbPrime x then x else NextPrimeLoop fuel (x + 1)

/-- NTL `NextPrime(m)`: 2 when `m <= 2`, otherwise the first prime met when
counting up from `m`.  The loop is given `m` tests, which always suffice. -/
def NextPrime (m : Nat) : Nat := if m ≤ 2 then 2 else NextPrimeLoop m m

/-- NTL `ZZFromBytes(p, n)`: the number `sum p[i] * 256^i`. -/
def ZZFromBytes : List Nat → Nat
  | [] => 0
  | b :: bs => b + 256 * ZZFromBytes bs

/-- NTL `BytesFromZZ(p, a, n)`: the `n` low base-256 digits of `a`, least
significant first (higher digits of `a` are dropped). -/
def BytesFromZZ (a : Nat) : Nat → List Nat
  | 0 => []
  | n + 1 => a % 256 :: BytesFromZZ (a / 256) n

/-! ## NTL `ZZ_p` arithmetic: residues in `[0, p)` -/

/-- Conversion `conv<ZZ_p>` / `ZZ_p(long)` of a non-negative integer. -/
def toZZ_p (p a : Nat) : Nat := a % p

/-- Field addition `add`. -/
def addMod (p a b : Nat) : Nat := (a + b) % p

/-- Field subtraction `sub`, for residues `a`, `b` in `[0, p)`. -/
def subMod (p a b : Nat) : Nat := (a + (p - b)) % p

/-- Field negation `negate`, for a residue `a` in `[0, p)`. -/
def negMod (p a : Nat) : Nat := (p - a) % p

/-- Field multiplication `mul`. -/
def mulMod (p a b : Nat) : Nat := (a * b) % p

/-- Extended Euclid on `(r0, r1)` carrying the cofactors of `a`: the loop keeps
`r0 ≡ s0 * a` and `r1 ≡ s1 * a` modulo `n` and stops when `r1 = 0`. -/
def xgcdLoop : Nat → Nat → Nat → Int → Int → Nat × Int
  | 0, r0, _, s0, _ => (r0, s0)
  | fuel + 1, r0, r1, s0, s1 =>
    if r1 = 0 then (r0, s0)
    else xgcdLoop fuel r1 (r0 % r1) s1 (s0 - ((r0 / r1 : Nat) : Int) * s1)

/-- NTL `inv` on `ZZ_p` (`InvMod`): the inverse of `a` modulo `n`, or `none`
where NTL raises "InvMod: inverse undefined" because `gcd(a, n) ≠ 1`.  The
Euclidean loop is given `n + 1` steps, which always suffice for `a <= n`. -/
def invMod (n a : Nat) : Option Nat :=
  match xgcdLoop (n + 1) n a 0 1 with
  | (g, s) => if g = 1 then some (s % (n : Int)).toNat else none

/-! ## NTL `ZZ_pX`: coefficient vectors, lowest degree first, no trailing zero -/

/-- `ZZ_pX::normalize`: strip the zero leading coefficients (the tail of the
coefficient vector). -/
def normalize : List Nat → List Nat
  | [] => []
  | c :: cs =>
    match normalize cs with
    | [] => if c = 0 then [] else [c]
    | r :: rs => c :: r :: rs

/-- NTL `random_ZZ_pX(n)`: `n` coefficients drawn from the generator, then
normalised.  The generator is the stream `rnd`; the `i`-th draw is reduced into
`[0, p)`. -/
def random_ZZ_pX (p : Nat) (rnd : Nat → Nat) (n : Nat) : List Nat :=
  normalize ((List.range n).map fun i => rnd i % p)

/-- NTL `SetCoeff(x, i, a)`: beyond the degree a zero is ignored and a non-zero
value extends the vector; within the degree the entry is replaced and the
vector normalised. -/
def SetCoeff (x : List Nat) (i a : Nat) : List Nat :=
  if x.length ≤ i then
    if a = 0 then x else x ++ List.replicate (i - x.length) 0 ++ [a]
  else normalize (x.set i a)

/-- Horner loop shared by `eval` and `interpolate`:
`for i = deg .. 0: acc = acc * a + c[i]`, starting from `init`. -/
def horner (p : Nat) (init : Nat) (c : List Nat) (a : Nat) : Nat :=
  c.foldr (fun ci acc => addMod p (mulMod p acc a) ci) init

/-- NTL `eval(f, a)`: Horner evaluation of `f` at `a`. -/
def eval (p : Nat) (f : List Nat) (a : Nat) : Nat := horner p 0 f a

/-- The in-place update of `prod` inside `interpolate`, for `k >= 1`:
`prod[k] = t1 + prod[k-1]`, `prod[i] = prod[i]*t1 + prod[i-1]` for
`i = k-1 .. 1`; `prev` is the old `prod[i-1]`. -/
def prodShift (p t1 : Nat) : Nat → List Nat → List Nat
  | prev, [] => [addMod p t1 prev]
  | prev, c :: cs => addMod p (mulMod p c t1) prev :: prodShift p t1 c cs

/-- One update of `prod` inside `interpolate`: at `k = 0` the entry `prod[0]`
(a copy of `a[0]`) is negated; afterwards `prod` is multiplied by `X - a[k]`
with `prod[0] = prod[0] * t1`. -/
def prodStep (p : Nat) (prod : List Nat) (ak : Nat) : List Nat :=
  match prod with
  | [] => [negMod p ak]
  | c :: cs => mulMod p c (negMod p ak) :: prodShift p (negMod p ak) c cs

/-- The main loop of NTL `interpolate` over the remaining points.  `prod` holds
the low coefficients of the monic product of `X - a[i]` over the points done,
`res` the coefficients of the interpolant so far. -/
def interpLoop (p : Nat) : List Nat → List Nat → List (Nat × Nat) → Option (List Nat)
  | _, res, [] => some res
  | prod, res, (aa, bb) :: rest =>
    let t1 := horner p 1 prod aa
    let t2 := horner p 0 res aa
    match invMod p t1 with
    | none => none
    | some t1i =>
      let t1 := mulMod p t1i (subMod p bb t2)
      let res := List.zipWith (fun r q => addMod p r (mulMod p q t1)) res prod ++ [t1]
      let prod := if rest.isEmpty then prod else prodStep p prod aa
      interpLoop p prod res rest

/-- NTL `interpolate(f, a, b)`: the polynomial of degree below `m = a.length`
through the points `(a[i], b[i])`, normalised; `none` where NTL raises an
error: the vectors differ in length, or some pivot has no inverse (the `a[i]`
are not pairwise distinct). -/
def interpolate (p : Nat) (a b : List Nat) : Option (List Nat) :=
  if a.length ≠ b.length then none
  else (interpLoop p [] [] (List.zip a b)).map normalize

/-! ## The program -/

/-- The field modulus both branches compute from a byte length:
`lb = ZZ(1) << (8 * len)` and `p = NextPrime(lb)`. -/
def fieldPrime (len : Nat) : Nat :=
  let lb := 2 ^ (8 * len)
  NextPrime lb

/-- The function `distribute`: the field is set to `fieldPrime len`, a
random polynomial with `t` coefficients is drawn, its constant coefficient is
overwritten with the secret, and the polynomial is evaluated at the points
`ZZ_p(i + 1)` for `i = 0 .. n-1`. -/
def distribute (rnd : Nat → Nat) (n t : Nat) (data : List Nat) : List Nat :=
  let p := fieldPrime data.length
  let f := random_ZZ_pX p rnd t
  let s := ZZFromBytes data
  let sp := toZZ_p p s
  let f := SetCoeff f 0 sp
  (List.range n).map fun i => eval p f (toZZ_p p (i + 1))

/-- The conversion `uint32_t x = i + 1` of a `size_t` value to 32 bits. -/
def toUInt32 (v : Nat) : Nat := v % 2 ^ 32

/-- The share file written for the index `x` (a `uint32_t`) and the value `y`:
`fwrite(&x, 1, 4, f)` stores the four bytes of `x` (host order, least
significant byte first), followed by the `inSize + 1` bytes that
`BytesFromZZ(sbuf, y, inSize + 1)` produced. -/
def shareFile (inSize x y : Nat) : List Nat :=
  BytesFromZZ x 4 ++ BytesFromZZ y (inSize + 1)

/-- The distribution branch of `main`: the contents of the files `1 .. n`, in
order; file `i + 1` holds the index `i + 1` and the value `shares[i]`. -/
def writeShares (rnd : Nat → Nat) (n t : Nat) (data : List Nat) : List (List Nat) :=
  let shares := distribute rnd n t data
  (List.range n).map fun i => shareFile data.length (toUInt32 (i + 1)) (shares.getD i 0)

/-- The call `fread(buf, 1, k, f)` on a buffer of `k` bytes: the bytes available
(at most `k`) overwrite the front of the buffer, the rest of the buffer keeps
its old content.  Returns the buffer and the unread rest of the file. -/
def fread (buf : List Nat) (k : Nat) (file : List Nat) : List Nat × List Nat :=
  ((file.take k) ++ buf.drop (file.take k).length, file.drop k)

/-- Reading one share file: `fread(&x, 1, 4, f)` then `fread(sbuf, 1, slen, f)`.
Returns the buffers `x` and `sbuf` after the two calls. -/
def readShare (slen : Nat) (x sbuf file : List Nat) : List Nat × List Nat :=
  let (x, file) := fread x 4 file
  let (sbuf, _) := fread sbuf slen file
  (x, sbuf)

/-- The reading loop of the reconstruction branch: each file is read into the
buffers, which persist across files; the index and the value are appended to
`inputs` and `shares` as field elements. -/
def readShares (p slen : Nat) :
    List Nat → List Nat → List (List Nat) → List Nat × List Nat
  | _, _, [] => ([], [])
  | x, sbuf, file :: files =>
    let (x, sbuf) := readShare slen x sbuf file
    let (inputs, shares) := readShares p slen x sbuf files
    (toZZ_p p (ZZFromBytes x) :: inputs, toZZ_p p (ZZFromBytes sbuf) :: shares)

/-- The reconstruction branch of `main` up to the call of `interpolate`, on the
contents of the files given on the command line.  The value width `slen` is
the size of the first file minus 4 and the field is `fieldPrime (slen - 1)`.
The result is the polynomial `f`, or `none` where the program stops before:
a first file of fewer than 5 bytes (the unsigned size computations wrap), or
an NTL error inside `interpolate`.  The buffers `x` and `sbuf` start
uninitialised in the program; the first file has `4 + slen` bytes and
overwrites both completely, so their initial content (zeros here) is never
used. -/
def interpolated (files : List (List Nat)) : Option (List Nat) :=
  match files with
  | [] => none
  | first :: _ =>
    if first.length < 5 then none
    else
      let slen := first.length - 4
      let p := fieldPrime (slen - 1)
      let (inputs, shares) :=
        readShares p slen (List.replicate 4 0) (List.replicate slen 0) files
      interpolate p inputs shares

/-- The reconstruction branch of `main`: the bytes written to standard output,
`slen - 1` bytes of `BytesFromZZ(sbuf, rep(f[0]), slen)`.  The result is `none`
where the program produces no output: `interpolated` is `none`, or `f` has no
coefficient, so that the unchecked access `f[0]` is out of range. -/
def reconstruct (files : List (List Nat)) : Option (List Nat) :=
  match interpolated files with
  | none => none
  | some [] => none
  | some (f0 :: _) =>
    let slen := (files.headD []).length - 4
    some ((BytesFromZZ f0 slen).take (slen - 1))

/-- One step of a run of the program, as far as it is visible from outside or
fixes the arithmetic: the message printed on standard error, the selection of
the field modulus (`ZZ_p::init(p)`), a share file written under the name
`name`, the bytes written to standard output, and the end of the run by an NTL
error or by an access out of range. -/
inductive Event
  | message
  | modulus (p : Nat)
  | written (name : Nat) (bytes : List Nat)
  | output (bytes : List Nat)
  | stopped
deriving DecidableEq

/-- A run of the program: its events in order and the value that `main`
returns, `none` when the run is stopped before `main` returns. -/
structure Run where
  events : List Event
  ret : Option Nat
deriving DecidableEq

/-- The function `main` after the options are parsed (`--help` and unknown
options end the run before): `n` and `t` are the values of `--nshares` and
`--thresh`, `files` the contents of the files named on the command line and
`stdin` the content of standard input.  The threshold check `if (n < t)` comes
first; with fewer than two files the secret (the file, or standard input when
there is none) is distributed into the files `1 .. n`; with two files or more
the reconstruction branch runs, which ends without output when the first file
has fewer than 5 bytes (see `interpolated`). -/
def main (rnd : Nat → Nat) (n t : Nat) (stdin : List Nat) (files : List (List Nat)) : Run :=
  if n < t then Run.mk [Event.message] (some 1)
  else if files.length < 2 then
    let data := files.headD stdin
    Run.mk
      (Event.modulus (fieldPrime data.length) ::
        (List.range n).map fun i =>
          Event.written (i + 1) ((writeShares rnd n t data).getD i []))
      (some 0)
  else if (files.headD []).length < 5 then Run.mk [Event.stopped] none
  else
    match reconstruct files with
    | none =>
      Run.mk [Event.modulus (fieldPrime ((files.headD []).length - 4 - 1)), Event.stopped] none
    | some out =>
      Run.mk [Event.modulus (fieldPrime ((files.headD []).length - 4 - 1)), Event.output out]
        (some 0)

/-- The files at the given positions (0-based) of a list of share files, in the
order the positions are listed. -/
def pick (files : List (List Nat)) (idx : List Nat) : List (List Nat) :=
  idx.filterMap fun i => files[i]?

/-! ## Vocabulary for the statements -/

/-- A share file with bit `j` of byte `k` of its value field flipped (the value
field starts after the four index bytes). -/
def flipBit (file : List Nat) (k j : Nat) : List Nat :=
  file.set (4 + k) (Nat.xor (file.getD (4 + k) 0) (2 ^ j))

/-- The value in `ZMod p` of the Horner loop over the coefficient list `c` at
the point `x`, started from `init`: with `init = 0` the value of the
polynomial `c`, with `init = 1` the value of the monic polynomial whose lower
coefficients are `c`. -/
def evalZ {p : Nat} (init : ZMod p) (c : List Nat) (x : ZMod p) : ZMod p :=
  List.foldr (fun (ci : Nat) (acc : ZMod p) => acc * x + (ci : ZMod p)) init c

/-- The coefficient vector `distribute` evaluates: the secret reduced modulo
`p`, then the draws `1 .. t-1` of the generator, normalised. -/
def sharePoly (p : Nat) (rnd : Nat → Nat) (t : Nat) (data : List Nat) : List Nat :=
  SetCoeff (random_ZZ_pX p rnd t) 0 (toZZ_p p (ZZFromBytes data))

/-- The generator stream whose draws `1 .. m` are the field elements
`c 0 .. c (m-1)`; every other draw is 0 (draw 0 is overwritten by the secret). -/
def drawsOf {p m : Nat} (c : Fin m → Fin p) (i : Nat) : Nat :=
  if h : 0 < i ∧ i - 1 < m then (c ⟨i - 1, h.2⟩).val else 0

/-- The records the reading loop works with, for files read in order into
buffers of `w` bytes that hold `prev` before: each file is cut to `w` bytes, and
where it is shorter the bytes of the record before it remain at the missing
positions. -/
def completed (w : Nat) : List Nat → List (List Nat) → List (List Nat)
  | _, [] => []
  | prev, cur :: rest =>
    (cur.take w ++ prev.drop (cur.take w).length) ::
      completed w (cur.take w ++ prev.drop (cur.take w).length) rest

/-- The formula of the specification for the reconstructed value, on points
`(x_i, y_i)` given as residues modulo `p`: the sum over `i` of
`y_i * prod over j ≠ i of (-x_j) * inverse(x_i - x_j)`, reduced modulo `p`.
Negation, subtraction and the inverse are the field operations; where no
inverse exists the factor is 0. -/
def lagrangeAtZero (p : Nat) (pts : List (Nat × Nat)) : Nat :=
  ((List.range pts.length).map fun i =>
    (pts.getD i (0, 0)).2 *
      (((List.range pts.length).filter fun j => j ≠ i).map fun j =>
        negMod p (pts.getD j (0, 0)).1 *
          (invMod p (subMod p (pts.getD i (0, 0)).1 (pts.getD j (0, 0)).1)).getD 0).prod).sum % p

/-! ## The prime search -/

theorem NextPrimeLoop_eq (q : Nat) (hq : Nat.Prime q) :
    ∀ (fuel x : Nat), x ≤ q → q - x < fuel → (∀ r, x ≤ r → r < q → ¬ Nat.Prime r) →
      NextPrimeLoop fuel x = q := by
  intro fuel
  induction fuel with
  | zero => intro x _ h; omega
  | succ k ih =>
    intro x hx hk hno
    unfold NextPrimeLoop
    by_cases hxq : x = q
    · subst hxq; simp [ProbPrime, hq]
    · have hlt : x < q := lt_of_le_of_ne hx hxq
      have hnp : ¬ Nat.Prime x := hno x le_rfl hlt
      simp only [ProbPrime, hnp, decide_False, Bool.false_eq_true, if_false]
      exact ih (x + 1) hlt (by omega) (fun r hr hrq => hno r (by omega) hrq)

theorem exists_prime_ge (m : Nat) : ∃ q, Nat.Prime q ∧ m ≤ q := by
  obtain ⟨q, hmq, hq⟩ := Nat.exists_infinite_primes m
  exact ⟨q, hq, hmq⟩

/-- The value of `NextPrime`: the least prime not below `m`. -/
theorem NextPrime_eq_find (m : Nat) : NextPrime m = Nat.find (exists_prime_ge m) := by
  have hspec := Nat.find_spec (exists_prime_ge m)
  have hmin := fun r => Nat.find_min (exists_prime_ge m) (m := r)
  unfold NextPrime
  split
  · rename_i hm
    have h2 : Nat.find (exists_prime_ge m) ≤ 2 :=
      Nat.find_min' (exists_prime_ge m) ⟨Nat.prime_two, hm⟩
    have := hspec.1.two_le
    omega
  · rename_i hm
    obtain ⟨q, hq, hmq, hq2⟩ := Nat.exists_prime_lt_and_le_two_mul m (by omega)
    have hle : Nat.find (exists_prime_ge m) ≤ q :=
      Nat.find_min' (exists_prime_ge m) ⟨hq, hmq.le⟩
    have hne : q ≠ 2 * m := by
      intro h
      rw [h] at hq
      have := (Nat.prime_mul_iff.mp hq)
      rcases this with ⟨_, h1⟩ | ⟨_, h1⟩ <;> omega
    apply NextPrimeLoop_eq _ hspec.1 _ _ hspec.2 (by omega)
    intro r hr hrq hp
    exact hmin r hrq ⟨hp, hr⟩

theorem NextPrime_prime (m : Nat) : Nat.Prime (NextPrime m) := by
  rw [NextPrime_eq_find]; exact (Nat.find_spec (exists_prime_ge m)).1

theorem NextPrime_ge (m : Nat) : m ≤ NextPrime m := by
  rw [NextPrime_eq_find]; exact (Nat.find_spec (exists_prime_ge m)).2

theorem NextPrime_le_of_prime (m q : Nat) (hq : Nat.Prime q) (hmq : m ≤ q) :
    NextPrime m ≤ q := by
  rw [NextPrime_eq_find]; exact Nat.find_min' (exists_prime_ge m) ⟨hq, hmq⟩

theorem NextPrime_eq_of_least (m q : Nat) (hq : Nat.Prime q) (hmq : m ≤ q)
    (hno : ∀ r, m ≤ r → r < q → ¬ Nat.Prime r) : NextPrime m = q := by
  apply le_antisymm (NextPrime_le_of_prime m q hq hmq)
  by_contra h
  exact hno _ (NextPrime_ge m) (by omega) (NextPrime_prime m)

theorem NextPrime_le_two_mul (m : Nat) (hm : 0 < m) : NextPrime m ≤ 2 * m := by
  obtain ⟨q, hq, hmq, hq2⟩ := Nat.exists_prime_lt_and_le_two_mul m (by omega)
  exact (NextPrime_le_of_prime m q hq hmq.le).trans hq2

theorem fieldPrime_prime (L : Nat) : Nat.Prime (fieldPrime L) := NextPrime_prime _

theorem not_prime_two_pow_eight (L : Nat) : ¬ Nat.Prime (2 ^ (8 * L)) := by
  intro h
  have := (Nat.Prime.pow_eq_iff (p := 2 ^ (8 * L)) (a := 2) (k := 8 * L) h).mp rfl
  omega

theorem fieldPrime_gt (L : Nat) : 2 ^ (8 * L) < fieldPrime L := by
  rcases Nat.eq_zero_or_pos L with rfl | hL
  · simp [fieldPrime, NextPrime]
  · have h1 : 2 ^ (8 * L) ≤ fieldPrime L := NextPrime_ge _
    have h2 := fieldPrime_prime L
    rcases Nat.lt_or_ge (2 ^ (8 * L)) (fieldPrime L) with h | h
    · exact h
    · exact absurd (le_antisymm h h1 ▸ h2) (not_prime_two_pow_eight L)

theorem fieldPrime_le (L : Nat) : fieldPrime L ≤ 2 ^ (8 * L + 1) := by
  have := NextPrime_le_two_mul (2 ^ (8 * L)) (by positivity)
  simpa [fieldPrime, pow_succ, mul_comm] using this

theorem fieldPrime_zero : fieldPrime 0 = 2 := by simp [fieldPrime, NextPrime]

theorem fieldPrime_one : fieldPrime 1 = 257 := by
  apply NextPrime_eq_of_least _ _ (by norm_num) (by norm_num)
  intro r h1 h2
  have : r = 256 := by norm_num at h1; omega
  subst this; norm_num

theorem fieldPrime_two : fieldPrime 2 = 65537 := by
  apply NextPrime_eq_of_least _ _ (by norm_num) (by norm_num)
  intro r h1 h2
  have : r = 65536 := by norm_num at h1; omega
  subst this; norm_num

/-! ## Byte conversions -/

theorem BytesFromZZ_length (a n : Nat) : (BytesFromZZ a n).length = n := by
  induction n generalizing a with
  | zero => rfl
  | succ k ih => simp [BytesFromZZ, ih]

theorem BytesFromZZ_isBytes (a n : Nat) : IsBytes (BytesFromZZ a n) := by
  induction n generalizing a with
  | zero => intro b hb; simp [BytesFromZZ] at hb
  | succ k ih =>
    intro b hb
    simp only [BytesFromZZ, List.mem_cons] at hb
    rcases hb with rfl | hb
    · exact Nat.mod_lt _ (by norm_num)
    · exact ih _ b hb

theorem ZZFromBytes_BytesFromZZ (a n : Nat) :
    ZZFromBytes (BytesFromZZ a n) = a % 256 ^ n := by
  induction n generalizing a with
  | zero => simp [BytesFromZZ, ZZFromBytes, Nat.mod_one]
  | succ k ih =>
    simp only [BytesFromZZ, ZZFromBytes, ih]
    rw [pow_succ, mul_comm (256 ^ k) 256, Nat.mod_mul, add_comm]

theorem ZZFromBytes_lt (d : List Nat) (hd : IsBytes d) : ZZFromBytes d < 256 ^ d.length := by
  induction d with
  | nil => simp [ZZFromBytes]
  | cons b bs ih =>
    have hb : b < 256 := hd b (List.mem_cons_self _ _)
    have := ih (fun c hc => hd c (List.mem_cons_of_mem _ hc))
    simp only [ZZFromBytes, List.length_cons, pow_succ]
    omega

theorem BytesFromZZ_ZZFromBytes (d : List Nat) (hd : IsBytes d) (k : Nat) :
    BytesFromZZ (ZZFromBytes d) (d.length + k) = d ++ List.replicate k 0 := by
  induction d with
  | nil =>
    simp only [ZZFromBytes, List.length_nil, Nat.zero_add, List.nil_append]
    induction k with
    | zero => rfl
    | succ j ih => simp [BytesFromZZ, List.replicate_succ, ih]
  | cons b bs ih =>
    have hb : b < 256 := hd b (List.mem_cons_self _ _)
    have := ih (fun c hc => hd c (List.mem_cons_of_mem _ hc))
    have e : bs.length + 1 + k = (bs.length + k) + 1 := by omega
    simp only [ZZFromBytes, List.length_cons, e, BytesFromZZ, List.cons_append]
    have h1 : (b + 256 * ZZFromBytes bs) % 256 = b := by omega
    have h2 : (b + 256 * ZZFromBytes bs) / 256 = ZZFromBytes bs := by omega
    rw [h1, h2, this]

theorem BytesFromZZ_small (a k j : Nat) (h : a < 256 ^ k) :
    BytesFromZZ a (k + j) = BytesFromZZ a k ++ List.replicate j 0 := by
  have h1 := BytesFromZZ_ZZFromBytes (BytesFromZZ a k) (BytesFromZZ_isBytes a k) j
  rw [ZZFromBytes_BytesFromZZ, BytesFromZZ_length, Nat.mod_eq_of_lt h] at h1
  exact h1

theorem pow_256 (n : Nat) : 256 ^ n = 2 ^ (8 * n) := by
  rw [pow_mul]; norm_num

/-! ## Modular inverse -/

theorem xgcdLoop_spec (n a : Nat) :
    ∀ (fuel r0 r1 : Nat) (s0 s1 : Int), r1 < fuel →
      (n : Int) ∣ (s0 * a - r0) → (n : Int) ∣ (s1 * a - r1) →
      (xgcdLoop fuel r0 r1 s0 s1).1 = Nat.gcd r0 r1 ∧
        (n : Int) ∣ ((xgcdLoop fuel r0 r1 s0 s1).2 * a - (Nat.gcd r0 r1 : Nat)) := by
  intro fuel
  induction fuel with
  | zero => intro r0 r1 s0 s1 h; omega
  | succ k ih =>
    intro r0 r1 s0 s1 hk h0 h1
    unfold xgcdLoop
    by_cases hr : r1 = 0
    · subst hr
      simpa using h0
    · simp only [hr, if_false]
      have hlt : r0 % r1 < r1 := Nat.mod_lt _ (Nat.pos_of_ne_zero hr)
      have hg : Nat.gcd r1 (r0 % r1) = Nat.gcd r0 r1 := by
        rw [Nat.gcd_comm r0 r1, Nat.gcd_rec r1 r0, Nat.gcd_comm]
      have key : (n : Int) ∣
          ((s0 - ((r0 / r1 : Nat) : Int) * s1) * a - ((r0 % r1 : Nat) : Int)) := by
        have e2 : (r0 : Int) = r1 * ((r0 / r1 : Nat) : Int) + ((r0 % r1 : Nat) : Int) := by
          exact_mod_cast (Nat.div_add_mod r0 r1).symm
        have e : ((s0 - ((r0 / r1 : Nat) : Int) * s1) * a - ((r0 % r1 : Nat) : Int))
            = (s0 * a - r0) - ((r0 / r1 : Nat) : Int) * (s1 * a - r1) := by
          linear_combination e2
        rw [e]
        exact dvd_sub h0 (Dvd.dvd.mul_left h1 _)
      have := ih r1 (r0 % r1) s1 (s0 - ((r0 / r1 : Nat) : Int) * s1) (by omega) h1 key
      rw [hg] at this
      exact this

theorem invMod_spec (n a : Nat) (hn : 1 < n) (ha : a ≤ n) :
    (Nat.gcd n a = 1 → ∃ x, invMod n a = some x ∧ x < n ∧ (x * a) % n = 1) ∧
    (Nat.gcd n a ≠ 1 → invMod n a = none) := by
  have h := xgcdLoop_spec n a (n + 1) n a 0 1 (by omega) (by simp) (by simp)
  obtain ⟨h1, h2⟩ := h
  unfold invMod
  generalize xgcdLoop (n + 1) n a 0 1 = r at h1 h2
  obtain ⟨g, s⟩ := r
  simp only at h1 h2
  subst h1
  have hpos : (0 : Int) < n := by exact_mod_cast (by omega : 0 < n)
  have h0 := Int.emod_nonneg s (ne_of_gt hpos)
  constructor
  · intro hg
    simp only [hg, if_true]
    refine ⟨_, rfl, ?_, ?_⟩
    · have := Int.emod_lt_of_pos s hpos
      omega
    · have hc : (((s % (n : Int)).toNat : Nat) : Int) = s % n := Int.toNat_of_nonneg h0
      rw [hg] at h2
      have h3 : (s * a) % (n : Int) = 1 % n :=
        Int.emod_eq_emod_iff_emod_sub_eq_zero.mpr (Int.emod_eq_zero_of_dvd h2)
      have : (((s % (n : Int)).toNat * a % n : Nat) : Int) = ((1 % n : Nat) : Int) := by
        push_cast
        rw [hc, ← h3, Int.mul_emod, Int.emod_emod_of_dvd _ (dvd_refl _), ← Int.mul_emod]
      have h4 : (s % (n : Int)).toNat * a % n = 1 % n := by exact_mod_cast this
      rw [h4, Nat.mod_eq_of_lt hn]
  · intro hg
    simp [hg]

/-! ## Residues as elements of `ZMod p` -/

theorem addMod_cast (p a b : Nat) : ((addMod p a b : Nat) : ZMod p) = a + b := by
  simp [addMod, ZMod.natCast_mod]

theorem mulMod_cast (p a b : Nat) : ((mulMod p a b : Nat) : ZMod p) = a * b := by
  simp [mulMod, ZMod.natCast_mod]

theorem subMod_cast (p a b : Nat) (hb : b ≤ p) :
    ((subMod p a b : Nat) : ZMod p) = a - b := by
  simp [subMod, ZMod.natCast_mod, Nat.cast_sub hb, sub_eq_add_neg]

theorem negMod_cast (p a : Nat) (ha : a ≤ p) : ((negMod p a : Nat) : ZMod p) = -a := by
  simp [negMod, ZMod.natCast_mod, Nat.cast_sub ha]

theorem addMod_lt (p a b : Nat) (hp : 0 < p) : addMod p a b < p := Nat.mod_lt _ hp

theorem mulMod_lt (p a b : Nat) (hp : 0 < p) : mulMod p a b < p := Nat.mod_lt _ hp

theorem negMod_lt (p a : Nat) (hp : 0 < p) : negMod p a < p := Nat.mod_lt _ hp

theorem horner_cast (p init : Nat) (c : List Nat) (a : Nat) :
    ((horner p init c a : Nat) : ZMod p) = evalZ (init : ZMod p) c (a : ZMod p) := by
  induction c with
  | nil => rfl
  | cons ci cs ih =>
    simp only [horner, evalZ, List.foldr_cons] at ih ⊢
    rw [addMod_cast, mulMod_cast, ih]

theorem eval_cast (p : Nat) (f : List Nat) (a : Nat) :
    ((eval p f a : Nat) : ZMod p) = evalZ 0 f (a : ZMod p) := by
  simpa using horner_cast p 0 f a

theorem horner_lt (p init : Nat) (c : List Nat) (a : Nat) (hp : 0 < p) (hi : init < p) :
    horner p init c a < p := by
  cases c with
  | nil => exact hi
  | cons ci cs => exact Nat.mod_lt _ hp

theorem eval_lt (p : Nat) (f : List Nat) (a : Nat) (hp : 0 < p) : eval p f a < p :=
  horner_lt p 0 f a hp hp

theorem natCast_inj_of_lt (p a b : Nat) (ha : a < p) (hb : b < p)
    (h : (a : ZMod p) = (b : ZMod p)) : a = b := by
  have := (ZMod.natCast_eq_natCast_iff' a b p).mp h
  rwa [Nat.mod_eq_of_lt ha, Nat.mod_eq_of_lt hb] at this

theorem invMod_none (p a : Nat) (hp : Nat.Prime p) (ha : a < p) (h0 : (a : ZMod p) = 0) :
    invMod p a = none := by
  have hd : p ∣ a := (ZMod.natCast_zmod_eq_zero_iff_dvd a p).mp h0
  have : a = 0 := Nat.eq_zero_of_dvd_of_lt hd ha
  subst this
  apply (invMod_spec p 0 hp.one_lt (by omega)).2
  simp
  exact hp.one_lt.ne'

theorem invMod_some (p a : Nat) [Fact p.Prime] (ha : a < p) (h0 : (a : ZMod p) ≠ 0) :
    ∃ x, invMod p a = some x ∧ x < p ∧ (x : ZMod p) = (a : ZMod p)⁻¹ := by
  have hp : Nat.Prime p := Fact.out
  have hnd : ¬ p ∣ a := fun hd => h0 ((ZMod.natCast_zmod_eq_zero_iff_dvd a p).mpr hd)
  have hg : Nat.gcd p a = 1 := (Nat.Prime.coprime_iff_not_dvd hp).mpr hnd
  obtain ⟨x, hx, hlt, hmul⟩ := (invMod_spec p a hp.one_lt ha.le).1 hg
  refine ⟨x, hx, hlt, ?_⟩
  have h1 : ((x * a % p : Nat) : ZMod p) = ((1 : Nat) : ZMod p) := by rw [hmul]
  rw [ZMod.natCast_mod] at h1
  push_cast at h1
  exact eq_inv_of_mul_eq_one_left h1

/-! ## The steps of `interpolate` as polynomial identities -/

theorem evalZ_cons {p : Nat} (init : ZMod p) (c : Nat) (cs : List Nat) (x : ZMod p) :
    evalZ init (c :: cs) x = evalZ init cs x * x + (c : ZMod p) := rfl

theorem evalZ_nil {p : Nat} (init x : ZMod p) : evalZ init [] x = init := rfl

theorem evalZ_resUpdate (p t : Nat) (x : ZMod p) :
    ∀ (res prod : List Nat), res.length = prod.length →
      evalZ 0 (List.zipWith (fun r q => addMod p r (mulMod p q t)) res prod ++ [t]) x
        = evalZ 0 res x + (t : ZMod p) * evalZ 1 prod x := by
  intro res
  induction res with
  | nil =>
    intro prod h
    cases prod with
    | nil => simp [evalZ_cons, evalZ_nil]
    | cons q qs => simp at h
  | cons r rs ih =>
    intro prod h
    cases prod with
    | nil => simp at h
    | cons q qs =>
      simp only [List.length_cons, Nat.add_right_cancel_iff] at h
      simp only [List.zipWith_cons_cons, List.cons_append, evalZ_cons, ih qs h,
        addMod_cast, mulMod_cast]
      ring

theorem resUpdate_length (p t : Nat) (res prod : List Nat) (h : res.length = prod.length) :
    (List.zipWith (fun r q => addMod p r (mulMod p q t)) res prod ++ [t]).length
      = res.length + 1 := by
  simp [h]

theorem resUpdate_lt (p t : Nat) (hp : 0 < p) (ht : t < p) (res prod : List Nat) :
    ∀ c ∈ List.zipWith (fun r q => addMod p r (mulMod p q t)) res prod ++ [t], c < p := by
  intro c hc
  rcases List.mem_append.mp hc with h | h
  · obtain ⟨i, hi, rfl⟩ := List.getElem_of_mem h
    simp only [List.getElem_zipWith]
    exact Nat.mod_lt _ hp
  · simp only [List.mem_singleton] at h
    exact h ▸ ht

theorem evalZ_prodShift (p t1 : Nat) (x : ZMod p) :
    ∀ (cs : List Nat) (prev : Nat),
      evalZ 1 (prodShift p t1 prev cs) x
        = evalZ 1 cs x * (x + (t1 : ZMod p)) + (prev : ZMod p) := by
  intro cs
  induction cs with
  | nil =>
    intro prev
    simp only [prodShift, evalZ_cons, evalZ_nil, addMod_cast]
    ring
  | cons c cs ih =>
    intro prev
    simp only [prodShift, evalZ_cons, ih c, addMod_cast, mulMod_cast]
    ring

theorem prodShift_length (p t1 : Nat) :
    ∀ (cs : List Nat) (prev : Nat), (prodShift p t1 prev cs).length = cs.length + 1 := by
  intro cs
  induction cs with
  | nil => intro prev; rfl
  | cons c cs ih => intro prev; simp [prodShift, ih c]

theorem evalZ_prodStep (p : Nat) (prod : List Nat) (a : Nat) (ha : a ≤ p) (x : ZMod p) :
    evalZ 1 (prodStep p prod a) x = evalZ 1 prod x * (x - (a : ZMod p)) := by
  cases prod with
  | nil =>
    simp only [prodStep, evalZ_cons, evalZ_nil, negMod_cast p a ha]
    ring
  | cons c cs =>
    simp only [prodStep, evalZ_cons, evalZ_prodShift, mulMod_cast, negMod_cast p a ha]
    ring

theorem prodStep_length (p : Nat) (prod : List Nat) (a : Nat) :
    (prodStep p prod a).length = prod.length + 1 := by
  cases prod with
  | nil => rfl
  | cons c cs => simp [prodStep, prodShift_length]

/-! ## The loop of `interpolate` -/

theorem interpLoop_cons_some (p : Nat) (prod res : List Nat) (aa bb : Nat)
    (rest : List (Nat × Nat)) (t1i : Nat) (h : invMod p (horner p 1 prod aa) = some t1i) :
    interpLoop p prod res ((aa, bb) :: rest)
      = interpLoop p (if rest.isEmpty then prod else prodStep p prod aa)
          (List.zipWith
              (fun r q => addMod p r (mulMod p q (mulMod p t1i (subMod p bb (horner p 0 res aa)))))
              res prod
            ++ [mulMod p t1i (subMod p bb (horner p 0 res aa))])
          rest := by
  simp [interpLoop, h]

theorem interpLoop_cons_none (p : Nat) (prod res : List Nat) (aa bb : Nat)
    (rest : List (Nat × Nat)) (h : invMod p (horner p 1 prod aa) = none) :
    interpLoop p prod res ((aa, bb) :: rest) = none := by
  simp [interpLoop, h]

theorem pivot_ne_zero (p : Nat) [Fact p.Prime] (done : List (Nat × Nat)) (aa : Nat)
    (haa : aa < p) (hd : ∀ q ∈ done, q.1 < p) (hn : aa ∉ done.map Prod.fst) :
    (done.map fun q => (aa : ZMod p) - (q.1 : ZMod p)).prod ≠ 0 := by
  apply List.prod_ne_zero
  intro h0
  obtain ⟨q, hq, hq0⟩ := List.mem_map.mp h0
  have : (aa : ZMod p) = (q.1 : ZMod p) := sub_eq_zero.mp hq0
  have e := natCast_inj_of_lt p aa q.1 haa (hd q hq) this
  exact hn (List.mem_map.mpr ⟨q, hq, e.symm⟩)

theorem pivot_eq_zero (p : Nat) (done : List (Nat × Nat)) (aa : Nat)
    (hn : aa ∈ done.map Prod.fst) :
    (done.map fun q => (aa : ZMod p) - (q.1 : ZMod p)).prod = 0 := by
  apply List.prod_eq_zero
  obtain ⟨q, hq, rfl⟩ := List.mem_map.mp hn
  exact List.mem_map.mpr ⟨q, hq, sub_self _⟩

theorem interpLoop_spec (p : Nat) [Fact p.Prime] :
    ∀ (pts done : List (Nat × Nat)) (prod res : List Nat),
      prod.length = done.length → res.length = done.length →
      (∀ x : ZMod p, evalZ 1 prod x = (done.map fun q => x - (q.1 : ZMod p)).prod) →
      (∀ q ∈ done, evalZ 0 res (q.1 : ZMod p) = (q.2 : ZMod p)) →
      (∀ c ∈ res, c < p) →
      (∀ q ∈ done ++ pts, q.1 < p ∧ q.2 < p) →
      ((done ++ pts).map Prod.fst).Nodup →
      ∃ r, interpLoop p prod res pts = some r ∧ r.length = done.length + pts.length ∧
        (∀ q ∈ done ++ pts, evalZ 0 r (q.1 : ZMod p) = (q.2 : ZMod p)) ∧ ∀ c ∈ r, c < p := by
  have hp : Nat.Prime p := Fact.out
  intro pts
  induction pts with
  | nil =>
    intro done prod res _ hr _ hev hlt _ _
    exact ⟨res, rfl, by simpa using hr, by simpa using hev, hlt⟩
  | cons pt rest ih =>
    obtain ⟨aa, bb⟩ := pt
    intro done prod res hpl hrl hprod hev hlt hbound hnd
    have haa : aa < p ∧ bb < p := hbound (aa, bb) (by simp)
    have hdone : ∀ q ∈ done, q.1 < p := fun q hq => (hbound q (by simp [hq])).1
    have hperm : List.Perm (done ++ (aa, bb) :: rest) (((aa, bb) :: done) ++ rest) := by
      simp
    have hnd2 : ((((aa, bb) :: done) ++ rest).map Prod.fst).Nodup :=
      (hperm.map Prod.fst).nodup_iff.mp hnd
    have hnotin : aa ∉ done.map Prod.fst := by
      have h1 : (((aa, bb) :: done).map Prod.fst).Nodup := by
        rw [List.map_append] at hnd2
        exact (List.nodup_append.mp hnd2).1
      simpa using (List.nodup_cons.mp h1).1
    have hpiv : ((horner p 1 prod aa : Nat) : ZMod p) ≠ 0 := by
      rw [horner_cast, Nat.cast_one, hprod]
      exact pivot_ne_zero p done aa haa.1 hdone hnotin
    obtain ⟨t1i, hinv, _, hinvc⟩ :=
      invMod_some p (horner p 1 prod aa) (horner_lt p 1 prod aa hp.pos hp.one_lt) hpiv
    rw [interpLoop_cons_some p prod res aa bb rest t1i hinv]
    set t := mulMod p t1i (subMod p bb (horner p 0 res aa)) with ht
    have htc : (t : ZMod p) * evalZ 1 prod (aa : ZMod p)
        = (bb : ZMod p) - evalZ 0 res (aa : ZMod p) := by
      rw [ht, mulMod_cast, subMod_cast p bb _ (horner_lt p 0 res aa hp.pos hp.pos).le, hinvc,
        horner_cast, horner_cast, Nat.cast_one, Nat.cast_zero]
      have hne : evalZ 1 prod (aa : ZMod p) ≠ 0 := by
        rw [horner_cast, Nat.cast_one] at hpiv; exact hpiv
      field_simp
    have hev2 : ∀ q ∈ (aa, bb) :: done,
        evalZ 0 (List.zipWith (fun r q => addMod p r (mulMod p q t)) res prod ++ [t])
          (q.1 : ZMod p) = (q.2 : ZMod p) := by
      intro q hq
      rw [evalZ_resUpdate p t _ res prod (hrl.trans hpl.symm)]
      rcases List.mem_cons.mp hq with rfl | hq
      · rw [htc]; ring
      · rw [hprod, hev q hq]
        have : (done.map fun r => (q.1 : ZMod p) - (r.1 : ZMod p)).prod = 0 :=
          pivot_eq_zero p done q.1 (List.mem_map.mpr ⟨q, hq, rfl⟩)
        rw [this]; ring
    have hlt2 := resUpdate_lt p t hp.pos (Nat.mod_lt _ hp.pos) res prod
    have hrl2 := resUpdate_length p t res prod (hrl.trans hpl.symm)
    have hbound2 : ∀ q ∈ ((aa, bb) :: done) ++ rest, q.1 < p ∧ q.2 < p :=
      fun q hq => hbound q (hperm.symm.subset hq)
    cases rest with
    | nil =>
      refine ⟨_, by simp [interpLoop], by simp [hrl2, hrl], ?_, hlt2⟩
      intro q hq
      exact hev2 q (by
        rcases List.mem_append.mp hq with h | h
        · exact List.mem_cons_of_mem _ h
        · simp only [List.mem_singleton] at h; exact h ▸ List.mem_cons_self _ _)
    | cons pt2 rest2 =>
      have hprod2 : ∀ x : ZMod p, evalZ 1 (prodStep p prod aa) x
          = ((((aa, bb) :: done).map fun q => x - (q.1 : ZMod p))).prod := by
        intro x
        rw [evalZ_prodStep p prod aa haa.1.le, hprod, List.map_cons, List.prod_cons]
        ring
      obtain ⟨r, hr, hlen, hevr, hltr⟩ :=
        ih ((aa, bb) :: done) (prodStep p prod aa) _
          (by rw [prodStep_length, hpl]; rfl) (by rw [hrl2, hrl]; rfl) hprod2 hev2 hlt2
          hbound2 hnd2
      refine ⟨r, by simpa using hr, ?_, ?_, hltr⟩
      · rw [hlen]; simp only [List.length_cons]; omega
      · intro q hq
        exact hevr q (hperm.subset hq)

/-! ## Coefficient vectors and normalisation -/

theorem normalize_eq_nil_iff (l : List Nat) : normalize l = [] ↔ ∀ c ∈ l, c = 0 := by
  induction l with
  | nil => simp [normalize]
  | cons c cs ih =>
    unfold normalize
    cases h : normalize cs with
    | nil =>
      have hcs := ih.mp h
      by_cases hc : c = 0
      · simp only [hc, if_true, true_iff]
        intro x hx
        rcases List.mem_cons.mp hx with rfl | hx
        · rfl
        · exact hcs x hx
      · simp [hc]
    | cons r rs =>
      have hne : ¬ ∀ x ∈ cs, x = 0 := fun hall => by
        have := ih.mpr hall
        rw [h] at this
        exact List.cons_ne_nil _ _ this
      simp only [reduceCtorEq, false_iff]
      intro hall
      exact hne (fun x hx => hall x (List.mem_cons_of_mem _ hx))

theorem normalize_cons_congr (c : Nat) (l1 l2 : List Nat) (h : normalize l1 = normalize l2) :
    normalize (c :: l1) = normalize (c :: l2) := by
  simp only [normalize, h]

theorem getD_zero_of_all_zero (l : List Nat) (h : ∀ c ∈ l, c = 0) (i : Nat) :
    l.getD i 0 = 0 := by
  rcases Nat.lt_or_ge i l.length with hi | hi
  · rw [List.getD_eq_getElem _ _ hi]
    exact h _ (List.getElem_mem hi)
  · exact List.getD_eq_default _ _ hi

theorem all_zero_of_getD_zero (l : List Nat) (h : ∀ i, l.getD i 0 = 0) : ∀ c ∈ l, c = 0 := by
  intro c hc
  obtain ⟨i, hi, rfl⟩ := List.getElem_of_mem hc
  rw [← List.getD_eq_getElem _ 0 hi]
  exact h i

theorem normalize_congr :
    ∀ (l1 l2 : List Nat), (∀ i, l1.getD i 0 = l2.getD i 0) → normalize l1 = normalize l2 := by
  intro l1
  induction l1 with
  | nil =>
    intro l2 h
    have : normalize l2 = [] :=
      (normalize_eq_nil_iff l2).mpr (all_zero_of_getD_zero l2 (fun i => by simpa using (h i).symm))
    rw [this]; rfl
  | cons c cs ih =>
    intro l2 h
    cases l2 with
    | nil =>
      have : normalize (c :: cs) = [] :=
        (normalize_eq_nil_iff _).mpr (all_zero_of_getD_zero _ (fun i => by simpa using h i))
      rw [this]; rfl
    | cons d ds =>
      have h0 : c = d := by simpa using h 0
      subst h0
      exact normalize_cons_congr c cs ds (ih ds (fun i => by simpa using h (i + 1)))

theorem normalize_getD (l : List Nat) (i : Nat) : (normalize l).getD i 0 = l.getD i 0 := by
  induction l generalizing i with
  | nil => rfl
  | cons c cs ih =>
    unfold normalize
    cases h : normalize cs with
    | nil =>
      have hz := getD_zero_of_all_zero cs ((normalize_eq_nil_iff cs).mp h)
      by_cases hc : c = 0
      · subst hc
        cases i with
        | zero => simp
        | succ j =>
          have := hz j
          simp only [List.getD_eq_getElem?_getD] at this
          simp [this]
      · cases i with
        | zero => simp [hc]
        | succ j =>
          have := hz j
          simp only [List.getD_eq_getElem?_getD] at this
          simp [hc, this]
    | cons r rs =>
      cases i with
      | zero => simp
      | succ j =>
        have := ih j
        rw [h] at this
        simpa using this

theorem normalize_idem (l : List Nat) : normalize (normalize l) = normalize l :=
  normalize_congr _ _ (normalize_getD l)

theorem normalize_lt (p : Nat) (l : List Nat) (h : ∀ c ∈ l, c < p) :
    ∀ c ∈ normalize l, c < p := by
  induction l with
  | nil => intro c hc; simp [normalize] at hc
  | cons d ds ih =>
    have hd := h d (List.mem_cons_self _ _)
    have ih2 := ih (fun c hc => h c (List.mem_cons_of_mem _ hc))
    unfold normalize
    cases hn : normalize ds with
    | nil =>
      by_cases hc : d = 0
      · simp [hc]
      · simp [hc]; exact hd
    | cons r rs =>
      intro c hc
      rcases List.mem_cons.mp hc with rfl | hc
      · exact hd
      · exact ih2 c (hn ▸ hc)

theorem normalize_length_le (l : List Nat) : (normalize l).length ≤ l.length := by
  induction l with
  | nil => simp [normalize]
  | cons d ds ih =>
    unfold normalize
    cases hn : normalize ds with
    | nil => by_cases hc : d = 0 <;> simp [hc]
    | cons r rs => rw [hn] at ih; simpa using ih

theorem evalZ_normalize {p : Nat} (l : List Nat) (x : ZMod p) :
    evalZ 0 (normalize l) x = evalZ 0 l x := by
  induction l with
  | nil => rfl
  | cons c cs ih =>
    unfold normalize
    cases h : normalize cs with
    | nil =>
      rw [h] at ih
      by_cases hc : c = 0
      · simp [hc, evalZ_cons, ← ih, evalZ_nil]
      · simp [hc, evalZ_cons, ← ih, evalZ_nil]
    | cons r rs =>
      rw [h] at ih
      simp only [evalZ_cons] at ih ⊢
      rw [ih]

/-! ## Uniqueness of the interpolant -/

theorem listPoly_eval {p : Nat} (l : List Nat) (x : ZMod p) :
    Polynomial.eval x (List.foldr (fun (c : Nat) (acc : Polynomial (ZMod p)) =>
        Polynomial.C (c : ZMod p) + Polynomial.X * acc) 0 l) = evalZ 0 l x := by
  induction l with
  | nil => simp [evalZ_nil]
  | cons c cs ih =>
    simp only [List.foldr_cons, Polynomial.eval_add, Polynomial.eval_C, Polynomial.eval_mul,
      Polynomial.eval_X, ih, evalZ_cons]
    ring

theorem listPoly_coeff {p : Nat} (l : List Nat) (i : Nat) :
    Polynomial.coeff (List.foldr (fun (c : Nat) (acc : Polynomial (ZMod p)) =>
        Polynomial.C (c : ZMod p) + Polynomial.X * acc) 0 l) i = ((l.getD i 0 : Nat) : ZMod p) := by
  induction l generalizing i with
  | nil => simp
  | cons c cs ih =>
    cases i with
    | zero => simp
    | succ j =>
      simp only [List.foldr_cons, Polynomial.coeff_add, Polynomial.coeff_C_succ,
        Polynomial.coeff_X_mul, ih, zero_add]
      simp

theorem listPoly_degree_lt {p : Nat} (l : List Nat) (m : Nat) (h : l.length ≤ m) :
    Polynomial.degree (List.foldr (fun (c : Nat) (acc : Polynomial (ZMod p)) =>
        Polynomial.C (c : ZMod p) + Polynomial.X * acc) 0 l) < (m : WithBot Nat) := by
  rw [Polynomial.degree_lt_iff_coeff_zero]
  intro i hi
  rw [listPoly_coeff, List.getD_eq_default _ _ (by omega)]
  simp

/-- Two coefficient vectors of length at most `m` with the same values at `m`
distinct points of `GF(p)` have the same coefficients. -/
theorem coeffs_unique (p : Nat) [Fact p.Prime] (l1 l2 : List Nat) (a : List Nat)
    (h1 : ∀ c ∈ l1, c < p) (h2 : ∀ c ∈ l2, c < p)
    (hl1 : l1.length ≤ a.length) (hl2 : l2.length ≤ a.length)
    (ha : ∀ x ∈ a, x < p) (hnd : a.Nodup)
    (hev : ∀ x ∈ a, evalZ 0 l1 (x : ZMod p) = evalZ 0 l2 (x : ZMod p)) :
    ∀ i, l1.getD i 0 = l2.getD i 0 := by
  classical
  have hinj : ∀ x ∈ a, ∀ y ∈ a, ((x : Nat) : ZMod p) = (y : ZMod p) → x = y :=
    fun x hx y hy h => natCast_inj_of_lt p x y (ha x hx) (ha y hy) h
  have hnd2 : (a.map (fun x : Nat => (x : ZMod p))).Nodup := List.Nodup.map_on hinj hnd
  have hcard : ((a.map (fun x : Nat => (x : ZMod p))).toFinset).card = a.length := by
    rw [List.toFinset_card_of_nodup hnd2, List.length_map]
  have key := Polynomial.eq_of_degrees_lt_of_eval_finset_eq
    (f := List.foldr (fun (c : Nat) (acc : Polynomial (ZMod p)) =>
        Polynomial.C (c : ZMod p) + Polynomial.X * acc) 0 l1)
    (g := List.foldr (fun (c : Nat) (acc : Polynomial (ZMod p)) =>
        Polynomial.C (c : ZMod p) + Polynomial.X * acc) 0 l2)
    ((a.map (fun x : Nat => (x : ZMod p))).toFinset)
    (by rw [hcard]; exact listPoly_degree_lt l1 _ hl1)
    (by rw [hcard]; exact listPoly_degree_lt l2 _ hl2)
    (by
      intro x hx
      rw [List.mem_toFinset] at hx
      obtain ⟨y, hy, rfl⟩ := List.mem_map.mp hx
      rw [listPoly_eval, listPoly_eval]
      exact hev y hy)
  intro i
  have hc := congrArg (fun P => Polynomial.coeff P i) key
  simp only [listPoly_coeff] at hc
  have b1 : l1.getD i 0 < p := by
    rcases Nat.lt_or_ge i l1.length with hi | hi
    · rw [List.getD_eq_getElem _ _ hi]; exact h1 _ (List.getElem_mem hi)
    · rw [List.getD_eq_default _ _ hi]; exact (Fact.out : p.Prime).pos
  have b2 : l2.getD i 0 < p := by
    rcases Nat.lt_or_ge i l2.length with hi | hi
    · rw [List.getD_eq_getElem _ _ hi]; exact h2 _ (List.getElem_mem hi)
    · rw [List.getD_eq_default _ _ hi]; exact (Fact.out : p.Prime).pos
  exact natCast_inj_of_lt p _ _ b1 b2 hc

/-! ## What `interpolate` returns -/

theorem zip_map_eq (a : List Nat) (g : Nat → Nat) :
    List.zip a (a.map g) = a.map fun x => (x, g x) := by
  induction a with
  | nil => rfl
  | cons x xs ih => simp [ih]

/-- On pairwise distinct points `interpolate` succeeds and returns a vector with
the requested values. -/
theorem interpolate_spec (p : Nat) [Fact p.Prime] (a : List Nat) (g : Nat → Nat)
    (ha : ∀ x ∈ a, x < p) (hg : ∀ x ∈ a, g x < p) (hnd : a.Nodup) :
    ∃ r, interpolate p a (a.map g) = some (normalize r) ∧ r.length = a.length ∧
      (∀ c ∈ r, c < p) ∧ ∀ x ∈ a, evalZ 0 r (x : ZMod p) = (g x : ZMod p) := by
  have hp : Nat.Prime p := Fact.out
  have hspec := interpLoop_spec p (a.map fun x => (x, g x)) [] [] [] rfl rfl
    (by intro x; simp [evalZ_nil]) (by simp) (by simp)
    (by
      intro q hq
      simp only [List.nil_append, List.mem_map] at hq
      obtain ⟨x, hx, rfl⟩ := hq
      exact ⟨ha x hx, hg x hx⟩)
    (by simpa [List.map_map, Function.comp_def] using hnd)
  obtain ⟨r, hr, hlen, hev, hlt⟩ := hspec
  have hev2 : ∀ x ∈ a, evalZ 0 r (x : ZMod p) = (g x : ZMod p) := by
    intro x hx
    exact hev (x, g x) (by simp only [List.nil_append, List.mem_map]; exact ⟨x, hx, rfl⟩)
  have hlen2 : r.length = a.length := by simpa using hlen
  refine ⟨r, ?_, hlen2, hlt, hev2⟩
  unfold interpolate
  rw [zip_map_eq, hr]
  simp

/-- Interpolating the values of a coefficient vector `f` at pairwise distinct
points, at least as many as `f` has coefficients, gives `f` back. -/
theorem interpolate_eval (p : Nat) [Fact p.Prime] (f a : List Nat)
    (hf : ∀ c ∈ f, c < p) (hfl : f.length ≤ a.length)
    (ha : ∀ x ∈ a, x < p) (hnd : a.Nodup) :
    interpolate p a (a.map (eval p f)) = some (normalize f) := by
  have hp : Nat.Prime p := Fact.out
  obtain ⟨r, hr, hlen, hlt, hev⟩ :=
    interpolate_spec p a (eval p f) ha (fun x _ => eval_lt p f x hp.pos) hnd
  rw [hr]
  congr 1
  apply normalize_congr
  apply coeffs_unique p r f a hlt hf hlen.le hfl ha hnd
  intro x hx
  rw [hev x hx, eval_cast]

/-! ## Repeated points -/

theorem interpLoop_dup (p : Nat) [Fact p.Prime] :
    ∀ (pts done : List (Nat × Nat)) (prod res : List Nat),
      (∀ x : ZMod p, evalZ 1 prod x = (done.map fun q => x - (q.1 : ZMod p)).prod) →
      (∀ q ∈ done ++ pts, q.1 < p) →
      (done.map Prod.fst).Nodup →
      ¬ ((done ++ pts).map Prod.fst).Nodup →
      interpLoop p prod res pts = none := by
  have hp : Nat.Prime p := Fact.out
  intro pts
  induction pts with
  | nil =>
    intro done prod res _ _ hd hnd
    simp only [List.append_nil] at hnd
    exact absurd hd hnd
  | cons pt rest ih =>
    obtain ⟨aa, bb⟩ := pt
    intro done prod res hprod hbound hd hnd
    have haa : aa < p := hbound (aa, bb) (by simp)
    have hdone : ∀ q ∈ done, q.1 < p := fun q hq => hbound q (by simp [hq])
    have hperm : List.Perm (done ++ (aa, bb) :: rest) (((aa, bb) :: done) ++ rest) := by
      simp
    by_cases hin : aa ∈ done.map Prod.fst
    · apply interpLoop_cons_none
      apply invMod_none p _ hp (horner_lt p 1 prod aa hp.pos hp.one_lt)
      rw [horner_cast, Nat.cast_one, hprod]
      exact pivot_eq_zero p done aa hin
    · have hpiv : ((horner p 1 prod aa : Nat) : ZMod p) ≠ 0 := by
        rw [horner_cast, Nat.cast_one, hprod]
        exact pivot_ne_zero p done aa haa hdone hin
      obtain ⟨t1i, hinv, _, _⟩ :=
        invMod_some p (horner p 1 prod aa) (horner_lt p 1 prod aa hp.pos hp.one_lt) hpiv
      rw [interpLoop_cons_some p prod res aa bb rest t1i hinv]
      have hd2 : (((aa, bb) :: done).map Prod.fst).Nodup := by
        simpa using List.nodup_cons.mpr ⟨hin, hd⟩
      have hnd2 : ¬ ((((aa, bb) :: done) ++ rest).map Prod.fst).Nodup :=
        fun h => hnd ((hperm.map Prod.fst).nodup_iff.mpr h)
      cases rest with
      | nil =>
        simp only [List.append_nil] at hnd2
        exact absurd hd2 hnd2
      | cons pt2 rest2 =>
        apply ih ((aa, bb) :: done) _ _ _ (fun q hq => hbound q (hperm.symm.subset hq)) hd2 hnd2
        intro x
        simp only [List.isEmpty_cons, Bool.false_eq_true, if_false]
        rw [evalZ_prodStep p prod aa haa.le, hprod, List.map_cons, List.prod_cons]
        ring

/-- With a repeated point `interpolate` stops with an error. -/
theorem interpolate_dup (p : Nat) [Fact p.Prime] (a b : List Nat)
    (hlen : a.length = b.length) (ha : ∀ x ∈ a, x < p) (hnd : ¬ a.Nodup) :
    interpolate p a b = none := by
  have hfst : (List.zip a b).map Prod.fst = a := List.map_fst_zip a b hlen.le
  have hloop : interpLoop p [] [] (List.zip a b) = none := by
    apply interpLoop_dup p (List.zip a b) [] [] []
    · intro x; simp [evalZ_nil]
    · intro q hq
      simp only [List.nil_append] at hq
      exact ha _ (hfst ▸ List.mem_map_of_mem Prod.fst hq)
    · simp
    · simpa [hfst] using hnd
  unfold interpolate
  rw [hloop]
  simp [hlen]

/-! ## The polynomial built by `distribute` -/

theorem ZZFromBytes_eq_zero_iff (d : List Nat) : ZZFromBytes d = 0 ↔ ∀ b ∈ d, b = 0 := by
  induction d with
  | nil => simp [ZZFromBytes]
  | cons b bs ih =>
    simp only [ZZFromBytes, List.mem_cons, forall_eq_or_imp, ← ih]
    omega

theorem sharePoly_eq (p : Nat) (rnd : Nat → Nat) (t : Nat) (data : List Nat) :
    sharePoly p rnd t data
      = normalize ((ZZFromBytes data % p) :: (List.range (t - 1)).map fun i => rnd (i + 1) % p) := by
  unfold sharePoly SetCoeff random_ZZ_pX toZZ_p
  cases t with
  | zero =>
    by_cases h : ZZFromBytes data % p = 0 <;> simp [normalize, h]
  | succ k =>
    rw [List.range_succ_eq_map, List.map_cons, List.map_map]
    simp only [Nat.add_sub_cancel]
    have hc : ((fun i => rnd i % p) ∘ Nat.succ) = fun i => rnd (i + 1) % p := rfl
    rw [hc]
    generalize (List.map (fun i => rnd (i + 1) % p) (List.range k)) = tail
    generalize ZZFromBytes data % p = a
    generalize rnd 0 % p = r0
    cases hn : normalize tail with
    | nil =>
      by_cases hr : r0 = 0 <;> by_cases ha : a = 0 <;> simp [normalize, hn, hr, ha]
    | cons r rs =>
      have e1 : normalize (r0 :: tail) = r0 :: r :: rs := by simp [normalize, hn]
      rw [e1]
      simp only [List.length_cons, Nat.le_zero_eq, Nat.add_one_ne_zero, if_false,
        List.set_cons_zero]
      rw [← hn]
      exact normalize_cons_congr a _ _ (normalize_idem tail)

theorem sharePoly_lt (p : Nat) (hp : 0 < p) (rnd : Nat → Nat) (t : Nat) (data : List Nat) :
    ∀ c ∈ sharePoly p rnd t data, c < p := by
  rw [sharePoly_eq]
  apply normalize_lt
  intro c hc
  rcases List.mem_cons.mp hc with rfl | hc
  · exact Nat.mod_lt _ hp
  · obtain ⟨i, _, rfl⟩ := List.mem_map.mp hc
    exact Nat.mod_lt _ hp

theorem sharePoly_length (p : Nat) (rnd : Nat → Nat) (t : Nat) (data : List Nat) :
    (sharePoly p rnd t data).length ≤ (t - 1) + 1 := by
  rw [sharePoly_eq]
  refine (normalize_length_le _).trans ?_
  simp

theorem sharePoly_normalize (p : Nat) (rnd : Nat → Nat) (t : Nat) (data : List Nat) :
    normalize (sharePoly p rnd t data) = sharePoly p rnd t data := by
  rw [sharePoly_eq, normalize_idem]

theorem sharePoly_eq_nil_iff (p : Nat) (rnd : Nat → Nat) (t : Nat) (data : List Nat) :
    sharePoly p rnd t data = []
      ↔ ZZFromBytes data % p = 0 ∧ ∀ i, 1 ≤ i → i < t → rnd i % p = 0 := by
  rw [sharePoly_eq, normalize_eq_nil_iff]
  simp only [List.mem_cons, List.mem_map, List.mem_range, forall_eq_or_imp]
  constructor
  · rintro ⟨h0, h⟩
    refine ⟨h0, fun i h1 h2 => ?_⟩
    have := h (rnd i % p) ⟨i - 1, by omega, by rw [Nat.sub_add_cancel h1]⟩
    exact this
  · rintro ⟨h0, h⟩
    refine ⟨h0, ?_⟩
    rintro c ⟨i, hi, rfl⟩
    exact h (i + 1) (by omega) (by omega)

theorem sharePoly_head (p : Nat) (rnd : Nat → Nat) (t : Nat) (data : List Nat)
    (c : Nat) (cs : List Nat) (h : sharePoly p rnd t data = c :: cs) :
    c = ZZFromBytes data % p := by
  have h0 := congrArg (fun l => l.getD 0 0) h
  rw [sharePoly_eq] at h0
  simp only [normalize_getD] at h0
  simpa using h0.symm

theorem distribute_eq (rnd : Nat → Nat) (n t : Nat) (data : List Nat) :
    distribute rnd n t data
      = (List.range n).map fun i =>
          eval (fieldPrime data.length) (sharePoly (fieldPrime data.length) rnd t data)
            ((i + 1) % fieldPrime data.length) := rfl

theorem distribute_length (rnd : Nat → Nat) (n t : Nat) (data : List Nat) :
    (distribute rnd n t data).length = n := by
  simp [distribute_eq]

theorem distribute_getD (rnd : Nat → Nat) (n t : Nat) (data : List Nat) (i : Nat) (hi : i < n) :
    (distribute rnd n t data).getD i 0
      = eval (fieldPrime data.length) (sharePoly (fieldPrime data.length) rnd t data)
          ((i + 1) % fieldPrime data.length) := by
  rw [distribute_eq, List.getD_eq_getElem?_getD, List.getElem?_map, List.getElem?_range hi]
  rfl

theorem writeShares_length (rnd : Nat → Nat) (n t : Nat) (data : List Nat) :
    (writeShares rnd n t data).length = n := by
  simp [writeShares]

theorem writeShares_getElem? (rnd : Nat → Nat) (n t : Nat) (data : List Nat) (i : Nat)
    (hi : i < n) :
    (writeShares rnd n t data)[i]?
      = some (shareFile data.length (toUInt32 (i + 1))
          (eval (fieldPrime data.length) (sharePoly (fieldPrime data.length) rnd t data)
            ((i + 1) % fieldPrime data.length))) := by
  unfold writeShares
  simp only [List.getElem?_map, List.getElem?_range hi, Option.map_some']
  rw [distribute_getD rnd n t data i hi]

theorem pick_writeShares (rnd : Nat → Nat) (n t : Nat) (data : List Nat) (idx : List Nat)
    (hidx : ∀ i ∈ idx, i < n) :
    pick (writeShares rnd n t data) idx
      = idx.map fun i => shareFile data.length (toUInt32 (i + 1))
          (eval (fieldPrime data.length) (sharePoly (fieldPrime data.length) rnd t data)
            ((i + 1) % fieldPrime data.length)) := by
  unfold pick
  induction idx with
  | nil => rfl
  | cons i is ih =>
    have hi := hidx i (List.mem_cons_self _ _)
    rw [List.filterMap_cons, writeShares_getElem? rnd n t data i hi]
    simp only [List.map_cons]
    rw [ih (fun j hj => hidx j (List.mem_cons_of_mem _ hj))]

/-! ## Reading share files back -/

theorem fread_append (buf a b : List Nat) (k : Nat) (ha : a.length = k) (hb : buf.length ≤ k) :
    fread buf k (a ++ b) = (a, b) := by
  unfold fread
  have h1 : (a ++ b).take k = a := by rw [← ha]; exact List.take_left' rfl
  have h2 : (a ++ b).drop k = b := by rw [← ha]; exact List.drop_left' rfl
  rw [h1, h2, List.drop_eq_nil_of_le (by omega), List.append_nil]

theorem readShare_shareFile (slen xv y : Nat) (x sbuf : List Nat)
    (hx : x.length ≤ 4) (hs : sbuf.length ≤ slen) :
    readShare slen x sbuf (BytesFromZZ xv 4 ++ BytesFromZZ y slen)
      = (BytesFromZZ xv 4, BytesFromZZ y slen) := by
  unfold readShare
  rw [fread_append x _ _ 4 (BytesFromZZ_length _ _) hx]
  simp only
  have := fread_append sbuf (BytesFromZZ y slen) [] slen (BytesFromZZ_length _ _) hs
  rw [List.append_nil] at this
  rw [this]

theorem readShares_shareFiles (p slen : Nat) (pts : List (Nat × Nat)) :
    ∀ (x sbuf : List Nat), x.length ≤ 4 → sbuf.length ≤ slen →
      readShares p slen x sbuf (pts.map fun q => BytesFromZZ q.1 4 ++ BytesFromZZ q.2 slen)
        = (pts.map fun q => q.1 % 256 ^ 4 % p, pts.map fun q => q.2 % 256 ^ slen % p) := by
  induction pts with
  | nil => intro x sbuf _ _; rfl
  | cons q qs ih =>
    intro x sbuf hx hs
    simp only [List.map_cons, readShares]
    rw [readShare_shareFile slen q.1 q.2 x sbuf hx hs]
    simp only
    rw [ih _ _ (BytesFromZZ_length _ _).le (BytesFromZZ_length _ _).le]
    simp only [toZZ_p, ZZFromBytes_BytesFromZZ]

theorem shareFile_length (L x y : Nat) : (shareFile L x y).length = 4 + (L + 1) := by
  simp [shareFile, BytesFromZZ_length]

theorem fieldPrime_lt_pow (L : Nat) : fieldPrime L < 256 ^ (L + 1) := by
  have h1 := fieldPrime_le L
  have h2 : 2 ^ (8 * L + 1) < 2 ^ (8 * (L + 1)) :=
    Nat.pow_lt_pow_right (by norm_num) (by omega)
  rw [pow_256]
  omega

/-- The polynomial interpolated from a non-empty list of well-formed share
files of value width `L + 1`: the indices and the values, reduced modulo `p`,
are handed to `interpolate`. -/
theorem interpolated_shareFiles (L : Nat) (pts : List (Nat × Nat)) (hne : pts ≠ [])
    (hx : ∀ q ∈ pts, q.1 < 2 ^ 32) (hy : ∀ q ∈ pts, q.2 < 256 ^ (L + 1)) :
    interpolated (pts.map fun q => shareFile L q.1 q.2)
      = interpolate (fieldPrime L) (pts.map fun q => q.1 % fieldPrime L)
            (pts.map fun q => q.2 % fieldPrime L) := by
  cases pts with
  | nil => exact absurd rfl hne
  | cons q qs =>
    have hread := readShares_shareFiles (fieldPrime L) (L + 1) (q :: qs)
      (List.replicate 4 0) (List.replicate (L + 1) 0) (by simp) (by simp)
    have e1 : (List.map (fun q => q.1 % 256 ^ 4 % fieldPrime L) (q :: qs))
        = List.map (fun q => q.1 % fieldPrime L) (q :: qs) := by
      apply List.map_congr_left
      intro r hr
      have h32 : r.1 % 256 ^ 4 = r.1 := Nat.mod_eq_of_lt (by have := hx r hr; omega)
      simp only [h32]
    have e2 : (List.map (fun q => q.2 % 256 ^ (L + 1) % fieldPrime L) (q :: qs))
        = List.map (fun q => q.2 % fieldPrime L) (q :: qs) := by
      apply List.map_congr_left
      intro r hr
      rw [Nat.mod_eq_of_lt (hy r hr)]
    rw [e1, e2] at hread
    simp only [shareFile] at hread ⊢
    unfold interpolated
    simp only [List.map_cons, List.length_append, BytesFromZZ_length] at hread ⊢
    have e3 : ¬ (4 + (L + 1) < 5) := by omega
    have e4 : 4 + (L + 1) - 4 = L + 1 := by omega
    simp only [e3, if_false, e4, Nat.add_sub_cancel]
    rw [hread]

theorem reconstruct_eq (L : Nat) (files : List (List Nat))
    (h : (files.headD []).length = 4 + (L + 1)) :
    reconstruct files
      = match interpolated files with
        | none => none
        | some [] => none
        | some (f0 :: _) => some ((BytesFromZZ f0 (L + 1)).take L) := by
  unfold reconstruct
  have e4 : 4 + (L + 1) - 4 = L + 1 := by omega
  simp only [h, e4, Nat.add_sub_cancel]

/-- The reconstruction branch on a non-empty list of well-formed share files of
value width `L + 1`. -/
theorem reconstruct_shareFiles (L : Nat) (pts : List (Nat × Nat)) (hne : pts ≠ [])
    (hx : ∀ q ∈ pts, q.1 < 2 ^ 32) (hy : ∀ q ∈ pts, q.2 < fieldPrime L) :
    reconstruct (pts.map fun q => shareFile L q.1 q.2)
      = match interpolate (fieldPrime L) (pts.map fun q => q.1 % fieldPrime L)
            (pts.map fun q => q.2) with
        | none => none
        | some [] => none
        | some (f0 :: _) => some ((BytesFromZZ f0 (L + 1)).take L) := by
  have hhead : ((pts.map fun q => shareFile L q.1 q.2).headD []).length = 4 + (L + 1) := by
    cases pts with
    | nil => exact absurd rfl hne
    | cons q qs => simp [shareFile_length]
  rw [reconstruct_eq L _ hhead, interpolated_shareFiles L pts hne hx
    (fun q hq => (hy q hq).trans (fieldPrime_lt_pow L))]
  have e2 : (pts.map fun q => q.2 % fieldPrime L) = pts.map fun q => q.2 := by
    apply List.map_congr_left
    intro r hr
    rw [Nat.mod_eq_of_lt (hy r hr)]
  rw [e2]

/-! ## Distribution followed by reconstruction -/

theorem secret_lt_fieldPrime (data : List Nat) (hd : IsBytes data) :
    ZZFromBytes data < fieldPrime data.length := by
  have h1 := ZZFromBytes_lt data hd
  have h2 := fieldPrime_gt data.length
  rw [pow_256] at h1
  omega

theorem sharePoly_ne_nil_iff (rnd : Nat → Nat) (t : Nat) (data : List Nat) (hd : IsBytes data) :
    sharePoly (fieldPrime data.length) rnd t data ≠ []
      ↔ (∃ b ∈ data, b ≠ 0) ∨ ∃ i, 1 ≤ i ∧ i < t ∧ rnd i % fieldPrime data.length ≠ 0 := by
  rw [Ne, sharePoly_eq_nil_iff, Nat.mod_eq_of_lt (secret_lt_fieldPrime data hd),
    ZZFromBytes_eq_zero_iff]
  constructor
  · intro h
    by_contra hcon
    push_neg at hcon
    exact h ⟨hcon.1, fun i h1 h2 => hcon.2 i h1 h2⟩
  · rintro (⟨b, hb, hb0⟩ | ⟨i, h1, h2, h3⟩) ⟨ha, hc⟩
    · exact hb0 (ha b hb)
    · exact h3 (hc i h1 h2)

/-- The reconstruction branch on shares of one distribution, chosen at the
positions `idx` (0-based): the files decode to the points
`((i + 1) mod p, f((i + 1) mod p))`, which are handed to `interpolate`. -/
theorem reconstruct_pick_interp (rnd : Nat → Nat) (n t : Nat) (data : List Nat) (idx : List Nat)
    (hne : idx ≠ []) (hidx : ∀ i ∈ idx, i < n ∧ i + 1 < 2 ^ 32) :
    reconstruct (pick (writeShares rnd n t data) idx)
      = match interpolate (fieldPrime data.length)
            (idx.map fun i => (i + 1) % fieldPrime data.length)
            ((idx.map fun i => (i + 1) % fieldPrime data.length).map
              (eval (fieldPrime data.length) (sharePoly (fieldPrime data.length) rnd t data))) with
        | none => none
        | some [] => none
        | some (f0 :: _) => some ((BytesFromZZ f0 (data.length + 1)).take data.length) := by
  have hp := fieldPrime_prime data.length
  set p := fieldPrime data.length with hpdef
  set f := sharePoly p rnd t data with hf
  rw [pick_writeShares rnd n t data idx (fun i hi => (hidx i hi).1)]
  have e0 : (idx.map fun i => shareFile data.length (toUInt32 (i + 1)) (eval p f ((i + 1) % p)))
      = (idx.map fun i => (i + 1, eval p f ((i + 1) % p))).map
          fun q => shareFile data.length q.1 q.2 := by
    rw [List.map_map]
    apply List.map_congr_left
    intro i hi
    simp only [Function.comp, toUInt32]
    rw [Nat.mod_eq_of_lt (hidx i hi).2]
  rw [e0, reconstruct_shareFiles data.length _ (by simpa using hne)
    (by
      intro q hq
      obtain ⟨i, hi, rfl⟩ := List.mem_map.mp hq
      exact (hidx i hi).2)
    (by
      intro q hq
      obtain ⟨i, hi, rfl⟩ := List.mem_map.mp hq
      exact eval_lt p f _ hp.pos)]
  simp only [List.map_map, Function.comp_def]

/-- With at least as many shares as coefficients and pairwise distinct
evaluation points modulo `p`, `interpolate` returns the polynomial of
`distribute`. -/
theorem reconstruct_pick (rnd : Nat → Nat) (n t : Nat) (data : List Nat) (idx : List Nat)
    (hne : idx ≠ []) (hk : t ≤ idx.length)
    (hidx : ∀ i ∈ idx, i < n ∧ i + 1 < 2 ^ 32)
    (hdist : (idx.map fun i => (i + 1) % fieldPrime data.length).Nodup) :
    reconstruct (pick (writeShares rnd n t data) idx)
      = match sharePoly (fieldPrime data.length) rnd t data with
        | [] => none
        | f0 :: _ => some ((BytesFromZZ f0 (data.length + 1)).take data.length) := by
  haveI : Fact (fieldPrime data.length).Prime := ⟨fieldPrime_prime _⟩
  have hp := fieldPrime_prime data.length
  rw [reconstruct_pick_interp rnd n t data idx hne hidx,
    interpolate_eval (fieldPrime data.length) _ _
      (sharePoly_lt (fieldPrime data.length) hp.pos rnd t data)
    (by
      have := sharePoly_length (fieldPrime data.length) rnd t data
      have hpos : 0 < idx.length := List.length_pos.mpr hne
      simp only [List.length_map]
      omega)
    (by
      intro x hx
      obtain ⟨i, _, rfl⟩ := List.mem_map.mp hx
      exact Nat.mod_lt _ hp.pos)
    hdist, sharePoly_normalize]
  cases sharePoly (fieldPrime data.length) rnd t data <;> rfl

/-- Round trip for at least `t` shares with distinct evaluation points, provided the
polynomial drawn by `distribute` has a non-zero coefficient. -/
theorem reconstruct_of_enough (rnd : Nat → Nat) (n t : Nat) (data : List Nat) (idx : List Nat)
    (hd : IsBytes data) (hne : idx ≠ []) (hk : t ≤ idx.length)
    (hidx : ∀ i ∈ idx, i < n ∧ i + 1 < 2 ^ 32)
    (hdist : (idx.map fun i => (i + 1) % fieldPrime data.length).Nodup)
    (hnz : (∃ b ∈ data, b ≠ 0) ∨ ∃ i, 1 ≤ i ∧ i < t ∧ rnd i % fieldPrime data.length ≠ 0) :
    reconstruct (pick (writeShares rnd n t data) idx) = some data := by
  rw [reconstruct_pick rnd n t data idx hne hk hidx hdist]
  have hnz2 := (sharePoly_ne_nil_iff rnd t data hd).mpr hnz
  cases hf : sharePoly (fieldPrime data.length) rnd t data with
  | nil => exact absurd hf hnz2
  | cons c cs =>
    simp only
    rw [sharePoly_head _ rnd t data c cs hf, Nat.mod_eq_of_lt (secret_lt_fieldPrime data hd),
      BytesFromZZ_ZZFromBytes data hd 1]
    simp

/-- When every coefficient of the polynomial is zero the reconstruction branch
reads `f[0]` of a polynomial without coefficients and yields no output. -/
theorem reconstruct_of_zero (rnd : Nat → Nat) (n t : Nat) (data : List Nat) (idx : List Nat)
    (hd : IsBytes data) (hne : idx ≠ []) (hk : t ≤ idx.length)
    (hidx : ∀ i ∈ idx, i < n ∧ i + 1 < 2 ^ 32)
    (hdist : (idx.map fun i => (i + 1) % fieldPrime data.length).Nodup)
    (hz : (∀ b ∈ data, b = 0) ∧ ∀ i, 1 ≤ i → i < t → rnd i % fieldPrime data.length = 0) :
    reconstruct (pick (writeShares rnd n t data) idx) = none := by
  rw [reconstruct_pick rnd n t data idx hne hk hidx hdist]
  have : sharePoly (fieldPrime data.length) rnd t data = [] := by
    by_contra hcon
    rcases (sharePoly_ne_nil_iff rnd t data hd).mp hcon with ⟨b, hb, hb0⟩ | ⟨i, h1, h2, h3⟩
    · exact hb0 (hz.1 b hb)
    · exact h3 (hz.2 i h1 h2)
  rw [this]

/-! ## Flipping a bit of a stored value -/

set_option maxRecDepth 100000 in
theorem xor_byte_all :
    ∀ b < 256, ∀ j < 8, Nat.xor b (2 ^ j) < 256 ∧
      (Nat.xor b (2 ^ j) + 2 ^ j = b ∨ b + 2 ^ j = Nat.xor b (2 ^ j)) := by
  decide

theorem BytesFromZZ_getD (a n i : Nat) (hi : i < n) :
    (BytesFromZZ a n).getD i 0 = a / 256 ^ i % 256 := by
  induction n generalizing a i with
  | zero => omega
  | succ k ih =>
    cases i with
    | zero => simp [BytesFromZZ]
    | succ j =>
      simp only [BytesFromZZ, List.getD_cons_succ]
      rw [ih (a / 256) j (by omega), Nat.div_div_eq_div_mul, pow_succ, mul_comm]

theorem ZZFromBytes_set (l : List Nat) (k b : Nat) (hk : k < l.length) :
    ZZFromBytes (l.set k b) + l.getD k 0 * 256 ^ k = ZZFromBytes l + b * 256 ^ k := by
  induction l generalizing k with
  | nil => simp at hk
  | cons c cs ih =>
    cases k with
    | zero => simp [ZZFromBytes]; omega
    | succ m =>
      have := ih m (by simpa using hk)
      simp only [List.set_cons_succ, ZZFromBytes, List.getD_cons_succ, pow_succ]
      nlinarith [this]

theorem isBytes_set (l : List Nat) (k b : Nat) (hl : IsBytes l) (hb : b < 256) :
    IsBytes (l.set k b) := by
  intro c hc
  rcases List.mem_or_eq_of_mem_set hc with h | h
  · exact hl c h
  · exact h ▸ hb

/-- Flipping bit `j` of byte `k` of the value field of a share file gives the
share file of a value that differs from the old one by exactly `2^(8k+j)`. -/
theorem flipBit_shareFile (L x y k j : Nat) (hy : y < 256 ^ (L + 1)) (hk : k < L + 1)
    (hj : j < 8) :
    ∃ y2, y2 < 256 ^ (L + 1) ∧ flipBit (shareFile L x y) k j = shareFile L x y2 ∧
      (y2 + 2 ^ (8 * k + j) = y ∨ y + 2 ^ (8 * k + j) = y2) := by
  have hlen4 : (BytesFromZZ x 4).length = 4 := BytesFromZZ_length _ _
  have hlenv : (BytesFromZZ y (L + 1)).length = L + 1 := BytesFromZZ_length _ _
  have hbyte : (BytesFromZZ y (L + 1)).getD k 0 < 256 := by
    rw [BytesFromZZ_getD y (L + 1) k hk]
    exact Nat.mod_lt _ (by norm_num)
  obtain ⟨hb2, hdiff⟩ := xor_byte_all _ hbyte j hj
  have hflip : flipBit (shareFile L x y) k j
      = BytesFromZZ x 4 ++ (BytesFromZZ y (L + 1)).set k
          (Nat.xor ((BytesFromZZ y (L + 1)).getD k 0) (2 ^ j)) := by
    unfold flipBit shareFile
    rw [List.set_append_right _ _ (by rw [hlen4]; omega),
      List.getD_append_right _ _ _ _ (by rw [hlen4]; omega), hlen4, Nat.add_sub_cancel_left]
  have hbytes : IsBytes ((BytesFromZZ y (L + 1)).set k
      (Nat.xor ((BytesFromZZ y (L + 1)).getD k 0) (2 ^ j))) :=
    isBytes_set _ _ _ (BytesFromZZ_isBytes _ _) hb2
  have hback := BytesFromZZ_ZZFromBytes _ hbytes 0
  rw [List.length_set, hlenv, Nat.add_zero, List.replicate_zero, List.append_nil] at hback
  have hlt := ZZFromBytes_lt _ hbytes
  rw [List.length_set, hlenv] at hlt
  have hset := ZZFromBytes_set (BytesFromZZ y (L + 1)) k
    (Nat.xor ((BytesFromZZ y (L + 1)).getD k 0) (2 ^ j)) (by rw [hlenv]; exact hk)
  rw [ZZFromBytes_BytesFromZZ, Nat.mod_eq_of_lt hy] at hset
  refine ⟨_, hlt, ?_, ?_⟩
  · rw [hflip]
    unfold shareFile
    rw [hback]
  · have hpow : 2 ^ (8 * k + j) = 2 ^ j * 256 ^ k := by
      rw [pow_add, pow_256, mul_comm]
    rw [hpow]
    generalize Nat.xor ((BytesFromZZ y (L + 1)).getD k 0) (2 ^ j) = b2 at hset hdiff ⊢
    generalize (BytesFromZZ y (L + 1)).getD k 0 = b1 at hset hdiff
    generalize ZZFromBytes ((BytesFromZZ y (L + 1)).set k b2) = z at hset ⊢
    rcases hdiff with h | h
    · left
      have e : b1 * 256 ^ k = b2 * 256 ^ k + 2 ^ j * 256 ^ k := by rw [← h, add_mul]
      omega
    · right
      have e : b2 * 256 ^ k = b1 * 256 ^ k + 2 ^ j * 256 ^ k := by rw [← h, add_mul]
      omega

theorem mod_ne_of_diff_two_pow (p y y2 m : Nat) (hp : Nat.Prime p) (hp2 : 2 < p)
    (h : y2 + 2 ^ m = y ∨ y + 2 ^ m = y2) : y2 % p ≠ y % p := by
  intro heq
  have hpos : 0 < 2 ^ m := by positivity
  have hdvd : p ∣ 2 ^ m := by
    generalize 2 ^ m = d at h hpos ⊢
    rcases h with h | h
    · have := (Nat.modEq_iff_dvd' (by omega : y2 ≤ y)).mp heq
      have e : y - y2 = d := by omega
      rwa [e] at this
    · have := (Nat.modEq_iff_dvd' (by omega : y ≤ y2)).mp heq.symm
      have e : y2 - y = d := by omega
      rwa [e] at this
  have := Nat.le_of_dvd (by norm_num) (hp.dvd_of_dvd_pow hdvd)
  omega

/-! ## One changed value changes the constant term -/

theorem evalZ_zero_point {p : Nat} (l : List Nat) :
    evalZ (0 : ZMod p) l 0 = ((l.getD 0 0 : Nat) : ZMod p) := by
  cases l with
  | nil => simp [evalZ_nil]
  | cons c cs => simp [evalZ_cons]

theorem list_eq_of_getD (l1 l2 : List Nat) (hlen : l1.length = l2.length)
    (h : ∀ i, l1.getD i 0 = l2.getD i 0) : l1 = l2 := by
  apply List.ext_getElem hlen
  intro i h1 h2
  have := h i
  rwa [List.getD_eq_getElem _ _ h1, List.getD_eq_getElem _ _ h2] at this

/-- Two interpolants on the same pairwise distinct points that differ in the value
at one point `xm`, all other points being non-zero, have different constant
coefficients. -/
theorem const_term_differs (p : Nat) [Fact p.Prime] (a r r2 : List Nat) (xm : Nat)
    (hnd : a.Nodup) (ha : ∀ x ∈ a, x < p) (hxm : xm ∈ a) (hnz : ∀ x ∈ a, x ≠ xm → x ≠ 0)
    (hr : ∀ c ∈ r, c < p) (hr2 : ∀ c ∈ r2, c < p)
    (hl : r.length = a.length) (hl2 : r2.length = a.length)
    (heq : ∀ x ∈ a, x ≠ xm → evalZ 0 r (x : ZMod p) = evalZ 0 r2 (x : ZMod p))
    (hne : evalZ 0 r (xm : ZMod p) ≠ evalZ 0 r2 (xm : ZMod p)) :
    r.getD 0 0 ≠ r2.getD 0 0 := by
  have hp : Nat.Prime p := Fact.out
  intro hc
  have hmem : ∀ x, x ∈ a.erase xm ↔ x ≠ xm ∧ x ∈ a := fun x => hnd.mem_erase_iff
  have hlen : (0 :: a.erase xm).length = a.length := by
    have := List.length_erase_of_mem hxm
    have hpos : 0 < a.length := List.length_pos_of_mem hxm
    simp only [List.length_cons, this]
    omega
  have hnd2 : (0 :: a.erase xm).Nodup := by
    apply List.nodup_cons.mpr
    refine ⟨fun h0 => ?_, hnd.erase xm⟩
    have := (hmem 0).mp h0
    exact hnz 0 this.2 this.1 rfl
  have hall := coeffs_unique p r r2 (0 :: a.erase xm) hr hr2 (by rw [hlen, hl]) (by rw [hlen, hl2])
    (by
      intro x hx
      rcases List.mem_cons.mp hx with rfl | hx
      · exact hp.pos
      · exact ha x ((hmem x).mp hx).2)
    hnd2
    (by
      intro x hx
      rcases List.mem_cons.mp hx with rfl | hx
      · rw [Nat.cast_zero, evalZ_zero_point, evalZ_zero_point, hc]
      · exact heq x ((hmem x).mp hx).2 ((hmem x).mp hx).1)
  have : r = r2 := list_eq_of_getD r r2 (hl.trans hl2.symm) hall
  exact hne (by rw [this])

theorem interpolated_pick (rnd : Nat → Nat) (n t : Nat) (data : List Nat) (idx : List Nat)
    (hne : idx ≠ []) (hidx : ∀ i ∈ idx, i < n ∧ i + 1 < 2 ^ 32) :
    interpolated (pick (writeShares rnd n t data) idx)
      = interpolate (fieldPrime data.length)
          (idx.map fun i => (i + 1) % fieldPrime data.length)
          ((idx.map fun i => (i + 1) % fieldPrime data.length).map
            (eval (fieldPrime data.length) (sharePoly (fieldPrime data.length) rnd t data))) := by
  have hp := fieldPrime_prime data.length
  rw [pick_writeShares rnd n t data idx (fun i hi => (hidx i hi).1)]
  have e0 : (idx.map fun i => shareFile data.length (toUInt32 (i + 1))
        (eval (fieldPrime data.length) (sharePoly (fieldPrime data.length) rnd t data)
          ((i + 1) % fieldPrime data.length)))
      = (idx.map fun i => (i + 1,
            eval (fieldPrime data.length) (sharePoly (fieldPrime data.length) rnd t data)
              ((i + 1) % fieldPrime data.length))).map
          fun q => shareFile data.length q.1 q.2 := by
    rw [List.map_map]
    apply List.map_congr_left
    intro i hi
    simp only [Function.comp, toUInt32]
    rw [Nat.mod_eq_of_lt (hidx i hi).2]
  rw [e0, interpolated_shareFiles data.length _ (by simpa using hne)
    (by
      intro q hq
      obtain ⟨i, hi, rfl⟩ := List.mem_map.mp hq
      exact (hidx i hi).2)
    (by
      intro q hq
      obtain ⟨i, hi, rfl⟩ := List.mem_map.mp hq
      exact (eval_lt _ _ _ hp.pos).trans (fieldPrime_lt_pow _))]
  simp only [List.map_map, Function.comp_def]
  congr 1
  apply List.map_congr_left
  intro i _
  exact Nat.mod_eq_of_lt (eval_lt _ _ _ hp.pos)

theorem writeShares_getD (rnd : Nat → Nat) (n t : Nat) (data : List Nat) (i : Nat)
    (hi : i < n) (h32 : i + 1 < 2 ^ 32) :
    (writeShares rnd n t data).getD i []
      = shareFile data.length (i + 1)
          (eval (fieldPrime data.length) (sharePoly (fieldPrime data.length) rnd t data)
            ((i + 1) % fieldPrime data.length)) := by
  rw [List.getD_eq_getElem?_getD, writeShares_getElem? rnd n t data i hi, Option.getD_some]
  unfold toUInt32
  rw [Nat.mod_eq_of_lt h32]

theorem pick_writeShares_pts (rnd : Nat → Nat) (n t : Nat) (data : List Nat) (idx : List Nat)
    (hidx : ∀ i ∈ idx, i < n ∧ i + 1 < 2 ^ 32) :
    pick (writeShares rnd n t data) idx
      = (idx.map fun i => (i + 1,
            eval (fieldPrime data.length) (sharePoly (fieldPrime data.length) rnd t data)
              ((i + 1) % fieldPrime data.length))).map
          fun q => shareFile data.length q.1 q.2 := by
  rw [pick_writeShares rnd n t data idx (fun i hi => (hidx i hi).1), List.map_map]
  apply List.map_congr_left
  intro i hi
  simp only [Function.comp, toUInt32]
  rw [Nat.mod_eq_of_lt (hidx i hi).2]

/-- The polynomial interpolated after one bit of the value of the share at
position `i` was flipped: the points are unchanged and the value of that share
is replaced by a value `y2` at distance `2^(8k+j)` from the original, reduced
modulo `p`. -/
theorem interpolated_flipped (rnd : Nat → Nat) (n t : Nat) (data pre post : List Nat)
    (i k j : Nat) (hidx : ∀ i2 ∈ pre ++ i :: post, i2 < n ∧ i2 + 1 < 2 ^ 32)
    (hk : k < data.length + 1) (hj : j < 8) :
    ∃ y2,
      ((pick (writeShares rnd n t data) pre
          ++ flipBit ((writeShares rnd n t data).getD i []) k j
            :: pick (writeShares rnd n t data) post).headD []).length = 4 + (data.length + 1) ∧
      (y2 + 2 ^ (8 * k + j)
          = eval (fieldPrime data.length) (sharePoly (fieldPrime data.length) rnd t data)
              ((i + 1) % fieldPrime data.length) ∨
        eval (fieldPrime data.length) (sharePoly (fieldPrime data.length) rnd t data)
              ((i + 1) % fieldPrime data.length) + 2 ^ (8 * k + j) = y2) ∧
      interpolated (pick (writeShares rnd n t data) pre
          ++ flipBit ((writeShares rnd n t data).getD i []) k j
            :: pick (writeShares rnd n t data) post)
        = interpolate (fieldPrime data.length)
            ((pre ++ i :: post).map fun i2 => (i2 + 1) % fieldPrime data.length)
            (pre.map (fun i2 =>
                eval (fieldPrime data.length) (sharePoly (fieldPrime data.length) rnd t data)
                  ((i2 + 1) % fieldPrime data.length))
              ++ y2 % fieldPrime data.length
                :: post.map (fun i2 =>
                    eval (fieldPrime data.length) (sharePoly (fieldPrime data.length) rnd t data)
                      ((i2 + 1) % fieldPrime data.length))) := by
  have hp := fieldPrime_prime data.length
  have hpre : ∀ i2 ∈ pre, i2 < n ∧ i2 + 1 < 2 ^ 32 := fun i2 h => hidx i2 (by simp [h])
  have hpost : ∀ i2 ∈ post, i2 < n ∧ i2 + 1 < 2 ^ 32 := fun i2 h => hidx i2 (by simp [h])
  have hi := hidx i (by simp)
  have hylt := (eval_lt (fieldPrime data.length) (sharePoly (fieldPrime data.length) rnd t data)
    ((i + 1) % fieldPrime data.length) hp.pos).trans (fieldPrime_lt_pow _)
  obtain ⟨y2, hy2, hflip, hdiff⟩ := flipBit_shareFile data.length (i + 1) _ k j hylt hk hj
  rw [pick_writeShares_pts rnd n t data pre hpre, pick_writeShares_pts rnd n t data post hpost,
    writeShares_getD rnd n t data i hi.1 hi.2, hflip]
  refine ⟨y2, ?_, hdiff, ?_⟩
  · cases pre with
    | nil => simp [shareFile_length]
    | cons i2 is => simp [shareFile_length]
  have e : (pre.map fun i2 => (i2 + 1,
            eval (fieldPrime data.length) (sharePoly (fieldPrime data.length) rnd t data)
              ((i2 + 1) % fieldPrime data.length))).map
          (fun q : Nat × Nat => shareFile data.length q.1 q.2)
        ++ shareFile data.length (i + 1) y2
          :: (post.map fun i2 => (i2 + 1,
            eval (fieldPrime data.length) (sharePoly (fieldPrime data.length) rnd t data)
              ((i2 + 1) % fieldPrime data.length))).map
          (fun q : Nat × Nat => shareFile data.length q.1 q.2)
      = ((pre.map fun i2 => (i2 + 1,
            eval (fieldPrime data.length) (sharePoly (fieldPrime data.length) rnd t data)
              ((i2 + 1) % fieldPrime data.length)))
          ++ (i + 1, y2) :: (post.map fun i2 => (i2 + 1,
            eval (fieldPrime data.length) (sharePoly (fieldPrime data.length) rnd t data)
              ((i2 + 1) % fieldPrime data.length)))).map
          (fun q : Nat × Nat => shareFile data.length q.1 q.2) := by
    simp only [List.map_append, List.map_cons]
  rw [e, interpolated_shareFiles data.length _ (by simp)
    (by
      intro q hq
      rcases List.mem_append.mp hq with h | h
      · obtain ⟨i2, hi2, rfl⟩ := List.mem_map.mp h
        exact (hpre i2 hi2).2
      · rcases List.mem_cons.mp h with rfl | h
        · exact hi.2
        · obtain ⟨i2, hi2, rfl⟩ := List.mem_map.mp h
          exact (hpost i2 hi2).2)
    (by
      intro q hq
      rcases List.mem_append.mp hq with h | h
      · obtain ⟨i2, hi2, rfl⟩ := List.mem_map.mp h
        exact (eval_lt _ _ _ hp.pos).trans (fieldPrime_lt_pow _)
      · rcases List.mem_cons.mp h with rfl | h
        · exact hy2
        · obtain ⟨i2, hi2, rfl⟩ := List.mem_map.mp h
          exact (eval_lt _ _ _ hp.pos).trans (fieldPrime_lt_pow _))]
  simp only [List.map_append, List.map_cons, List.map_map, Function.comp_def]
  have em : ∀ l : List Nat, (l.map fun i2 =>
        eval (fieldPrime data.length) (sharePoly (fieldPrime data.length) rnd t data)
          ((i2 + 1) % fieldPrime data.length) % fieldPrime data.length)
      = l.map fun i2 =>
        eval (fieldPrime data.length) (sharePoly (fieldPrime data.length) rnd t data)
          ((i2 + 1) % fieldPrime data.length) := by
    intro l
    apply List.map_congr_left
    intro i2 _
    exact Nat.mod_eq_of_lt (eval_lt _ _ _ hp.pos)
  rw [em pre, em post]

/-! ## Counting the coefficient vectors behind given share values -/

/-- Over a finite field, for `k <= m` pairwise distinct non-zero points `x a`, every
`k`-tuple `w` is hit by exactly `|F|^(m-k)` coefficient vectors `c` under the map
`c ↦ (∑ i, c i * x a ^ (i+1))`. -/
theorem card_fiber_eval {F : Type} [Field F] [Fintype F] [DecidableEq F] (m k : Nat)
    (hk : k ≤ m) (x : Fin k → F) (hinj : Function.Injective x) (hx0 : ∀ a, x a ≠ 0)
    (w : Fin k → F) :
    (Finset.univ.filter
        (fun c : Fin m → F => ∀ a, ∑ i : Fin m, c i * x a ^ (i.val + 1) = w a)).card
      = Fintype.card F ^ (m - k) := by
  classical
  -- the map as an additive homomorphism
  let φ : (Fin m → F) →+ (Fin k → F) :=
    { toFun := fun c a => ∑ i : Fin m, c i * x a ^ (i.val + 1)
      map_zero' := by
        funext a
        simp
      map_add' := by
        intro c d
        funext a
        simp [add_mul, Finset.sum_add_distrib] }
  have hφ : ∀ c a, φ c a = ∑ i : Fin m, c i * x a ^ (i.val + 1) := fun _ _ => rfl
  -- it is onto
  have hsurj : ∀ u : Fin k → F, u ∈ Set.range φ := by
    intro u
    let g : Polynomial F := Lagrange.interpolate Finset.univ x (fun a => u a / x a)
    have hdeg : g.degree < (k : WithBot Nat) := by
      have := Lagrange.degree_interpolate_lt (s := Finset.univ) (v := x) (fun a => u a / x a)
        (hinj.injOn)
      simpa using this
    have hnat : k ≠ 0 → g.natDegree < m := by
      intro hk0
      by_cases hg : g = 0
      · rw [hg, Polynomial.natDegree_zero]; omega
      · have := (Polynomial.natDegree_lt_iff_degree_lt hg).mpr hdeg
        omega
    refine ⟨fun i => g.coeff i.val, ?_⟩
    funext a
    have hk0 : k ≠ 0 := fun h => by
      have := a.isLt
      omega
    rw [hφ]
    have h1 : ∑ i : Fin m, g.coeff i.val * x a ^ (i.val + 1)
        = x a * ∑ i ∈ Finset.range m, g.coeff i * x a ^ i := by
      rw [Fin.sum_univ_eq_sum_range (fun i => g.coeff i * x a ^ (i + 1)) m, Finset.mul_sum]
      apply Finset.sum_congr rfl
      intro i _
      ring
    rw [h1, ← Polynomial.eval_eq_sum_range' (hnat hk0) (x a)]
    have h2 : Polynomial.eval (x a) g = u a / x a :=
      Lagrange.eval_interpolate_at_node (fun a => u a / x a) hinj.injOn (Finset.mem_univ a)
    rw [h2]
    field_simp [hx0 a]
  -- all fibres have the same size
  have hfib : ∀ u : Fin k → F,
      (Finset.univ.filter (fun c : Fin m → F => φ c = u)).card
        = (Finset.univ.filter (fun c : Fin m → F => φ c = w)).card :=
    fun u => AddMonoidHom.card_fiber_eq_of_mem_range φ (hsurj u) (hsurj w)
  have htotal := Finset.card_eq_sum_card_fiberwise (f := fun c : Fin m → F => φ c)
    (s := Finset.univ) (t := Finset.univ) (fun c _ => Finset.mem_univ _)
  simp only [hfib, Finset.sum_const, Finset.card_univ, smul_eq_mul] at htotal
  rw [Fintype.card_pi_const, Fintype.card_pi_const] at htotal
  have hset : (Finset.univ.filter
        (fun c : Fin m → F => ∀ a, ∑ i : Fin m, c i * x a ^ (i.val + 1) = w a))
      = Finset.univ.filter (fun c : Fin m → F => φ c = w) := by
    apply Finset.filter_congr
    intro c _
    constructor
    · intro h; funext a; exact h a
    · intro h a; rw [← h]; rfl
  rw [hset]
  have hpos : 0 < Fintype.card F ^ k := pow_pos Fintype.card_pos k
  have hsplit : Fintype.card F ^ m = Fintype.card F ^ k * Fintype.card F ^ (m - k) := by
    rw [← pow_add, Nat.add_sub_cancel' hk]
  rw [hsplit] at htotal
  exact (Nat.eq_of_mul_eq_mul_left hpos htotal).symm

theorem evalZ_map_range {p : Nat} (x : ZMod p) :
    ∀ (m : Nat) (g : Nat → Nat),
      evalZ 0 ((List.range m).map g) x = ∑ i ∈ Finset.range m, (g i : ZMod p) * x ^ i := by
  intro m
  induction m with
  | zero => intro g; simp [evalZ_nil]
  | succ k ih =>
    intro g
    rw [List.range_succ_eq_map, List.map_cons, List.map_map, evalZ_cons, ih (g ∘ Nat.succ),
      Finset.sum_range_succ', Finset.sum_mul]
    simp only [Function.comp, pow_zero, mul_one, pow_succ, Nat.succ_eq_add_one]
    congr 1
    apply Finset.sum_congr rfl
    intro i _
    ring

/-- The value of a share as a field element: the secret plus the drawn
coefficients times the powers of the evaluation point. -/
theorem shareValue_cast (p t : Nat) (data : List Nat) (c : Fin (t - 1) → Fin p) (x : Nat) :
    ((eval p (sharePoly p (drawsOf c) t data) x : Nat) : ZMod p)
      = (ZZFromBytes data : ZMod p)
        + ∑ i : Fin (t - 1), ((c i).val : ZMod p) * (x : ZMod p) ^ (i.val + 1) := by
  rw [eval_cast, sharePoly_eq, evalZ_normalize, evalZ_cons, evalZ_map_range, ZMod.natCast_mod,
    ← Fin.sum_univ_eq_sum_range (fun i => ((drawsOf c (i + 1) % p : Nat) : ZMod p) * (x : ZMod p) ^ i),
    Finset.sum_mul, add_comm]
  congr 1
  apply Finset.sum_congr rfl
  intro i _
  have hd : drawsOf c (i.val + 1) = (c i).val := by
    unfold drawsOf
    have h : 0 < i.val + 1 ∧ i.val + 1 - 1 < t - 1 := ⟨by omega, by simp⟩
    rw [dif_pos h]
    have e : (⟨i.val + 1 - 1, h.2⟩ : Fin (t - 1)) = i := Fin.ext (by simp)
    rw [e]
  rw [hd, ZMod.natCast_mod]
  ring

/-! ## Further lemmas on stored shares and single points -/

theorem eval_zero_sharePoly (rnd : Nat → Nat) (t : Nat) (data : List Nat) (hd : IsBytes data) :
    eval (fieldPrime data.length) (sharePoly (fieldPrime data.length) rnd t data) 0
      = ZZFromBytes data := by
  have hp := fieldPrime_prime data.length
  apply natCast_inj_of_lt (fieldPrime data.length) _ _ (eval_lt _ _ _ hp.pos)
    (secret_lt_fieldPrime data hd)
  rw [eval_cast, sharePoly_eq, evalZ_normalize, evalZ_cons, Nat.cast_zero, mul_zero, zero_add,
    ZMod.natCast_mod]

theorem shareFile_index (L x y : Nat) (hx : x < 2 ^ 32) :
    ZZFromBytes ((shareFile L x y).take 4) = x := by
  unfold shareFile
  rw [List.take_left' (BytesFromZZ_length _ _), ZZFromBytes_BytesFromZZ,
    Nat.mod_eq_of_lt (by omega)]

theorem shareFile_value (L x y : Nat) (hy : y < fieldPrime L) :
    ZZFromBytes ((shareFile L x y).drop 4) = y := by
  unfold shareFile
  rw [List.drop_left' (BytesFromZZ_length _ _), ZZFromBytes_BytesFromZZ,
    Nat.mod_eq_of_lt (hy.trans (fieldPrime_lt_pow L))]

theorem BytesFromZZ_take (a k j : Nat) : (BytesFromZZ a (k + j)).take k = BytesFromZZ a k := by
  induction k generalizing a with
  | zero => simp [BytesFromZZ]
  | succ m ih =>
    have e : m + 1 + j = (m + j) + 1 := by omega
    rw [e]
    simp only [BytesFromZZ, List.take_succ_cons, ih]

theorem BytesFromZZ_eq_iff (a n : Nat) (d : List Nat) (hd : IsBytes d) (hn : d.length = n) :
    BytesFromZZ a n = d ↔ a % 256 ^ n = ZZFromBytes d := by
  constructor
  · intro h
    rw [← h, ZZFromBytes_BytesFromZZ]
  · intro h
    have h1 := BytesFromZZ_ZZFromBytes d hd 0
    rw [← h, Nat.add_zero, List.replicate_zero, List.append_nil, hn] at h1
    rw [← h1]
    have h2 := BytesFromZZ_ZZFromBytes (BytesFromZZ a n) (BytesFromZZ_isBytes a n) 0
    rw [Nat.add_zero, List.replicate_zero, List.append_nil, BytesFromZZ_length,
      ZZFromBytes_BytesFromZZ] at h2
    exact h2.symm

theorem interpolate_single (p a b : Nat) (hp : 1 < p) (hb : b < p) :
    interpolate p [a] [b] = some (normalize [b]) := by
  have h1 : invMod p 1 = some 1 := by
    obtain ⟨x, hx, hlt, hmul⟩ := (invMod_spec p 1 hp (by omega)).1 (by simp)
    rw [hx]
    congr 1
    rw [mul_one, Nat.mod_eq_of_lt hlt] at hmul
    exact hmul
  have h2 : mulMod p 1 (subMod p b 0) = b := by
    unfold mulMod subMod
    rw [one_mul, Nat.mod_mod, Nat.sub_zero, Nat.add_mod_right, Nat.mod_eq_of_lt hb]
  simp [interpolate, interpLoop, horner, h1, h2]

/-- Scenario 2: the secret "HI", `n = 3`, `t = 2`, reconstruction from share 1
alone returns the secret exactly when the drawn coefficient is zero in `GF(p)`. -/
theorem single_share_scenario (rnd : Nat → Nat) :
    reconstruct (pick (writeShares rnd 3 2 [72, 73]) [0]) = some [72, 73]
      ↔ rnd 1 % 65537 = 0 := by
  have hp : fieldPrime [72, 73].length = 65537 := fieldPrime_two
  rw [reconstruct_pick_interp rnd 3 2 [72, 73] [0] (by simp) (by simp)]
  rw [hp]
  rw [List.map_cons, List.map_nil, List.map_cons, List.map_nil]
  have hy : eval 65537 (sharePoly 65537 rnd 2 [72, 73]) ((0 + 1) % 65537)
      = (18760 + rnd 1 % 65537) % 65537 := by
    apply natCast_inj_of_lt 65537 _ _ (eval_lt _ _ _ (by norm_num)) (Nat.mod_lt _ (by norm_num))
    rw [eval_cast, sharePoly_eq, evalZ_normalize]
    have hr1 : List.range (2 - 1) = [0] := rfl
    rw [hr1]
    simp only [List.map_cons, List.map_nil, evalZ_cons, evalZ_nil, ZMod.natCast_mod, ZZFromBytes]
    push_cast
    rw [ZMod.natCast_mod]
    ring
  rw [hy]
  have hc : rnd 1 % 65537 < 65537 := Nat.mod_lt _ (by norm_num)
  generalize rnd 1 % 65537 = c at hc ⊢
  have hb : (18760 + c) % 65537 < 65537 := Nat.mod_lt _ (by norm_num)
  have hyc : ((18760 + c) % 65537 = 0 ∧ c ≠ 0) ∨
      ((18760 + c) % 65537 ≠ 0 ∧ ((18760 + c) % 65537 % 65536 = 18760 ↔ c = 0)) := by omega
  generalize (18760 + c) % 65537 = y at hb hyc ⊢
  generalize (0 + 1) % 65537 = x1
  rw [interpolate_single 65537 x1 y (by norm_num) hb]
  rcases hyc with ⟨h0, hc0⟩ | ⟨h0, hiff⟩
  · rw [h0]
    have : normalize [0] = [] := rfl
    rw [this]
    simp only [reduceCtorEq, false_iff]
    exact hc0
  · have : normalize [y] = [y] := by simp [normalize, h0]
    rw [this]
    simp only [List.length_cons, List.length_nil, Option.some.injEq]
    have e := BytesFromZZ_take y 2 1
    simp only [Nat.reduceAdd] at e ⊢
    rw [e, BytesFromZZ_eq_iff _ 2 [72, 73] (by decide) rfl]
    simp only [ZZFromBytes]
    norm_num
    exact hiff

theorem take_bytes_eq (L c c2 : Nat) (hc : c < 2 * 256 ^ L) (hc2 : c2 < 2 * 256 ^ L)
    (hne : c ≠ c2)
    (h : (BytesFromZZ c (L + 1)).take L = (BytesFromZZ c2 (L + 1)).take L) :
    c + 256 ^ L = c2 ∨ c2 + 256 ^ L = c := by
  rw [BytesFromZZ_take, BytesFromZZ_take] at h
  have h2 := congrArg ZZFromBytes h
  rw [ZZFromBytes_BytesFromZZ, ZZFromBytes_BytesFromZZ] at h2
  have hT : 0 < 256 ^ L := by positivity
  have d1 := Nat.div_add_mod c (256 ^ L)
  have d2 := Nat.div_add_mod c2 (256 ^ L)
  have q1 : c / 256 ^ L < 2 := Nat.div_lt_of_lt_mul (by rw [mul_comm]; exact hc)
  have q2 : c2 / 256 ^ L < 2 := Nat.div_lt_of_lt_mul (by rw [mul_comm]; exact hc2)
  generalize 256 ^ L = T at *
  generalize c / T = a at *
  generalize c2 / T = b at *
  interval_cases a <;> interval_cases b <;> simp only [mul_zero, mul_one] at d1 d2 <;> omega

theorem pick_getD (files : List (List Nat)) (idx : List Nat) (h : ∀ i ∈ idx, i < files.length) :
    pick files idx = idx.map fun i => files.getD i [] := by
  unfold pick
  induction idx with
  | nil => rfl
  | cons i is ih =>
    have hi := h i (List.mem_cons_self _ _)
    rw [List.filterMap_cons, List.map_cons, ih (fun j hj => h j (List.mem_cons_of_mem _ hj))]
    rw [List.getD_eq_getElem?_getD, List.getElem?_eq_getElem hi]
    rfl

/-! ## Thresholds 0 and 1, and evaluation points that repeat -/

theorem sharePoly_const (p : Nat) (rnd : Nat → Nat) (t : Nat) (data : List Nat) (ht : t ≤ 1) :
    sharePoly p rnd t data = normalize [ZZFromBytes data % p] := by
  rw [sharePoly_eq]
  have h0 : t - 1 = 0 := by omega
  rw [h0]
  rfl

theorem eval_normalize_single (p c x : Nat) (hc : c < p) : eval p (normalize [c]) x = c := by
  by_cases h : c = 0
  · subst h
    simp [normalize, eval, horner]
  · simp [normalize, h, eval, horner, addMod, mulMod, Nat.mod_eq_of_lt hc]

/-- With a threshold of 0 or 1 the polynomial is the constant `S` and every
share value is the secret integer. -/
theorem distribute_const (rnd : Nat → Nat) (n t : Nat) (data : List Nat) (hd : IsBytes data)
    (ht : t ≤ 1) : distribute rnd n t data = List.replicate n (ZZFromBytes data) := by
  rw [distribute_eq, sharePoly_const _ _ _ _ ht, Nat.mod_eq_of_lt (secret_lt_fieldPrime data hd)]
  simp only [eval_normalize_single _ _ _ (secret_lt_fieldPrime data hd)]
  rw [List.map_const', List.length_range]

/-- The value field of the `i`-th share file holds the `i`-th share in
`inSize + 1` bytes. -/
theorem writeShares_value_bytes (rnd : Nat → Nat) (n t : Nat) (data : List Nat) (i : Nat)
    (hi : i < n) :
    ((writeShares rnd n t data).getD i []).drop 4
      = BytesFromZZ ((distribute rnd n t data).getD i 0) (data.length + 1) := by
  unfold writeShares
  simp only
  rw [List.getD_eq_getElem?_getD, List.getElem?_map, List.getElem?_range hi, Option.map_some',
    Option.getD_some]
  unfold shareFile
  rw [List.drop_left' (BytesFromZZ_length _ _)]

theorem replicate_getD (n a i d : Nat) (hi : i < n) : (List.replicate n a).getD i d = a := by
  rw [List.getD_eq_getElem _ _ (by simpa using hi), List.getElem_replicate]

theorem secret_value_bytes (data : List Nat) (hd : IsBytes data) :
    BytesFromZZ (ZZFromBytes data) (data.length + 1) = data ++ [0] :=
  BytesFromZZ_ZZFromBytes data hd 1

/-- The evaluation points `1 .. n` of `distribute` are pairwise distinct in
`GF(p)` exactly when `n <= p`. -/
theorem evalPoints_nodup_iff (p n : Nat) (hp : 1 < p) :
    ((List.range n).map fun i => toZZ_p p (i + 1)).Nodup ↔ n ≤ p := by
  constructor
  · intro h
    by_contra hcon
    have hinj := List.inj_on_of_nodup_map h
    have h0 : (0 : Nat) ∈ List.range n := List.mem_range.mpr (by omega)
    have h1 : p ∈ List.range n := List.mem_range.mpr (by omega)
    have := hinj h0 h1 (by
      unfold toZZ_p
      rw [Nat.add_mod_left])
    omega
  · intro h
    apply List.Nodup.map_on _ (List.nodup_range n)
    intro i hi j hj hij
    have hi2 := List.mem_range.mp hi
    have hj2 := List.mem_range.mp hj
    unfold toZZ_p at hij
    rcases Nat.lt_or_ge (i + 1) p with h1 | h1 <;> rcases Nat.lt_or_ge (j + 1) p with h2 | h2
    · rw [Nat.mod_eq_of_lt h1, Nat.mod_eq_of_lt h2] at hij; omega
    · have e : j + 1 = p := by omega
      rw [Nat.mod_eq_of_lt h1, e, Nat.mod_self] at hij; omega
    · have e : i + 1 = p := by omega
      rw [Nat.mod_eq_of_lt h2, e, Nat.mod_self] at hij; omega
    · omega

/-! ## Records of another length in the reading loop -/

theorem readShare_eq (slen : Nat) (x sbuf file : List Nat) :
    readShare slen x sbuf file
      = (file.take 4 ++ x.drop (file.take 4).length,
          (file.drop 4).take slen ++ sbuf.drop ((file.drop 4).take slen).length) := rfl

theorem readShare_length (slen : Nat) (x sbuf file : List Nat)
    (hx : x.length = 4) (hs : sbuf.length = slen) :
    (readShare slen x sbuf file).1.length = 4 ∧ (readShare slen x sbuf file).2.length = slen := by
  rw [readShare_eq]
  simp only [List.length_append, List.length_take, List.length_drop]
  omega

theorem readShare_full (slen : Nat) (x sbuf a b : List Nat) (ha : a.length = 4)
    (hb : b.length = slen) (hx : x.length ≤ 4) (hs : sbuf.length ≤ slen) :
    readShare slen x sbuf (a ++ b) = (a, b) := by
  unfold readShare
  rw [fread_append x a b 4 ha hx]
  simp only
  have := fread_append sbuf b [] slen hb hs
  rw [List.append_nil] at this
  rw [this]

/-- What one pass of the reading loop leaves in the two buffers: the file cut
to `4 + slen` bytes, followed by the old content of the buffers from the
position where the file ends. -/
theorem readShare_append (slen : Nat) (x sbuf cur : List Nat) (hx : x.length = 4) :
    (readShare slen x sbuf cur).1 ++ (readShare slen x sbuf cur).2
      = cur.take (4 + slen) ++ (x ++ sbuf).drop (cur.take (4 + slen)).length := by
  rw [readShare_eq]
  simp only
  rcases Nat.lt_or_ge cur.length 4 with h | h
  · have e1 : cur.take 4 = cur := List.take_of_length_le (by omega)
    have e2 : cur.drop 4 = [] := List.drop_eq_nil_of_le (by omega)
    have e3 : cur.take (4 + slen) = cur := List.take_of_length_le (by omega)
    rw [e1, e2, e3, List.take_nil, List.length_nil, List.drop_zero, List.nil_append,
      List.drop_append_of_le_length (by omega), List.append_assoc]
  · have e1 : (cur.take 4).length = 4 := by rw [List.length_take]; omega
    have e2 : x.drop (cur.take 4).length = [] := List.drop_eq_nil_of_le (by omega)
    have e3 : (cur.take (4 + slen)).length = x.length + ((cur.drop 4).take slen).length := by
      rw [List.take_add, List.length_append, e1, hx]
    rw [e2, List.append_nil, e3, List.drop_append, List.take_add, List.append_assoc]

/-- Reading a file, or reading the record that reading it leaves in the
buffers, has the same effect. -/
theorem readShare_idem (slen : Nat) (x sbuf cur : List Nat)
    (hx : x.length = 4) (hs : sbuf.length = slen) :
    readShare slen x sbuf (cur.take (4 + slen) ++ (x ++ sbuf).drop (cur.take (4 + slen)).length)
      = readShare slen x sbuf cur := by
  have hl := readShare_length slen x sbuf cur hx hs
  rw [← readShare_append slen x sbuf cur hx,
    readShare_full slen x sbuf _ _ hl.1 hl.2 hx.le hs.le]

theorem readShare_full_eq (slen : Nat) (x sbuf prev : List Nat) (hp : prev.length = 4 + slen)
    (hx : x.length ≤ 4) (hs : sbuf.length ≤ slen) :
    readShare slen x sbuf prev = (prev.take 4, prev.drop 4) := by
  have h := readShare_full slen x sbuf (prev.take 4) (prev.drop 4)
    (by rw [List.length_take]; omega) (by rw [List.length_drop]; omega) hx hs
  rw [List.take_append_drop] at h
  exact h

theorem readShares_cons (p slen : Nat) (x sbuf file : List Nat) (files : List (List Nat)) :
    readShares p slen x sbuf (file :: files)
      = (toZZ_p p (ZZFromBytes (readShare slen x sbuf file).1) ::
            (readShares p slen (readShare slen x sbuf file).1
              (readShare slen x sbuf file).2 files).1,
          toZZ_p p (ZZFromBytes (readShare slen x sbuf file).2) ::
            (readShares p slen (readShare slen x sbuf file).1
              (readShare slen x sbuf file).2 files).2) := rfl

/-- The reading loop gives the same points for the files as for the records
the files leave in the buffers. -/
theorem readShares_completed (p slen : Nat) :
    ∀ (files : List (List Nat)) (x sbuf x2 sbuf2 : List Nat),
      x.length = 4 → sbuf.length = slen → x2.length ≤ 4 → sbuf2.length ≤ slen →
      readShares p slen x2 sbuf2 (completed (4 + slen) (x ++ sbuf) files)
        = readShares p slen x sbuf files := by
  intro files
  induction files with
  | nil => intro x sbuf x2 sbuf2 _ _ _ _; rfl
  | cons cur rest ih =>
    intro x sbuf x2 sbuf2 hx hs hx2 hs2
    have hl := readShare_length slen x sbuf cur hx hs
    have happ := readShare_append slen x sbuf cur hx
    simp only [completed]
    rw [← happ, readShares_cons, readShares_cons,
      readShare_full slen x2 sbuf2 _ _ hl.1 hl.2 hx2 hs2]
    simp only
    rw [ih _ _ _ _ hl.1 hl.2 hl.1.le hl.2.le]

theorem completed_length (w : Nat) :
    ∀ (files : List (List Nat)) (prev : List Nat),
      (completed w prev files).length = files.length := by
  intro files
  induction files with
  | nil => intro prev; rfl
  | cons cur rest ih => intro prev; simp [completed, ih]

theorem completed_width (w : Nat) :
    ∀ (files : List (List Nat)) (prev : List Nat), prev.length = w →
      ∀ r ∈ completed w prev files, r.length = w := by
  intro files
  induction files with
  | nil => intro prev _ r hr; simp [completed] at hr
  | cons cur rest ih =>
    intro prev hp r hr
    have hlen : (cur.take w ++ prev.drop (cur.take w).length).length = w := by
      simp only [List.length_append, List.length_take, List.length_drop]
      omega
    simp only [completed, List.mem_cons] at hr
    rcases hr with rfl | hr
    · exact hlen
    · exact ih _ hlen r hr

theorem completed_head (first : List Nat) (rest : List (List Nat)) :
    completed first.length (List.replicate first.length 0) (first :: rest)
      = first :: completed first.length first rest := by
  have e : first.take first.length ++ (List.replicate first.length 0).drop
      (first.take first.length).length = first := by
    rw [List.take_of_length_le (le_refl _), List.drop_eq_nil_of_le (by simp), List.append_nil]
  simp only [completed, e]

/-- The reconstruction branch on any files whose first has at least 5 bytes
does what it does on the records the files leave in the buffers, which all
have the length of the first file. -/
theorem interpolated_completed (first : List Nat) (rest : List (List Nat))
    (h5 : 5 ≤ first.length) :
    interpolated (completed first.length (List.replicate first.length 0) (first :: rest))
      = interpolated (first :: rest) := by
  have hw : 4 + (first.length - 4) = first.length := by omega
  have hread := readShares_completed (fieldPrime (first.length - 4 - 1)) (first.length - 4)
    (first :: rest) (List.replicate 4 0) (List.replicate (first.length - 4) 0)
    (List.replicate 4 0) (List.replicate (first.length - 4) 0)
    (by simp) (by simp) (by simp) (by simp)
  rw [← List.replicate_add, hw] at hread
  rw [completed_head] at hread ⊢
  unfold interpolated
  simp only [if_neg (by omega : ¬ first.length < 5)]
  rw [hread]

theorem reconstruct_completed (first : List Nat) (rest : List (List Nat))
    (h5 : 5 ≤ first.length) :
    reconstruct (completed first.length (List.replicate first.length 0) (first :: rest))
      = reconstruct (first :: rest) := by
  have hi := interpolated_completed first rest h5
  unfold reconstruct
  rw [hi, completed_head]
  rfl

/-- A file that follows a record of full length is read as if it were cut to
that length and completed from that record. -/
theorem readShares_splice (p slen : Nat) (prev cur : List Nat) (post : List (List Nat))
    (hprev : prev.length = 4 + slen) :
    ∀ (pre : List (List Nat)) (x sbuf : List Nat), x.length = 4 → sbuf.length = slen →
      readShares p slen x sbuf
          (pre ++ prev :: (cur.take (4 + slen) ++ prev.drop (cur.take (4 + slen)).length) :: post)
        = readShares p slen x sbuf (pre ++ prev :: cur :: post) := by
  intro pre
  induction pre with
  | nil =>
    intro x sbuf hx hs
    have hfull := readShare_full_eq slen x sbuf prev hprev hx.le hs.le
    have h4 : (prev.take 4).length = 4 := by rw [List.length_take]; omega
    have hd : (prev.drop 4).length = slen := by rw [List.length_drop]; omega
    have hid := readShare_idem slen (prev.take 4) (prev.drop 4) cur h4 hd
    rw [List.take_append_drop] at hid
    have hstep : readShares p slen (prev.take 4) (prev.drop 4)
          ((cur.take (4 + slen) ++ prev.drop (cur.take (4 + slen)).length) :: post)
        = readShares p slen (prev.take 4) (prev.drop 4) (cur :: post) := by
      rw [readShares_cons, readShares_cons, hid]
    simp only [List.nil_append]
    rw [readShares_cons, readShares_cons p slen x sbuf prev (cur :: post), hfull]
    simp only
    rw [hstep]
  | cons f fs ih =>
    intro x sbuf hx hs
    have hl := readShare_length slen x sbuf f hx hs
    simp only [List.cons_append]
    rw [readShares_cons, readShares_cons, ih _ _ hl.1 hl.2]

theorem interpolated_splice (pre post : List (List Nat)) (prev cur : List Nat)
    (h5 : 5 ≤ ((pre ++ [prev]).headD []).length)
    (hprev : prev.length = ((pre ++ [prev]).headD []).length) :
    interpolated
        (pre ++ prev :: (cur.take prev.length ++ prev.drop (cur.take prev.length).length) :: post)
      = interpolated (pre ++ prev :: cur :: post) := by
  have hw : prev.length = 4 + (prev.length - 4) := by omega
  have key := fun x sbuf hx hs =>
    readShares_splice (fieldPrime (prev.length - 4 - 1)) (prev.length - 4) prev cur post hw pre
      x sbuf hx hs
  rw [← hw] at key
  cases pre with
  | nil =>
    have k := key (List.replicate 4 0) (List.replicate (prev.length - 4) 0) (by simp) (by simp)
    simp only [List.nil_append] at k ⊢
    unfold interpolated
    simp only [if_neg (by omega : ¬ prev.length < 5)]
    rw [k]
  | cons f fs =>
    simp only [List.cons_append, List.headD_cons] at h5 hprev
    have k := key (List.replicate 4 0) (List.replicate (prev.length - 4) 0) (by simp) (by simp)
    simp only [List.cons_append] at k ⊢
    unfold interpolated
    simp only [if_neg (by omega : ¬ f.length < 5), ← hprev]
    rw [k]

theorem reconstruct_splice (pre post : List (List Nat)) (prev cur : List Nat)
    (h5 : 5 ≤ ((pre ++ [prev]).headD []).length)
    (hprev : prev.length = ((pre ++ [prev]).headD []).length) :
    reconstruct
        (pre ++ prev :: (cur.take prev.length ++ prev.drop (cur.take prev.length).length) :: post)
      = reconstruct (pre ++ prev :: cur :: post) := by
  have hi := interpolated_splice pre post prev cur h5 hprev
  unfold reconstruct
  rw [hi]
  cases pre <;> rfl

/-! ## Runs of `main` -/

theorem main_of_lt (rnd : Nat → Nat) (n t : Nat) (stdin : List Nat) (files : List (List Nat))
    (h : n < t) : main rnd n t stdin files = Run.mk [Event.message] (some 1) := by
  simp [main, h]

theorem main_distribute (rnd : Nat → Nat) (n t : Nat) (stdin : List Nat)
    (files : List (List Nat)) (h : ¬ n < t) (hf : files.length < 2) :
    main rnd n t stdin files
      = Run.mk
          (Event.modulus (fieldPrime (files.headD stdin).length) ::
            (List.range n).map fun i =>
              Event.written (i + 1) ((writeShares rnd n t (files.headD stdin)).getD i []))
          (some 0) := by
  simp [main, h, hf]

theorem main_reconstruct (rnd : Nat → Nat) (n t : Nat) (stdin : List Nat)
    (files : List (List Nat)) (h : ¬ n < t) (hf : ¬ files.length < 2)
    (h5 : ¬ (files.headD []).length < 5) :
    main rnd n t stdin files
      = match reconstruct files with
        | none =>
          Run.mk [Event.modulus (fieldPrime ((files.headD []).length - 4 - 1)), Event.stopped] none
        | some out =>
          Run.mk [Event.modulus (fieldPrime ((files.headD []).length - 4 - 1)), Event.output out]
            (some 0) := by
  unfold main
  rw [if_neg h, if_neg hf, if_neg h5]

/-- A request that passes the threshold check prints no message and does not
return 1. -/
theorem main_accepted (rnd : Nat → Nat) (n t : Nat) (stdin : List Nat)
    (files : List (List Nat)) (h : ¬ n < t) :
    Event.message ∉ (main rnd n t stdin files).events ∧
      (main rnd n t stdin files).ret ≠ some 1 := by
  unfold main
  rw [if_neg h]
  split
  · simp
  · split
    · simp
    · split <;> simp

/-- The run of `main` on two lists of at least two files is the same when the
first files agree and the reconstruction branch gives the same result. -/
theorem main_congr (rnd : Nat → Nat) (n t : Nat) (stdin : List Nat)
    (files files2 : List (List Nat)) (hl : 2 ≤ files.length) (hl2 : 2 ≤ files2.length)
    (hh : files.headD [] = files2.headD []) (hr : reconstruct files = reconstruct files2) :
    main rnd n t stdin files = main rnd n t stdin files2 := by
  unfold main
  rw [if_neg (by omega : ¬ files.length < 2), if_neg (by omega : ¬ files2.length < 2), hh, hr]

theorem pick_writeShares_length (rnd : Nat → Nat) (n t : Nat) (data : List Nat) (idx : List Nat)
    (hidx : ∀ i ∈ idx, i < n) : (pick (writeShares rnd n t data) idx).length = idx.length := by
  rw [pick_writeShares rnd n t data idx hidx, List.length_map]

theorem pick_writeShares_head (rnd : Nat → Nat) (n t : Nat) (data : List Nat) (idx : List Nat)
    (hne : idx ≠ []) (hidx : ∀ i ∈ idx, i < n) :
    ((pick (writeShares rnd n t data) idx).headD []).length = 4 + (data.length + 1) := by
  rw [pick_writeShares rnd n t data idx hidx]
  cases idx with
  | nil => exact absurd rfl hne
  | cons i is => simp [shareFile_length]

/-- The run of `main` on at least two share files from which the reconstruction
branch recovers the secret. -/
theorem main_of_reconstruct (rnd rnd2 : Nat → Nat) (n t n2 t2 : Nat)
    (data stdin idx : List Nat) (h2 : 2 ≤ idx.length) (hidx : ∀ i ∈ idx, i < n)
    (ht : ¬ n2 < t2)
    (hrec : reconstruct (pick (writeShares rnd n t data) idx) = some data) :
    main rnd2 n2 t2 stdin (pick (writeShares rnd n t data) idx)
      = Run.mk [Event.modulus (fieldPrime data.length), Event.output data] (some 0) := by
  have hne : idx ≠ [] := by
    intro h
    rw [h] at h2
    simp at h2
  have hlen := pick_writeShares_length rnd n t data idx hidx
  have hhead := pick_writeShares_head rnd n t data idx hne hidx
  rw [main_reconstruct rnd2 n2 t2 stdin _ ht (by omega) (by omega), hrec, hhead]
  have e : 4 + (data.length + 1) - 4 - 1 = data.length := by omega
  simp only [e]

/-! ## The constant coefficient as a Lagrange sum -/

theorem zip_fst_snd (pts : List (Nat × Nat)) :
    List.zip (pts.map Prod.fst) (pts.map Prod.snd) = pts := by
  induction pts with
  | nil => rfl
  | cons q qs ih => simp [ih]

theorem range_toFinset (m : Nat) : (List.range m).toFinset = Finset.range m := by
  ext i
  simp

theorem getD_mem (pts : List (Nat × Nat)) (i : Nat) (hi : i < pts.length) :
    pts.getD i (0, 0) ∈ pts := by
  rw [List.getD_eq_getElem _ _ hi]
  exact List.getElem_mem hi

/-- The first components of pairwise distinct residues stay distinct in
`ZMod p`. -/
theorem points_injOn (p : Nat) (pts : List (Nat × Nat)) (hlt : ∀ q ∈ pts, q.1 < p ∧ q.2 < p)
    (hnd : (pts.map Prod.fst).Nodup) (i j : Nat) (hi : i < pts.length) (hj : j < pts.length)
    (h : ((pts.getD i (0, 0)).1 : ZMod p) = ((pts.getD j (0, 0)).1 : ZMod p)) : i = j := by
  have h1 := natCast_inj_of_lt p _ _ (hlt _ (getD_mem pts i hi)).1 (hlt _ (getD_mem pts j hj)).1 h
  rw [List.getD_eq_getElem _ _ hi, List.getD_eq_getElem _ _ hj] at h1
  have hi2 : i < (pts.map Prod.fst).length := by simpa using hi
  have hj2 : j < (pts.map Prod.fst).length := by simpa using hj
  have h2 : (pts.map Prod.fst)[i] = (pts.map Prod.fst)[j] := by
    rw [List.getElem_map, List.getElem_map]
    exact h1
  exact (List.Nodup.getElem_inj_iff hnd).mp h2

/-- The formula of the specification, read in `ZMod p`. -/
theorem lagrangeAtZero_cast (p : Nat) [Fact p.Prime] (pts : List (Nat × Nat))
    (hlt : ∀ q ∈ pts, q.1 < p ∧ q.2 < p) (hnd : (pts.map Prod.fst).Nodup) :
    ((lagrangeAtZero p pts : Nat) : ZMod p)
      = ∑ i ∈ Finset.range pts.length, ((pts.getD i (0, 0)).2 : ZMod p) *
          ∏ j ∈ (Finset.range pts.length).erase i,
            ((((pts.getD i (0, 0)).1 : ZMod p) - ((pts.getD j (0, 0)).1 : ZMod p))⁻¹ *
              (0 - ((pts.getD j (0, 0)).1 : ZMod p))) := by
  have hp : Nat.Prime p := Fact.out
  unfold lagrangeAtZero
  rw [ZMod.natCast_mod, Nat.cast_list_sum, List.map_map,
    ← List.sum_toFinset _ (List.nodup_range pts.length), range_toFinset]
  apply Finset.sum_congr rfl
  intro i hi
  have hi2 : i < pts.length := Finset.mem_range.mp hi
  simp only [Function.comp]
  rw [Nat.cast_mul, Nat.cast_list_prod, List.map_map,
    ← List.prod_toFinset _ ((List.nodup_range pts.length).filter _), List.toFinset_filter,
    range_toFinset]
  congr 1
  have hset : Finset.filter (fun x => decide (x ≠ i) = true) (Finset.range pts.length)
      = (Finset.range pts.length).erase i := by
    ext j
    simp [and_comm]
  rw [hset]
  apply Finset.prod_congr rfl
  intro j hj
  have hj2 : j < pts.length := Finset.mem_range.mp (Finset.mem_of_mem_erase hj)
  have hji : j ≠ i := Finset.ne_of_mem_erase hj
  have hxi := (hlt _ (getD_mem pts i hi2)).1
  have hxj := (hlt _ (getD_mem pts j hj2)).1
  have hsub : ((subMod p (pts.getD i (0, 0)).1 (pts.getD j (0, 0)).1 : Nat) : ZMod p)
      = ((pts.getD i (0, 0)).1 : ZMod p) - ((pts.getD j (0, 0)).1 : ZMod p) :=
    subMod_cast p _ _ hxj.le
  have hne : ((subMod p (pts.getD i (0, 0)).1 (pts.getD j (0, 0)).1 : Nat) : ZMod p) ≠ 0 := by
    rw [hsub]
    intro h0
    exact hji (points_injOn p pts hlt hnd i j hi2 hj2 (sub_eq_zero.mp h0)).symm
  obtain ⟨inv, hinv, _, hinvc⟩ :=
    invMod_some p (subMod p (pts.getD i (0, 0)).1 (pts.getD j (0, 0)).1)
      (Nat.mod_lt _ hp.pos) hne
  simp only [Function.comp]
  rw [hinv, Option.getD_some, Nat.cast_mul, negMod_cast p _ hxj.le, hinvc, hsub]
  ring

/-- The constant coefficient of a coefficient vector that takes the values
`y_i` at the points `x_i` is the Lagrange sum at 0. -/
theorem const_coeff_lagrange (p : Nat) [Fact p.Prime] (pts : List (Nat × Nat)) (r : List Nat)
    (hlt : ∀ q ∈ pts, q.1 < p ∧ q.2 < p) (hnd : (pts.map Prod.fst).Nodup)
    (hlen : r.length ≤ pts.length)
    (hev : ∀ q ∈ pts, evalZ 0 r (q.1 : ZMod p) = (q.2 : ZMod p)) :
    ((r.getD 0 0 : Nat) : ZMod p) = ((lagrangeAtZero p pts : Nat) : ZMod p) := by
  have hinj : Set.InjOn (fun i : Nat => ((pts.getD i (0, 0)).1 : ZMod p))
      (Finset.range pts.length : Finset Nat) := by
    intro i hi j hj h
    exact points_injOn p pts hlt hnd i j (Finset.mem_range.mp (Finset.mem_coe.mp hi))
      (Finset.mem_range.mp (Finset.mem_coe.mp hj)) h
  have key := Lagrange.eq_interpolate_of_eval_eq
    (s := Finset.range pts.length)
    (v := fun i : Nat => ((pts.getD i (0, 0)).1 : ZMod p))
    (fun i : Nat => ((pts.getD i (0, 0)).2 : ZMod p))
    (f := List.foldr (fun (c : Nat) (acc : Polynomial (ZMod p)) =>
        Polynomial.C (c : ZMod p) + Polynomial.X * acc) 0 r)
    hinj
    (by rw [Finset.card_range]; exact listPoly_degree_lt r _ hlen)
    (by
      intro i hi
      rw [listPoly_eval]
      exact hev _ (getD_mem pts i (Finset.mem_range.mp hi)))
  have h0 := congrArg (Polynomial.eval 0) key
  rw [listPoly_eval, evalZ_zero_point] at h0
  rw [h0, lagrangeAtZero_cast p pts hlt hnd, Lagrange.interpolate_apply,
    Polynomial.eval_finset_sum]
  apply Finset.sum_congr rfl
  intro i _
  rw [Polynomial.eval_mul, Polynomial.eval_C, Lagrange.basis, Polynomial.eval_prod]
  congr 1
  apply Finset.prod_congr rfl
  intro j _
  simp [Lagrange.basisDivisor]

/-- On points given as residues with pairwise distinct first components,
`interpolate` succeeds and the coefficient 0 of its result is the Lagrange sum
at 0. -/
theorem interpolate_const_coeff (p : Nat) [Fact p.Prime] (pts : List (Nat × Nat))
    (hne : pts ≠ []) (hlt : ∀ q ∈ pts, q.1 < p ∧ q.2 < p) (hnd : (pts.map Prod.fst).Nodup) :
    ∃ f, interpolate p (pts.map Prod.fst) (pts.map Prod.snd) = some f ∧
      f.getD 0 0 = lagrangeAtZero p pts := by
  have hp : Nat.Prime p := Fact.out
  obtain ⟨r, hr, hlen, hev, hrlt⟩ := interpLoop_spec p pts [] [] [] rfl rfl
    (by intro x; simp [evalZ_nil]) (by simp) (by simp) (by simpa using hlt) (by simpa using hnd)
  have hlen2 : r.length = pts.length := by simpa using hlen
  refine ⟨normalize r, ?_, ?_⟩
  · unfold interpolate
    rw [zip_fst_snd, hr]
    simp
  · rw [normalize_getD]
    have hpos : 0 < r.length := by
      rw [hlen2]
      exact List.length_pos.mpr hne
    apply natCast_inj_of_lt p _ _ _ (Nat.mod_lt _ hp.pos)
    · exact const_coeff_lagrange p pts r hlt hnd hlen2.le (by simpa using hev)
    · rw [List.getD_eq_getElem _ _ hpos]
      exact hrlt _ (List.getElem_mem hpos)

/-! ## How often fewer shares than the threshold give a fixed constant term -/

/-- Over a finite field, for `1 <= k <= m` pairwise distinct non-zero points
`x a` and weights `lam a`, not all zero, every value `v` is taken by exactly
`|F|^(m-1)` coefficient vectors `c` under the map
`c ↦ A + ∑ a, lam a * ∑ i, c i * x a ^ (i+1)`. -/
theorem card_fiber_combination {F : Type} [Field F] [Fintype F] [DecidableEq F] (m k : Nat)
    (hk : k ≤ m) (x : Fin k → F) (hinj : Function.Injective x) (hx0 : ∀ a, x a ≠ 0)
    (lam : Fin k → F) (a0 : Fin k) (hlam : lam a0 ≠ 0) (A v : F) :
    (Finset.univ.filter
        (fun c : Fin m → F =>
          A + ∑ a : Fin k, lam a * ∑ i : Fin m, c i * x a ^ (i.val + 1) = v)).card
      = Fintype.card F ^ (m - 1) := by
  classical
  let ψ : (Fin m → F) →+ F :=
    { toFun := fun c => ∑ a : Fin k, lam a * ∑ i : Fin m, c i * x a ^ (i.val + 1)
      map_zero' := by simp
      map_add' := by
        intro c d
        simp [add_mul, Finset.sum_add_distrib, mul_add] }
  have hψ : ∀ c, ψ c = ∑ a : Fin k, lam a * ∑ i : Fin m, c i * x a ^ (i.val + 1) :=
    fun _ => rfl
  have hsurj : ∀ u : F, u ∈ Set.range ψ := by
    intro u
    have hcard := card_fiber_eval m k hk x hinj hx0 (fun a => if a = a0 then u / lam a0 else 0)
    have hpos : 0 < (Finset.univ.filter
        (fun c : Fin m → F => ∀ a, ∑ i : Fin m, c i * x a ^ (i.val + 1)
          = (if a = a0 then u / lam a0 else 0))).card := by
      rw [hcard]
      exact pow_pos Fintype.card_pos _
    obtain ⟨c, hc⟩ := Finset.card_pos.mp hpos
    simp only [Finset.mem_filter, Finset.mem_univ, true_and] at hc
    refine ⟨c, ?_⟩
    rw [hψ]
    simp only [hc]
    rw [Finset.sum_eq_single a0]
    · simp only [if_true]
      field_simp
    · intro b _ hb
      simp [hb]
    · intro h
      exact absurd (Finset.mem_univ a0) h
  have hfib : ∀ u : F,
      (Finset.univ.filter (fun c : Fin m → F => ψ c = u)).card
        = (Finset.univ.filter (fun c : Fin m → F => ψ c = v - A)).card :=
    fun u => AddMonoidHom.card_fiber_eq_of_mem_range ψ (hsurj u) (hsurj (v - A))
  have htotal := Finset.card_eq_sum_card_fiberwise (f := fun c : Fin m → F => ψ c)
    (s := Finset.univ) (t := Finset.univ) (fun c _ => Finset.mem_univ _)
  simp only [hfib, Finset.sum_const, Finset.card_univ, smul_eq_mul] at htotal
  rw [Fintype.card_pi_const] at htotal
  have hset : (Finset.univ.filter
        (fun c : Fin m → F =>
          A + ∑ a : Fin k, lam a * ∑ i : Fin m, c i * x a ^ (i.val + 1) = v))
      = Finset.univ.filter (fun c : Fin m → F => ψ c = v - A) := by
    apply Finset.filter_congr
    intro c _
    rw [hψ]
    constructor
    · intro h; rw [← h]; ring
    · intro h; rw [h]; ring
  rw [hset]
  have hm : 1 ≤ m := le_trans (Nat.succ_le_of_lt (Fin.pos a0)) hk
  have hpos : 0 < Fintype.card F := Fintype.card_pos
  have hsplit : Fintype.card F ^ m = Fintype.card F * Fintype.card F ^ (m - 1) := by
    rw [← pow_succ', Nat.sub_add_cancel hm]
  rw [hsplit] at htotal
  exact (Nat.eq_of_mul_eq_mul_left hpos htotal).symm

theorem map_getD_pair (idx : List Nat) (g : Nat → Nat × Nat) (i : Nat) (hi : i < idx.length) :
    (idx.map g).getD i (0, 0) = g (idx.getD i 0) := by
  rw [List.getD_eq_getElem _ _ (by simpa using hi), List.getElem_map,
    List.getD_eq_getElem _ _ hi]

/-- The constant coefficient that the reconstruction branch interpolates from the
shares at the positions `idx`, as an element of `GF(p)`: the Lagrange
combination of the share values, each of which is the secret plus the drawn
coefficients times the powers of the evaluation point. -/
theorem interpolated_const_combination (n t : Nat) (data idx : List Nat)
    (c : Fin (t - 1) → Fin (fieldPrime data.length)) (hne : idx ≠ [])
    (hidx : ∀ i ∈ idx, i < n ∧ i + 1 < 2 ^ 32)
    (hdist : (idx.map fun i => (i + 1) % fieldPrime data.length).Nodup) :
    ∃ f, interpolated (pick (writeShares (drawsOf c) n t data) idx) = some f ∧
      f.getD 0 0 < fieldPrime data.length ∧
      ((f.getD 0 0 : Nat) : ZMod (fieldPrime data.length))
        = ∑ a ∈ Finset.range idx.length,
            ((ZZFromBytes data : ZMod (fieldPrime data.length))
              + ∑ r : Fin (t - 1), ((c r).val : ZMod (fieldPrime data.length))
                  * ((idx.getD a 0 + 1 : Nat) : ZMod (fieldPrime data.length)) ^ (r.val + 1))
            * ∏ j ∈ (Finset.range idx.length).erase a,
                ((((idx.getD a 0 + 1 : Nat) : ZMod (fieldPrime data.length))
                    - ((idx.getD j 0 + 1 : Nat) : ZMod (fieldPrime data.length)))⁻¹
                  * (0 - ((idx.getD j 0 + 1 : Nat) : ZMod (fieldPrime data.length)))) := by
  haveI : Fact (fieldPrime data.length).Prime := ⟨fieldPrime_prime _⟩
  have hp := fieldPrime_prime data.length
  let g : Nat → Nat × Nat := fun i =>
    ((i + 1) % fieldPrime data.length,
      eval (fieldPrime data.length) (sharePoly (fieldPrime data.length) (drawsOf c) t data)
        ((i + 1) % fieldPrime data.length))
  have hg : ∀ i, g i = ((i + 1) % fieldPrime data.length,
      eval (fieldPrime data.length) (sharePoly (fieldPrime data.length) (drawsOf c) t data)
        ((i + 1) % fieldPrime data.length)) := fun _ => rfl
  have hlt : ∀ q ∈ idx.map g, q.1 < fieldPrime data.length ∧ q.2 < fieldPrime data.length := by
    intro q hq
    obtain ⟨i, _, rfl⟩ := List.mem_map.mp hq
    exact ⟨Nat.mod_lt _ hp.pos, eval_lt _ _ _ hp.pos⟩
  have hfst : (idx.map g).map Prod.fst = idx.map fun i => (i + 1) % fieldPrime data.length := by
    rw [List.map_map]
    rfl
  have hsnd : (idx.map g).map Prod.snd
      = (idx.map fun i => (i + 1) % fieldPrime data.length).map
          (eval (fieldPrime data.length)
            (sharePoly (fieldPrime data.length) (drawsOf c) t data)) := by
    rw [List.map_map, List.map_map]
    rfl
  have hnd : ((idx.map g).map Prod.fst).Nodup := by rw [hfst]; exact hdist
  obtain ⟨f, hf, hcoef⟩ := interpolate_const_coeff (fieldPrime data.length) (idx.map g)
    (by simpa using hne) hlt hnd
  rw [hfst, hsnd] at hf
  refine ⟨f, ?_, ?_, ?_⟩
  · rw [interpolated_pick (drawsOf c) n t data idx hne hidx]
    exact hf
  · rw [hcoef]
    exact Nat.mod_lt _ hp.pos
  · rw [hcoef, lagrangeAtZero_cast (fieldPrime data.length) (idx.map g) hlt hnd, List.length_map]
    apply Finset.sum_congr rfl
    intro a ha
    have ha2 : a < idx.length := Finset.mem_range.mp ha
    rw [map_getD_pair idx g a ha2, hg]
    simp only
    rw [shareValue_cast, ZMod.natCast_mod]
    congr 1
    apply Finset.prod_congr rfl
    intro j hj
    have hj2 : j < idx.length := Finset.mem_range.mp (Finset.mem_of_mem_erase hj)
    rw [map_getD_pair idx g j hj2, hg]
    simp only
    rw [ZMod.natCast_mod]

/-- For `1 <= k < t` shares whose evaluation points are pairwise distinct and
non-zero modulo `p`, every residue `v` is the constant coefficient of the
interpolated polynomial for exactly `p^(t-2)` of the `p^(t-1)` coefficient
vectors `(c_1..c_{t-1})`. -/
theorem card_const_coeff (n t : Nat) (data idx : List Nat) (v : Nat)
    (hne : idx ≠ []) (hk : idx.length < t)
    (hidx : ∀ i ∈ idx, i < n ∧ i + 1 < 2 ^ 32)
    (hdist : (idx.map fun i => (i + 1) % fieldPrime data.length).Nodup)
    (hnz : ∀ i ∈ idx, (i + 1) % fieldPrime data.length ≠ 0)
    (hv : v < fieldPrime data.length) :
    (Finset.univ.filter
        (fun c : Fin (t - 1) → Fin (fieldPrime data.length) =>
          (interpolated (pick (writeShares (drawsOf c) n t data) idx)).map
            (fun f => f.getD 0 0) = some v)).card
      = fieldPrime data.length ^ (t - 2) := by
  haveI : Fact (fieldPrime data.length).Prime := ⟨fieldPrime_prime _⟩
  have hp := fieldPrime_prime data.length
  have hkpos : 0 < idx.length := List.length_pos.mpr hne
  -- the evaluation points as field elements
  have hmem : ∀ a, a < idx.length → idx.getD a 0 ∈ idx := by
    intro a ha
    rw [List.getD_eq_getElem _ _ ha]
    exact List.getElem_mem ha
  have hXinj : ∀ a b, a < idx.length → b < idx.length →
      ((idx.getD a 0 + 1 : Nat) : ZMod (fieldPrime data.length))
        = ((idx.getD b 0 + 1 : Nat) : ZMod (fieldPrime data.length)) → a = b := by
    intro a b ha hb h
    have h1 : (idx.getD a 0 + 1) % fieldPrime data.length
        = (idx.getD b 0 + 1) % fieldPrime data.length :=
      (ZMod.natCast_eq_natCast_iff' _ _ _).mp h
    have ha2 : a < (idx.map fun i => (i + 1) % fieldPrime data.length).length := by
      simpa using ha
    have hb2 : b < (idx.map fun i => (i + 1) % fieldPrime data.length).length := by
      simpa using hb
    have h2 : (idx.map fun i => (i + 1) % fieldPrime data.length)[a]
        = (idx.map fun i => (i + 1) % fieldPrime data.length)[b] := by
      rw [List.getElem_map, List.getElem_map]
      rw [List.getD_eq_getElem _ _ ha, List.getD_eq_getElem _ _ hb] at h1
      exact h1
    exact (List.Nodup.getElem_inj_iff hdist).mp h2
  have hX0 : ∀ a, a < idx.length →
      ((idx.getD a 0 + 1 : Nat) : ZMod (fieldPrime data.length)) ≠ 0 := by
    intro a ha h
    have := (ZMod.natCast_zmod_eq_zero_iff_dvd _ _).mp h
    exact hnz _ (hmem a ha) (Nat.mod_eq_zero_of_dvd this)
  -- the Lagrange weights at 0
  have hlam : ∀ a, a < idx.length →
      (∏ j ∈ (Finset.range idx.length).erase a,
        ((((idx.getD a 0 + 1 : Nat) : ZMod (fieldPrime data.length))
            - ((idx.getD j 0 + 1 : Nat) : ZMod (fieldPrime data.length)))⁻¹
          * (0 - ((idx.getD j 0 + 1 : Nat) : ZMod (fieldPrime data.length))))) ≠ 0 := by
    intro a ha
    apply Finset.prod_ne_zero_iff.mpr
    intro j hj
    have hj2 : j < idx.length := Finset.mem_range.mp (Finset.mem_of_mem_erase hj)
    have hja : j ≠ a := Finset.ne_of_mem_erase hj
    apply mul_ne_zero
    · apply inv_ne_zero
      intro h0
      exact hja (hXinj a j ha hj2 (sub_eq_zero.mp h0)).symm
    · rw [zero_sub]
      exact neg_ne_zero.mpr (hX0 j hj2)
  have hcount := card_fiber_combination (F := ZMod (fieldPrime data.length)) (t - 1) idx.length
    (by omega)
    (fun a => ((idx.getD a.val 0 + 1 : Nat) : ZMod (fieldPrime data.length)))
    (fun a b h => Fin.ext (hXinj a.val b.val a.isLt b.isLt h))
    (fun a => hX0 a.val a.isLt)
    (fun a => ∏ j ∈ (Finset.range idx.length).erase a.val,
        ((((idx.getD a.val 0 + 1 : Nat) : ZMod (fieldPrime data.length))
            - ((idx.getD j 0 + 1 : Nat) : ZMod (fieldPrime data.length)))⁻¹
          * (0 - ((idx.getD j 0 + 1 : Nat) : ZMod (fieldPrime data.length)))))
    ⟨0, hkpos⟩ (hlam 0 hkpos)
    (∑ a : Fin idx.length, (ZZFromBytes data : ZMod (fieldPrime data.length))
      * ∏ j ∈ (Finset.range idx.length).erase a.val,
        ((((idx.getD a.val 0 + 1 : Nat) : ZMod (fieldPrime data.length))
            - ((idx.getD j 0 + 1 : Nat) : ZMod (fieldPrime data.length)))⁻¹
          * (0 - ((idx.getD j 0 + 1 : Nat) : ZMod (fieldPrime data.length)))))
    (v : ZMod (fieldPrime data.length))
  rw [ZMod.card] at hcount
  have ht2 : t - 1 - 1 = t - 2 := Nat.sub_sub t 1 1
  rw [ht2] at hcount
  rw [← hcount]
  -- the condition on the program and the condition on the field elements agree
  have hequiv : ∀ c : Fin (t - 1) → Fin (fieldPrime data.length),
      ((interpolated (pick (writeShares (drawsOf c) n t data) idx)).map
          (fun f => f.getD 0 0) = some v)
        ↔ ((∑ a : Fin idx.length, (ZZFromBytes data : ZMod (fieldPrime data.length))
              * ∏ j ∈ (Finset.range idx.length).erase a.val,
                ((((idx.getD a.val 0 + 1 : Nat) : ZMod (fieldPrime data.length))
                    - ((idx.getD j 0 + 1 : Nat) : ZMod (fieldPrime data.length)))⁻¹
                  * (0 - ((idx.getD j 0 + 1 : Nat) : ZMod (fieldPrime data.length)))))
            + ∑ a : Fin idx.length,
                (∏ j ∈ (Finset.range idx.length).erase a.val,
                  ((((idx.getD a.val 0 + 1 : Nat) : ZMod (fieldPrime data.length))
                      - ((idx.getD j 0 + 1 : Nat) : ZMod (fieldPrime data.length)))⁻¹
                    * (0 - ((idx.getD j 0 + 1 : Nat) : ZMod (fieldPrime data.length)))))
                * ∑ i : Fin (t - 1), ((c i).val : ZMod (fieldPrime data.length))
                    * ((idx.getD a.val 0 + 1 : Nat) : ZMod (fieldPrime data.length))
                        ^ (i.val + 1)
            = (v : ZMod (fieldPrime data.length))) := by
    intro c
    obtain ⟨f, hf, hflt, hcast⟩ :=
      interpolated_const_combination n t data idx c hne hidx hdist
    rw [hf, Option.map_some', Option.some.injEq]
    have hsum : ((f.getD 0 0 : Nat) : ZMod (fieldPrime data.length))
        = (∑ a : Fin idx.length, (ZZFromBytes data : ZMod (fieldPrime data.length))
              * ∏ j ∈ (Finset.range idx.length).erase a.val,
                ((((idx.getD a.val 0 + 1 : Nat) : ZMod (fieldPrime data.length))
                    - ((idx.getD j 0 + 1 : Nat) : ZMod (fieldPrime data.length)))⁻¹
                  * (0 - ((idx.getD j 0 + 1 : Nat) : ZMod (fieldPrime data.length)))))
            + ∑ a : Fin idx.length,
                (∏ j ∈ (Finset.range idx.length).erase a.val,
                  ((((idx.getD a.val 0 + 1 : Nat) : ZMod (fieldPrime data.length))
                      - ((idx.getD j 0 + 1 : Nat) : ZMod (fieldPrime data.length)))⁻¹
                    * (0 - ((idx.getD j 0 + 1 : Nat) : ZMod (fieldPrime data.length)))))
                * ∑ i : Fin (t - 1), ((c i).val : ZMod (fieldPrime data.length))
                    * ((idx.getD a.val 0 + 1 : Nat) : ZMod (fieldPrime data.length))
                        ^ (i.val + 1) := by
      rw [hcast, Finset.sum_range, ← Finset.sum_add_distrib]
      apply Finset.sum_congr rfl
      intro a _
      ring
    rw [← hsum]
    constructor
    · intro h
      rw [h]
    · intro h
      exact natCast_inj_of_lt _ _ _ hflt hv h
  apply Finset.card_nbij' (fun c i => ((c i).val : ZMod (fieldPrime data.length)))
    (fun d i => ⟨(d i).val, ZMod.val_lt _⟩)
  · intro c hc
    simp only [Finset.mem_filter, Finset.mem_univ, true_and] at hc ⊢
    exact (hequiv c).mp hc
  · intro d hd
    simp only [Finset.mem_filter, Finset.mem_univ, true_and] at hd ⊢
    apply (hequiv _).mpr
    simp only [ZMod.natCast_val, ZMod.cast_id', id_eq]
    exact hd
  · intro c _
    funext i
    apply Fin.ext
    simp [ZMod.val_natCast_of_lt (c i).isLt]
  · intro d _
    funext i
    simp

/-- The run of `main` on at least two share files from which the reconstruction
branch produces the output `out`. -/
theorem main_of_reconstruct_out (rnd rnd2 : Nat → Nat) (n t n2 t2 : Nat)
    (data stdin idx out : List Nat) (h2 : 2 ≤ idx.length) (hidx : ∀ i ∈ idx, i < n)
    (ht : ¬ n2 < t2)
    (hrec : reconstruct (pick (writeShares rnd n t data) idx) = some out) :
    main rnd2 n2 t2 stdin (pick (writeShares rnd n t data) idx)
      = Run.mk [Event.modulus (fieldPrime data.length), Event.output out] (some 0) := by
  have hne : idx ≠ [] := by
    intro h
    rw [h] at h2
    simp at h2
  have hlen := pick_writeShares_length rnd n t data idx hidx
  have hhead := pick_writeShares_head rnd n t data idx hne hidx
  rw [main_reconstruct rnd2 n2 t2 stdin _ ht (by omega) (by omega), hrec, hhead]
  have e : 4 + (data.length + 1) - 4 - 1 = data.length := by omega
  simp only [e]

/-- The run of `main` on at least two share files for which the reconstruction
branch produces no output. -/
theorem main_of_reconstruct_none (rnd rnd2 : Nat → Nat) (n t n2 t2 : Nat)
    (data stdin idx : List Nat) (h2 : 2 ≤ idx.length) (hidx : ∀ i ∈ idx, i < n)
    (ht : ¬ n2 < t2)
    (hrec : reconstruct (pick (writeShares rnd n t data) idx) = none) :
    main rnd2 n2 t2 stdin (pick (writeShares rnd n t data) idx)
      = Run.mk [Event.modulus (fieldPrime data.length), Event.stopped] none := by
  have hne : idx ≠ [] := by
    intro h
    rw [h] at h2
    simp at h2
  have hlen := pick_writeShares_length rnd n t data idx hidx
  have hhead := pick_writeShares_head rnd n t data idx hne hidx
  rw [main_reconstruct rnd2 n2 t2 stdin _ ht (by omega) (by omega), hrec, hhead]
  have e : 4 + (data.length + 1) - 4 - 1 = data.length := by omega
  simp only [e]

/-- Fewer shares than coefficients: with pairwise distinct points and a share
value that is not zero the reconstruction branch writes `L` bytes. -/
theorem reconstruct_returns (rnd : Nat → Nat) (n t : Nat) (data idx : List Nat)
    (hne : idx ≠ []) (hidx : ∀ i ∈ idx, i < n ∧ i + 1 < 2 ^ 32)
    (hdist : (idx.map fun i => (i + 1) % fieldPrime data.length).Nodup)
    (hval : ∃ i ∈ idx, (distribute rnd n t data).getD i 0 ≠ 0) :
    ∃ out, reconstruct (pick (writeShares rnd n t data) idx) = some out ∧
      out.length = data.length := by
  haveI : Fact (fieldPrime data.length).Prime := ⟨fieldPrime_prime _⟩
  have hp := fieldPrime_prime data.length
  rw [reconstruct_pick_interp rnd n t data idx hne hidx]
  obtain ⟨r, hr, _, _, hev⟩ := interpolate_spec (fieldPrime data.length)
    (idx.map fun i => (i + 1) % fieldPrime data.length)
    (eval (fieldPrime data.length) (sharePoly (fieldPrime data.length) rnd t data))
    (by
      intro x hx
      obtain ⟨i, _, rfl⟩ := List.mem_map.mp hx
      exact Nat.mod_lt _ hp.pos)
    (fun x _ => eval_lt _ _ _ hp.pos) hdist
  rw [hr]
  obtain ⟨i, hi, hv⟩ := hval
  rw [distribute_getD rnd n t data i (hidx i hi).1] at hv
  have hnz : normalize r ≠ [] := by
    intro hnil
    have h1 := hev ((i + 1) % fieldPrime data.length) (List.mem_map.mpr ⟨i, hi, rfl⟩)
    rw [← evalZ_normalize, hnil, evalZ_nil] at h1
    have h2 := natCast_inj_of_lt (fieldPrime data.length) 0 _ hp.pos
      (eval_lt _ _ _ hp.pos) (by rw [Nat.cast_zero]; exact h1)
    exact hv h2.symm
  cases hnr : normalize r with
  | nil => exact absurd hnr hnz
  | cons f0 fs =>
    refine ⟨_, rfl, ?_⟩
    rw [List.length_take, BytesFromZZ_length]
    omega

/-- When the reconstruction branch returns the secret from shares of a
distribution, the constant coefficient it interpolated is `S` or `S + 256^L`. -/
theorem reconstruct_secret_const (n t : Nat) (data idx : List Nat)
    (c : Fin (t - 1) → Fin (fieldPrime data.length)) (hd : IsBytes data) (hne : idx ≠ [])
    (hidx : ∀ i ∈ idx, i < n ∧ i + 1 < 2 ^ 32)
    (hdist : (idx.map fun i => (i + 1) % fieldPrime data.length).Nodup)
    (hrec : reconstruct (pick (writeShares (drawsOf c) n t data) idx) = some data) :
    (interpolated (pick (writeShares (drawsOf c) n t data) idx)).map (fun f => f.getD 0 0)
        = some (ZZFromBytes data) ∨
    (interpolated (pick (writeShares (drawsOf c) n t data) idx)).map (fun f => f.getD 0 0)
        = some (ZZFromBytes data + 256 ^ data.length) := by
  obtain ⟨f, hf, hflt, _⟩ := interpolated_const_combination n t data idx c hne hidx hdist
  have hhead := pick_writeShares_head (drawsOf c) n t data idx hne (fun i hi => (hidx i hi).1)
  rw [reconstruct_eq data.length _ hhead, hf] at hrec
  rw [hf, Option.map_some', Option.some.injEq, Option.some.injEq]
  cases f with
  | nil => simp at hrec
  | cons f0 fs =>
    simp only [Option.some.injEq] at hrec
    simp only [List.getD_cons_zero] at hflt ⊢
    rw [BytesFromZZ_take, BytesFromZZ_eq_iff f0 data.length data hd rfl] at hrec
    have hS := ZZFromBytes_lt data hd
    have hp2 := fieldPrime_le data.length
    rw [pow_succ, ← pow_256] at hp2
    have hT : 0 < 256 ^ data.length := by positivity
    have d1 := Nat.div_add_mod f0 (256 ^ data.length)
    have q1 : f0 / 256 ^ data.length < 2 :=
      Nat.div_lt_of_lt_mul (by rw [mul_comm] at hp2; omega)
    rw [hrec] at d1
    generalize 256 ^ data.length = T at *
    generalize f0 / T = q at *
    interval_cases q <;> simp only [mul_zero, mul_one] at d1 <;> omega

/-- When the interpolated constant coefficient is the non-zero secret integer, the
reconstruction branch returns the secret. -/
theorem reconstruct_of_const (files : List (List Nat)) (data : List Nat) (hd : IsBytes data)
    (hhead : (files.headD []).length = 4 + (data.length + 1))
    (hS : ZZFromBytes data ≠ 0)
    (h : (interpolated files).map (fun f => f.getD 0 0) = some (ZZFromBytes data)) :
    reconstruct files = some data := by
  rw [reconstruct_eq data.length files hhead]
  cases hi : interpolated files with
  | none => rw [hi] at h; simp at h
  | some f =>
    rw [hi, Option.map_some', Option.some.injEq] at h
    cases f with
    | nil => simp at h; exact absurd h.symm hS
    | cons f0 fs =>
      simp only [List.getD_cons_zero] at h
      simp only [h, secret_value_bytes data hd]
      simp

/-- The number of coefficient vectors for which `k < t` shares reconstruct to
the secret is at most `2 * p^(t-2)`, of `p^(t-1)` vectors in all; for a secret
with a non-zero byte it is at least `p^(t-2)`. -/
theorem card_reconstruct_secret (n t : Nat) (data idx : List Nat) (hd : IsBytes data)
    (hne : idx ≠ []) (hk : idx.length < t)
    (hidx : ∀ i ∈ idx, i < n ∧ i + 1 < 2 ^ 32)
    (hdist : (idx.map fun i => (i + 1) % fieldPrime data.length).Nodup)
    (hnz : ∀ i ∈ idx, (i + 1) % fieldPrime data.length ≠ 0) :
    (Finset.univ.filter
        (fun c : Fin (t - 1) → Fin (fieldPrime data.length) =>
          reconstruct (pick (writeShares (drawsOf c) n t data) idx) = some data)).card
      ≤ 2 * fieldPrime data.length ^ (t - 2) ∧
    ((∃ b ∈ data, b ≠ 0) →
      fieldPrime data.length ^ (t - 2) ≤
        (Finset.univ.filter
          (fun c : Fin (t - 1) → Fin (fieldPrime data.length) =>
            reconstruct (pick (writeShares (drawsOf c) n t data) idx) = some data)).card) := by
  have hS := secret_lt_fieldPrime data hd
  have h1 := card_const_coeff n t data idx (ZZFromBytes data) hne hk hidx hdist hnz hS
  constructor
  · have h2 : (Finset.univ.filter
          (fun c : Fin (t - 1) → Fin (fieldPrime data.length) =>
            (interpolated (pick (writeShares (drawsOf c) n t data) idx)).map
              (fun f => f.getD 0 0) = some (ZZFromBytes data + 256 ^ data.length))).card
        ≤ fieldPrime data.length ^ (t - 2) := by
      rcases Nat.lt_or_ge (ZZFromBytes data + 256 ^ data.length) (fieldPrime data.length)
        with hlt | hge
      · exact (card_const_coeff n t data idx _ hne hk hidx hdist hnz hlt).le
      · have hempty : (Finset.univ.filter
            (fun c : Fin (t - 1) → Fin (fieldPrime data.length) =>
              (interpolated (pick (writeShares (drawsOf c) n t data) idx)).map
                (fun f => f.getD 0 0) = some (ZZFromBytes data + 256 ^ data.length))) = ∅ := by
          apply Finset.filter_eq_empty_iff.mpr
          intro c _ hc
          obtain ⟨f, hf, hflt, _⟩ := interpolated_const_combination n t data idx c hne hidx hdist
          rw [hf, Option.map_some', Option.some.injEq] at hc
          omega
        rw [hempty]
        simp
    calc (Finset.univ.filter
          (fun c : Fin (t - 1) → Fin (fieldPrime data.length) =>
            reconstruct (pick (writeShares (drawsOf c) n t data) idx) = some data)).card
        ≤ ((Finset.univ.filter
            (fun c : Fin (t - 1) → Fin (fieldPrime data.length) =>
              (interpolated (pick (writeShares (drawsOf c) n t data) idx)).map
                (fun f => f.getD 0 0) = some (ZZFromBytes data))) ∪
          (Finset.univ.filter
            (fun c : Fin (t - 1) → Fin (fieldPrime data.length) =>
              (interpolated (pick (writeShares (drawsOf c) n t data) idx)).map
                (fun f => f.getD 0 0) = some (ZZFromBytes data + 256 ^ data.length)))).card := by
          apply Finset.card_le_card
          intro c hc
          simp only [Finset.mem_filter, Finset.mem_univ, true_and, Finset.mem_union] at hc ⊢
          exact reconstruct_secret_const n t data idx c hd hne hidx hdist hc
      _ ≤ _ := Finset.card_union_le _ _
      _ ≤ 2 * fieldPrime data.length ^ (t - 2) := by
          rw [h1]
          omega
  · rintro ⟨b, hb, hb0⟩
    rw [← h1]
    apply Finset.card_le_card
    intro c hc
    simp only [Finset.mem_filter, Finset.mem_univ, true_and] at hc ⊢
    apply reconstruct_of_const _ data hd
      (pick_writeShares_head (drawsOf c) n t data idx hne (fun i hi => (hidx i hi).1)) _ hc
    intro h0
    exact hb0 ((ZZFromBytes_eq_zero_iff data).mp h0 b hb)

/-- A single file on the command line is taken as a secret to distribute: the
run selects the modulus for its length and writes the share files; nothing is
written to standard output. -/
theorem main_single_file (rnd : Nat → Nat) (n t : Nat) (stdin file : List Nat) (h : ¬ n < t) :
    main rnd n t stdin [file]
      = Run.mk
          (Event.modulus (fieldPrime file.length) ::
            (List.range n).map fun i =>
              Event.written (i + 1) ((writeShares rnd n t file).getD i []))
          (some 0) ∧
    ∀ out, Event.output out ∉ (main rnd n t stdin [file]).events := by
  have hm := main_distribute rnd n t stdin [file] h (by simp)
  rw [List.headD_cons] at hm
  refine ⟨hm, ?_⟩
  intro out
  rw [hm]
  simp

/-- The points that the reconstruction branch hands to `interpolate` for a
choice of share files of one distribution: the stored 32-bit indices and the
share values, reduced modulo the modulus of the distribution. -/
theorem interpolated_pick_stored (rnd : Nat → Nat) (n t : Nat) (data : List Nat) (idx : List Nat)
    (hne : idx ≠ []) (hidx : ∀ i ∈ idx, i < n) :
    interpolated (pick (writeShares rnd n t data) idx)
      = interpolate (fieldPrime data.length)
          (idx.map fun i => toZZ_p (fieldPrime data.length) (toUInt32 (i + 1)))
          (idx.map fun i => toZZ_p (fieldPrime data.length)
            ((distribute rnd n t data).getD i 0)) := by
  have hp := fieldPrime_prime data.length
  have hpick : pick (writeShares rnd n t data) idx
      = (idx.map fun i => (toUInt32 (i + 1), (distribute rnd n t data).getD i 0)).map
          fun q : Nat × Nat => shareFile data.length q.1 q.2 := by
    rw [pick_writeShares rnd n t data idx hidx, List.map_map]
    apply List.map_congr_left
    intro i hi
    simp only [Function.comp]
    rw [distribute_getD rnd n t data i (hidx i hi)]
  rw [hpick, interpolated_shareFiles data.length _ (by simpa using hne)
    (by
      intro q hq
      obtain ⟨i, _, rfl⟩ := List.mem_map.mp hq
      exact Nat.mod_lt _ (by norm_num))
    (by
      intro q hq
      obtain ⟨i, hi, rfl⟩ := List.mem_map.mp hq
      simp only
      rw [distribute_getD rnd n t data i (hidx i hi)]
      exact (eval_lt _ _ _ hp.pos).trans (fieldPrime_lt_pow data.length))]
  simp only [List.map_map, Function.comp_def, toZZ_p]

/-- In a run of `main` on at least two share files of one distribution, whose
reconstruction branch is entered, the modulus selected is the modulus of the
distribution. -/
theorem main_modulus_pick (rnd rnd2 : Nat → Nat) (n t n2 t2 : Nat) (data stdin idx : List Nat)
    (h2 : 2 ≤ idx.length) (hidx : ∀ i ∈ idx, i < n) (ht : ¬ n2 < t2) :
    (main rnd2 n2 t2 stdin (pick (writeShares rnd n t data) idx)).events.head?
      = some (Event.modulus (fieldPrime data.length)) := by
  cases hrec : reconstruct (pick (writeShares rnd n t data) idx) with
  | none => rw [main_of_reconstruct_none rnd rnd2 n t n2 t2 data stdin idx h2 hidx ht hrec]; rfl
  | some out =>
    rw [main_of_reconstruct_out rnd rnd2 n t n2 t2 data stdin idx out h2 hidx ht hrec]; rfl

/-! ## Claims -/

/-- C1, amended (round trip): for every secret byte string, every `n` and `t`
with `1 <= t <= n`, every outcome `rnd` of the random draws and every choice
`idx` of exactly `t` of the `n` share files whose indices are below `2^32` and
pairwise distinct modulo `p`, the reconstruction branch returns exactly the
secret bytes, provided some secret byte or some drawn coefficient `1 .. t-1` is
non-zero in `GF(p)`. -/
theorem round_trip_exact_threshold (rnd : Nat → Nat) (n t : Nat) (data idx : List Nat)
    (hd : IsBytes data) (h1 : 1 ≤ t) (_htn : t ≤ n) (hlen : idx.length = t)
    (hidx : ∀ i ∈ idx, i < n ∧ i + 1 < 2 ^ 32)
    (hdist : (idx.map fun i => (i + 1) % fieldPrime data.length).Nodup)
    (hnz : (∃ b ∈ data, b ≠ 0) ∨ ∃ i, 1 ≤ i ∧ i < t ∧ rnd i % fieldPrime data.length ≠ 0) :
    reconstruct (pick (writeShares rnd n t data) idx) = some data := by
  have hne : idx ≠ [] := by
    intro h
    rw [h] at hlen
    simp at hlen
    omega
  exact reconstruct_of_enough rnd n t data idx hd hne hlen.ge hidx hdist hnz

/-- C1 witness: the secret "HI" with `n = 3`, `t = 2` is recovered from each of the
share pairs {1,2}, {1,3}, {2,3}. -/
theorem round_trip_exact_threshold_witness :
    reconstruct (pick (writeShares (fun _ => 12345) 3 2 [72, 73]) [0, 1]) = some [72, 73] ∧
    reconstruct (pick (writeShares (fun _ => 12345) 3 2 [72, 73]) [0, 2]) = some [72, 73] ∧
    reconstruct (pick (writeShares (fun _ => 12345) 3 2 [72, 73]) [1, 2]) = some [72, 73] :=
  ⟨round_trip_exact_threshold (fun _ => 12345) 3 2 [72, 73] [0, 1] (by decide) (by decide)
      (by decide) rfl (by decide)
      (by simp [fieldPrime_two])
      (Or.inl ⟨72, by simp, by decide⟩),
   round_trip_exact_threshold (fun _ => 12345) 3 2 [72, 73] [0, 2] (by decide) (by decide)
      (by decide) rfl (by decide)
      (by simp [fieldPrime_two])
      (Or.inl ⟨72, by simp, by decide⟩),
   round_trip_exact_threshold (fun _ => 12345) 3 2 [72, 73] [1, 2] (by decide) (by decide)
      (by decide) rfl (by decide)
      (by simp [fieldPrime_two])
      (Or.inl ⟨72, by simp, by decide⟩)⟩

/-- C1 counterexample: three distributions with `1 <= t <= n` and two of their
shares from which the reconstruction branch produces no output.  The empty
secret with shares 1 and 3 (equal modulo `p = 2`); the secret `[0]` with all
drawn coefficients zero, shares 1 and 2; the secret `[7]` with
`n = 2^32 + 1`, shares 1 and `2^32 + 1` (both stored with index 1). -/
theorem round_trip_counterexample :
    reconstruct (pick (writeShares (fun _ => 1) 3 2 []) [0, 2]) = none ∧
    reconstruct (pick (writeShares (fun _ => 0) 2 2 [0]) [0, 1]) = none ∧
    reconstruct (pick (writeShares (fun _ => 1) (2 ^ 32 + 1) 2 [7]) [0, 2 ^ 32]) = none := by
  refine ⟨by decide, ?_, ?_⟩
  · exact reconstruct_of_zero (fun _ => 0) 2 2 [0] [0, 1] (by decide) (by simp) (by simp)
      (by decide) (by simp [fieldPrime_one])
      ⟨by simp, fun i _ _ => by simp⟩
  · haveI : Fact (fieldPrime 1).Prime := ⟨fieldPrime_prime 1⟩
    rw [pick_writeShares _ _ _ _ _ (by
      intro i hi
      simp only [List.mem_cons, List.mem_singleton, List.not_mem_nil, or_false] at hi
      rcases hi with rfl | rfl <;> norm_num)]
    simp only [List.map_cons, List.map_nil, List.length_cons, List.length_nil, toUInt32]
    norm_num
    have h := reconstruct_shareFiles 1
      [(1, eval (fieldPrime 1) (sharePoly (fieldPrime 1) (fun _ => 1) 2 [7]) (1 % fieldPrime 1)),
       (1, eval (fieldPrime 1) (sharePoly (fieldPrime 1) (fun _ => 1) 2 [7])
          (4294967297 % fieldPrime 1))]
      (by simp) (by simp) (by
        intro q hq
        simp only [List.mem_cons, List.mem_singleton, List.not_mem_nil, or_false] at hq
        rcases hq with rfl | rfl <;> exact eval_lt _ _ _ (fieldPrime_prime 1).pos)
    simp only [List.map_cons, List.map_nil] at h
    rw [h, interpolate_dup (fieldPrime 1) [1 % fieldPrime 1, 1 % fieldPrime 1]
      [eval (fieldPrime 1) (sharePoly (fieldPrime 1) (fun _ => 1) 2 [7]) (1 % fieldPrime 1),
       eval (fieldPrime 1) (sharePoly (fieldPrime 1) (fun _ => 1) 2 [7])
          (4294967297 % fieldPrime 1)] rfl (by
      intro x hx
      simp only [List.mem_cons, List.mem_singleton, List.not_mem_nil, or_false] at hx
      rcases hx with rfl | rfl <;> exact Nat.mod_lt _ (fieldPrime_prime 1).pos) (by simp)]

/-- C2 (secrecy below the threshold): for every secret, every `t >= 2` and every
`k <= t - 1` shares whose indices are pairwise distinct and non-zero modulo
`p`, every `k`-tuple `v` of field elements is the tuple of those share values
for exactly `p^(t-1-k)` of the `p^(t-1)` coefficient vectors `(c_1..c_{t-1})`;
the count does not depend on the secret, so with uniform coefficients the
joint distribution of fewer than `t` shares is the same for all secrets of one
length. -/
theorem secrecy_below_threshold (n t k : Nat) (data : List Nat) (idx : Fin k → Nat)
    (v : Fin k → Fin (fieldPrime data.length))
    (_ht : 2 ≤ t) (hk : k ≤ t - 1) (hidx : ∀ a, idx a < n)
    (hdist : Function.Injective fun a => (idx a + 1) % fieldPrime data.length)
    (hnz : ∀ a, (idx a + 1) % fieldPrime data.length ≠ 0) :
    (Finset.univ.filter
        (fun c : Fin (t - 1) → Fin (fieldPrime data.length) =>
          ∀ a, (distribute (drawsOf c) n t data).getD (idx a) 0 = (v a).val)).card
      = fieldPrime data.length ^ (t - 1 - k) := by
  haveI : Fact (fieldPrime data.length).Prime := ⟨fieldPrime_prime _⟩
  have hp := fieldPrime_prime data.length
  have hcount := card_fiber_eval (F := ZMod (fieldPrime data.length)) (t - 1) k hk
    (fun a => ((idx a + 1 : Nat) : ZMod (fieldPrime data.length)))
    (by
      intro a b h
      exact hdist ((ZMod.natCast_eq_natCast_iff' _ _ _).mp h))
    (by
      intro a h
      have := (ZMod.natCast_zmod_eq_zero_iff_dvd _ _).mp h
      exact hnz a (Nat.mod_eq_zero_of_dvd this))
    (fun a => ((v a).val : ZMod (fieldPrime data.length))
      - (ZZFromBytes data : ZMod (fieldPrime data.length)))
  rw [ZMod.card] at hcount
  rw [← hcount]
  apply Finset.card_nbij' (fun c i => ((c i).val : ZMod (fieldPrime data.length)))
    (fun d i => ⟨(d i).val, ZMod.val_lt _⟩)
  · intro c hc
    simp only [Finset.mem_filter, Finset.mem_univ, true_and] at hc ⊢
    intro a
    have h1 := hc a
    rw [distribute_getD _ n t data (idx a) (hidx a)] at h1
    have h2 := shareValue_cast (fieldPrime data.length) t data c
      ((idx a + 1) % fieldPrime data.length)
    rw [h1, ZMod.natCast_mod] at h2
    rw [h2]
    ring
  · intro d hd
    simp only [Finset.mem_filter, Finset.mem_univ, true_and] at hd ⊢
    intro a
    rw [distribute_getD _ n t data (idx a) (hidx a)]
    apply natCast_inj_of_lt (fieldPrime data.length) _ _ (eval_lt _ _ _ hp.pos) (v a).isLt
    rw [shareValue_cast, ZMod.natCast_mod]
    have h1 := hd a
    simp only [ZMod.natCast_val, ZMod.cast_id', id_eq] at h1 ⊢
    rw [h1]
    ring
  · intro c _
    funext i
    apply Fin.ext
    simp [ZMod.val_natCast_of_lt (c i).isLt]
  · intro d _
    funext i
    simp

/-- C2 witness: the secret "HI" with `t = 2` and the single share 1 (`k = 1`):
each value is taken for exactly `p^0 = 1` coefficient. -/
theorem secrecy_below_threshold_witness :
    (Finset.univ.filter
        (fun c : Fin (2 - 1) → Fin (fieldPrime [72, 73].length) =>
          ∀ a : Fin 1, (distribute (drawsOf c) 3 2 [72, 73]).getD ((fun _ => 0) a) 0
            = ((fun _ => ⟨5, by
                rw [show fieldPrime [72, 73].length = 65537 from fieldPrime_two]
                decide⟩ : Fin 1 → Fin (fieldPrime [72, 73].length)) a).val)).card
      = fieldPrime [72, 73].length ^ (2 - 1 - 1) :=
  secrecy_below_threshold 3 2 1 [72, 73] (fun _ => 0) _ (by decide) (by decide)
    (fun _ => by show 0 < 3; decide) (fun a b _ => Subsingleton.elim a b)
    (fun _ => by
      show (0 + 1) % fieldPrime [72, 73].length ≠ 0
      rw [show fieldPrime [72, 73].length = 65537 from fieldPrime_two]
      decide)

/-- C3 (modulus correctness): for every byte length `L` the modulus
`NextPrime(2^(8L))` that `distribute` selects is prime, is strictly greater than
`2^(8L)`, and no prime lies strictly between `2^(8L)` and it; for `L = 0` it is
2; and it is the same for any two secrets of the same length. -/
theorem modulus_correct (L : Nat) :
    fieldPrime L = NextPrime (2 ^ (8 * L)) ∧
    Nat.Prime (fieldPrime L) ∧ 2 ^ (8 * L) < fieldPrime L ∧
    (∀ q, 2 ^ (8 * L) < q ∧ q < fieldPrime L → ¬ Nat.Prime q) ∧
    fieldPrime 0 = 2 ∧
    ∀ d1 d2 : List Nat, d1.length = L ∧ d2.length = L →
      fieldPrime d1.length = fieldPrime d2.length := by
  refine ⟨rfl, fieldPrime_prime L, fieldPrime_gt L, ?_, fieldPrime_zero, ?_⟩
  · rintro q ⟨h1, h2⟩ hq
    have := NextPrime_le_of_prime (2 ^ (8 * L)) q hq h1.le
    have h3 : q < NextPrime (2 ^ (8 * L)) := h2
    omega
  · rintro d1 d2 ⟨h1, h2⟩
    rw [h1, h2]

/-- C4 (value width suffices): with `p` the modulus for length `L`, every field
element `y < p` is below `256^(L+1)`, indeed `p <= 2^(8L+1)`, so writing `y` into
`L + 1` bytes loses nothing: reading the bytes back gives `y`. -/
theorem value_width_suffices (L y : Nat) (hy : y < fieldPrime L) :
    y < 256 ^ (L + 1) ∧ fieldPrime L ≤ 2 ^ (8 * L + 1) ∧
    ZZFromBytes (BytesFromZZ y (L + 1)) = y := by
  have h := hy.trans (fieldPrime_lt_pow L)
  exact ⟨h, fieldPrime_le L, by rw [ZZFromBytes_BytesFromZZ, Nat.mod_eq_of_lt h]⟩

/-- C4 witness: the largest element 256 of the field for one-byte secrets
(`p = 257`) fits in two bytes. -/
theorem value_width_suffices_witness :
    256 < 256 ^ (1 + 1) ∧ fieldPrime 1 ≤ 2 ^ (8 * 1 + 1) ∧
    ZZFromBytes (BytesFromZZ 256 (1 + 1)) = 256 :=
  value_width_suffices 1 256 (by rw [fieldPrime_one]; decide)

/-- C5 (share codec round trip): for every index `x < 2^32`, every `L` and every
field element `y < p`, the record written for `(x, y)` has exactly
`4 + (L + 1)` bytes; byte `i` of the first four is digit `i` of `x` and byte
`4 + i` is digit `i` of `y` in base 256 (least significant first, zero where
`y` has no such digit); and reading the record with the value width inferred
as its length minus 4 gives back `x`, `y` and the width `L + 1`. -/
theorem share_codec_round_trip (x L y : Nat) (xb sb : List Nat)
    (hx : x < 2 ^ 32) (hy : y < fieldPrime L)
    (hxb : xb.length = 4) (hsb : sb.length = (shareFile L x y).length - 4) :
    (shareFile L x y).length = 4 + (L + 1) ∧
    (∀ i, i < 4 → (shareFile L x y).getD i 0 = x / 256 ^ i % 256) ∧
    (∀ i, i < L + 1 → (shareFile L x y).getD (4 + i) 0 = y / 256 ^ i % 256) ∧
    (∀ k, k ≤ L + 1 → y < 256 ^ k →
      (shareFile L x y).drop (4 + k) = List.replicate (L + 1 - k) 0) ∧
    ZZFromBytes (readShare ((shareFile L x y).length - 4) xb sb (shareFile L x y)).1 = x ∧
    ZZFromBytes (readShare ((shareFile L x y).length - 4) xb sb (shareFile L x y)).2 = y ∧
    (readShare ((shareFile L x y).length - 4) xb sb (shareFile L x y)).2.length = L + 1 := by
  have hlen := shareFile_length L x y
  have e4 : 4 + (L + 1) - 4 = L + 1 := by omega
  rw [hlen, e4] at hsb ⊢
  have hread : readShare (L + 1) xb sb (shareFile L x y)
      = (BytesFromZZ x 4, BytesFromZZ y (L + 1)) :=
    readShare_shareFile (L + 1) x y xb sb hxb.le hsb.le
  rw [hread]
  refine ⟨rfl, ?_, ?_, ?_, ?_, ?_, BytesFromZZ_length _ _⟩
  · intro i hi
    unfold shareFile
    rw [List.getD_append _ _ _ _ (by rw [BytesFromZZ_length]; exact hi),
      BytesFromZZ_getD x 4 i hi]
  · intro i hi
    unfold shareFile
    rw [List.getD_append_right _ _ _ _ (by rw [BytesFromZZ_length]; omega), BytesFromZZ_length,
      Nat.add_sub_cancel_left, BytesFromZZ_getD y (L + 1) i hi]
  · intro k hk hyk
    unfold shareFile
    obtain ⟨j, hj⟩ : ∃ j, L + 1 = k + j := ⟨L + 1 - k, by omega⟩
    rw [hj, BytesFromZZ_small y k j hyk, ← List.append_assoc, List.drop_left' (by
      simp [BytesFromZZ_length]), Nat.add_sub_cancel_left]
  · simp only
    rw [ZZFromBytes_BytesFromZZ, Nat.mod_eq_of_lt (by omega)]
  · simp only
    rw [ZZFromBytes_BytesFromZZ, Nat.mod_eq_of_lt (hy.trans (fieldPrime_lt_pow L))]

/-- C5 witness: the record for index 3 and value 256 with `L = 1`, read into
zeroed buffers. -/
theorem share_codec_round_trip_witness :
    (shareFile 1 3 256).length = 4 + (1 + 1) ∧
    (∀ i, i < 4 → (shareFile 1 3 256).getD i 0 = 3 / 256 ^ i % 256) ∧
    (∀ i, i < 1 + 1 → (shareFile 1 3 256).getD (4 + i) 0 = 256 / 256 ^ i % 256) ∧
    (∀ k, k ≤ 1 + 1 → 256 < 256 ^ k →
      (shareFile 1 3 256).drop (4 + k) = List.replicate (1 + 1 - k) 0) ∧
    ZZFromBytes (readShare ((shareFile 1 3 256).length - 4) [0, 0, 0, 0] [0, 0]
      (shareFile 1 3 256)).1 = 3 ∧
    ZZFromBytes (readShare ((shareFile 1 3 256).length - 4) [0, 0, 0, 0] [0, 0]
      (shareFile 1 3 256)).2 = 256 ∧
    (readShare ((shareFile 1 3 256).length - 4) [0, 0, 0, 0] [0, 0]
      (shareFile 1 3 256)).2.length = 1 + 1 :=
  share_codec_round_trip 3 1 256 [0, 0, 0, 0] [0, 0] (by decide)
    (by rw [fieldPrime_one]; decide) rfl (by decide)

/-- C6 (modulus re-derivation): every share file written by the distribution
branch for a secret of length `L` has `4 + L + 1` bytes; `distribute` computes
modulo `p = NextPrime(2^(8L))`, the modulus its run selects; and the
reconstruction branch, given any non-empty choice of these files, derives the
same `p` from the size of the first one: `NextPrime(2^(8*(size - 4 - 1)))` is
`p`, the stored indices and values are reduced modulo `p` and handed to
`interpolate` for `p`, and a run of `main` on two files or more selects the
modulus that the distributing run selected. -/
theorem modulus_rederived (rnd rnd2 : Nat → Nat) (n t n2 t2 : Nat)
    (data stdin idx : List Nat) (hne : idx ≠ []) (hidx : ∀ i ∈ idx, i < n) :
    (∀ r ∈ writeShares rnd n t data,
      r.length = 4 + data.length + 1 ∧
      fieldPrime (r.length - 4 - 1) = fieldPrime data.length ∧
      fieldPrime (r.length - 4 - 1) = NextPrime (2 ^ (8 * (r.length - 4 - 1)))) ∧
    distribute rnd n t data
      = (List.range n).map (fun i =>
          eval (fieldPrime data.length) (sharePoly (fieldPrime data.length) rnd t data)
            (toZZ_p (fieldPrime data.length) (i + 1))) ∧
    (¬ n < t →
      (main rnd n t data []).events.head? = some (Event.modulus (fieldPrime data.length))) ∧
    interpolated (pick (writeShares rnd n t data) idx)
      = interpolate (fieldPrime data.length)
          (idx.map fun i => toZZ_p (fieldPrime data.length) (toUInt32 (i + 1)))
          (idx.map fun i => toZZ_p (fieldPrime data.length)
            ((distribute rnd n t data).getD i 0)) ∧
    (2 ≤ idx.length → ¬ n2 < t2 →
      (main rnd2 n2 t2 stdin (pick (writeShares rnd n t data) idx)).events.head?
        = some (Event.modulus (fieldPrime data.length)) ∧
      (main rnd2 n2 t2 stdin (pick (writeShares rnd n t data) idx)).events.head?
        = (main rnd n n data []).events.head?) := by
  refine ⟨?_, rfl, ?_, interpolated_pick_stored rnd n t data idx hne hidx, ?_⟩
  · intro r hr
    unfold writeShares at hr
    obtain ⟨i, _, rfl⟩ := List.mem_map.mp hr
    rw [shareFile_length]
    have e : 4 + (data.length + 1) - 4 - 1 = data.length := by omega
    rw [e]
    exact ⟨by omega, rfl, rfl⟩
  · intro h
    rw [main_distribute rnd n t data [] h (by simp)]
    rfl
  · intro h2 ht
    have hm := main_modulus_pick rnd rnd2 n t n2 t2 data stdin idx h2 hidx ht
    refine ⟨hm, ?_⟩
    rw [hm, main_distribute rnd n n data [] (lt_irrefl n) (by simp)]
    rfl

/-- C6 witness: the secret "HI" distributed with `n = 3`, `t = 2`, and its share
files 1 and 2 given to a run with the default options. -/
theorem modulus_rederived_witness :
    (∀ r ∈ writeShares (fun _ => 12345) 3 2 [72, 73],
      r.length = 4 + [72, 73].length + 1 ∧
      fieldPrime (r.length - 4 - 1) = fieldPrime [72, 73].length ∧
      fieldPrime (r.length - 4 - 1) = NextPrime (2 ^ (8 * (r.length - 4 - 1)))) ∧
    distribute (fun _ => 12345) 3 2 [72, 73]
      = (List.range 3).map (fun i =>
          eval (fieldPrime [72, 73].length)
            (sharePoly (fieldPrime [72, 73].length) (fun _ => 12345) 2 [72, 73])
            (toZZ_p (fieldPrime [72, 73].length) (i + 1))) ∧
    (¬ 3 < 2 →
      (main (fun _ => 12345) 3 2 [72, 73] []).events.head?
        = some (Event.modulus (fieldPrime [72, 73].length))) ∧
    interpolated (pick (writeShares (fun _ => 12345) 3 2 [72, 73]) [0, 1])
      = interpolate (fieldPrime [72, 73].length)
          ([0, 1].map fun i => toZZ_p (fieldPrime [72, 73].length) (toUInt32 (i + 1)))
          ([0, 1].map fun i => toZZ_p (fieldPrime [72, 73].length)
            ((distribute (fun _ => 12345) 3 2 [72, 73]).getD i 0)) ∧
    (2 ≤ [0, 1].length → ¬ 3 < 2 →
      (main (fun _ => 0) 3 2 [] (pick (writeShares (fun _ => 12345) 3 2 [72, 73]) [0, 1])).events.head?
        = some (Event.modulus (fieldPrime [72, 73].length)) ∧
      (main (fun _ => 0) 3 2 [] (pick (writeShares (fun _ => 12345) 3 2 [72, 73]) [0, 1])).events.head?
        = (main (fun _ => 12345) 3 3 [72, 73] []).events.head?) :=
  modulus_rederived (fun _ => 12345) (fun _ => 0) 3 2 3 2 [72, 73] [] [0, 1] (by simp)
    (by decide)

/-- C7, amended (corruption sensitivity): for every distribution of a secret of
length `L >= 1` and every list of its share files used for reconstruction whose
indices are below `2^32` and pairwise distinct modulo `p`, those of the other
files being non-zero modulo `p`, flipping any single bit in the value field of
one of the files changes the constant coefficient of the polynomial that the
reconstruction branch interpolates; the `L` output bytes change as well unless
the two constant coefficients differ by exactly `256^L`, that is, only in the
byte that is not written out. -/
theorem corruption_changes_constant_term (rnd : Nat → Nat) (n t : Nat)
    (data pre post : List Nat) (i k j : Nat) (hL : 1 ≤ data.length)
    (hidx : ∀ i2 ∈ pre ++ i :: post, i2 < n ∧ i2 + 1 < 2 ^ 32)
    (hdist : ((pre ++ i :: post).map fun i2 => (i2 + 1) % fieldPrime data.length).Nodup)
    (hnz : ∀ i2 ∈ pre ++ post, (i2 + 1) % fieldPrime data.length ≠ 0)
    (hk : k < data.length + 1) (hj : j < 8) :
    ∃ f f2,
      interpolated (pick (writeShares rnd n t data) (pre ++ i :: post)) = some f ∧
      interpolated (pick (writeShares rnd n t data) pre
          ++ flipBit ((writeShares rnd n t data).getD i []) k j
            :: pick (writeShares rnd n t data) post) = some f2 ∧
      f.getD 0 0 ≠ f2.getD 0 0 ∧
      (reconstruct (pick (writeShares rnd n t data) pre
            ++ flipBit ((writeShares rnd n t data).getD i []) k j
              :: pick (writeShares rnd n t data) post)
          ≠ reconstruct (pick (writeShares rnd n t data) (pre ++ i :: post)) ∨
        f.getD 0 0 + 256 ^ data.length = f2.getD 0 0 ∨
        f2.getD 0 0 + 256 ^ data.length = f.getD 0 0) := by
  haveI : Fact (fieldPrime data.length).Prime := ⟨fieldPrime_prime _⟩
  have hp := fieldPrime_prime data.length
  have hp2 : 2 < fieldPrime data.length := by
    have h1 := fieldPrime_gt data.length
    have h2 : 2 ^ (8 * 1) ≤ 2 ^ (8 * data.length) :=
      Nat.pow_le_pow_right (by norm_num) (by omega)
    norm_num at h2
    omega
  have hple : fieldPrime data.length ≤ 2 * 256 ^ data.length := by
    have := fieldPrime_le data.length
    rw [pow_succ, ← pow_256] at this
    omega
  -- the points and the two value functions
  have hne : pre ++ i :: post ≠ [] := by simp
  have hA := interpolated_pick rnd n t data (pre ++ i :: post) hne hidx
  obtain ⟨y2, hhead2, hdiff, hB⟩ := interpolated_flipped rnd n t data pre post i k j hidx hk hj
  have hax : ∀ x ∈ (pre ++ i :: post).map (fun i2 => (i2 + 1) % fieldPrime data.length),
      x < fieldPrime data.length := by
    intro x hx
    obtain ⟨i2, _, rfl⟩ := List.mem_map.mp hx
    exact Nat.mod_lt _ hp.pos
  obtain ⟨r, hr, hrl, hrlt, hrev⟩ := interpolate_spec (fieldPrime data.length) _
    (eval (fieldPrime data.length) (sharePoly (fieldPrime data.length) rnd t data)) hax
    (fun x _ => eval_lt _ _ _ hp.pos) hdist
  have hsplit : ((pre ++ i :: post).map fun i2 => (i2 + 1) % fieldPrime data.length)
      = pre.map (fun i2 => (i2 + 1) % fieldPrime data.length)
        ++ (i + 1) % fieldPrime data.length
          :: post.map (fun i2 => (i2 + 1) % fieldPrime data.length) := by
    simp
  have hdist2 := hdist
  rw [hsplit, List.nodup_append] at hdist2
  obtain ⟨_, hnd2, hdisj⟩ := hdist2
  have hpre_ne : ∀ i2 ∈ pre,
      (i2 + 1) % fieldPrime data.length ≠ (i + 1) % fieldPrime data.length := by
    intro i2 hi2 he
    exact hdisj (List.mem_map.mpr ⟨i2, hi2, rfl⟩) (he ▸ List.mem_cons_self _ _)
  have hpost_ne : ∀ i2 ∈ post,
      (i2 + 1) % fieldPrime data.length ≠ (i + 1) % fieldPrime data.length := by
    intro i2 hi2 he
    exact (List.nodup_cons.mp hnd2).1 (he ▸ List.mem_map.mpr ⟨i2, hi2, rfl⟩)
  have hvals : (pre.map (fun i2 =>
                eval (fieldPrime data.length) (sharePoly (fieldPrime data.length) rnd t data)
                  ((i2 + 1) % fieldPrime data.length))
              ++ y2 % fieldPrime data.length
                :: post.map (fun i2 =>
                    eval (fieldPrime data.length) (sharePoly (fieldPrime data.length) rnd t data)
                      ((i2 + 1) % fieldPrime data.length)))
      = ((pre ++ i :: post).map fun i2 => (i2 + 1) % fieldPrime data.length).map
          (fun x => if x = (i + 1) % fieldPrime data.length then y2 % fieldPrime data.length
            else eval (fieldPrime data.length)
              (sharePoly (fieldPrime data.length) rnd t data) x) := by
    simp only [List.map_append, List.map_cons, List.map_map, Function.comp_def, if_true]
    congr 1
    · apply List.map_congr_left
      intro i2 hi2
      rw [if_neg (hpre_ne i2 hi2)]
    · congr 1
      apply List.map_congr_left
      intro i2 hi2
      rw [if_neg (hpost_ne i2 hi2)]
  rw [hvals] at hB
  obtain ⟨r2, hr2, hr2l, hr2lt, hr2ev⟩ := interpolate_spec (fieldPrime data.length) _
    (fun x => if x = (i + 1) % fieldPrime data.length then y2 % fieldPrime data.length
      else eval (fieldPrime data.length) (sharePoly (fieldPrime data.length) rnd t data) x) hax
    (fun x _ => by
      by_cases hx : x = (i + 1) % fieldPrime data.length
      · simp only [hx, if_true]; exact Nat.mod_lt _ hp.pos
      · simp only [hx, if_false]; exact eval_lt _ _ _ hp.pos) hdist
  have hxm : (i + 1) % fieldPrime data.length
      ∈ (pre ++ i :: post).map fun i2 => (i2 + 1) % fieldPrime data.length :=
    List.mem_map.mpr ⟨i, by simp, rfl⟩
  have hconst := const_term_differs (fieldPrime data.length) _ r r2
    ((i + 1) % fieldPrime data.length) hdist hax hxm
    (by
      intro x hx hxne
      obtain ⟨i2, hi2, rfl⟩ := List.mem_map.mp hx
      apply hnz i2
      rcases List.mem_append.mp hi2 with h | h
      · exact List.mem_append_left _ h
      · rcases List.mem_cons.mp h with rfl | h
        · exact absurd rfl hxne
        · exact List.mem_append_right _ h)
    hrlt hr2lt hrl hr2l
    (by
      intro x hx hxne
      rw [hrev x hx, hr2ev x hx, if_neg hxne])
    (by
      rw [hrev _ hxm, hr2ev _ hxm, if_pos rfl]
      intro he
      have h1 := natCast_inj_of_lt (fieldPrime data.length) _ _ (eval_lt _ _ _ hp.pos)
        (Nat.mod_lt _ hp.pos) he
      have h2 := mod_ne_of_diff_two_pow (fieldPrime data.length) _ y2 (8 * k + j) hp hp2 hdiff
      rw [Nat.mod_eq_of_lt (eval_lt _ _ _ hp.pos)] at h2
      exact h2 h1.symm)
  rw [hr] at hA
  rw [hr2] at hB
  have hc : (normalize r).getD 0 0 ≠ (normalize r2).getD 0 0 := by
    rw [normalize_getD, normalize_getD]; exact hconst
  refine ⟨normalize r, normalize r2, hA, hB, hc, ?_⟩
  by_cases hout : reconstruct (pick (writeShares rnd n t data) pre
            ++ flipBit ((writeShares rnd n t data).getD i []) k j
              :: pick (writeShares rnd n t data) post)
          = reconstruct (pick (writeShares rnd n t data) (pre ++ i :: post))
  · right
    have hhead1 : ((pick (writeShares rnd n t data) (pre ++ i :: post)).headD []).length
        = 4 + (data.length + 1) := by
      rw [pick_writeShares_pts rnd n t data _ hidx]
      cases pre with
      | nil => simp [shareFile_length]
      | cons i2 is => simp [shareFile_length]
    rw [reconstruct_eq data.length _ hhead1, reconstruct_eq data.length _ hhead2, hA, hB] at hout
    have hb1 := normalize_lt _ r hrlt
    have hb2 := normalize_lt _ r2 hr2lt
    cases h1 : normalize r with
    | nil =>
      cases h2 : normalize r2 with
      | nil => rw [h1, h2] at hc; exact absurd rfl hc
      | cons c2 cs2 => rw [h1, h2] at hout; simp at hout
    | cons c1 cs1 =>
      cases h2 : normalize r2 with
      | nil => rw [h1, h2] at hout; simp at hout
      | cons c2 cs2 =>
        rw [h1, h2] at hout hc
        simp only [Option.some.injEq, List.getD_cons_zero] at hout hc ⊢
        have b1 : c1 < fieldPrime data.length := hb1 c1 (by rw [h1]; simp)
        have b2 : c2 < fieldPrime data.length := hb2 c2 (by rw [h2]; simp)
        exact take_bytes_eq data.length c1 c2 (by omega) (by omega) hc hout.symm
  · left
    exact hout

/-- C7 witness: the secret "HI" with `n = 3`, `t = 2`, shares 1 and 2, lowest bit
of the value of share 2 flipped. -/
theorem corruption_changes_constant_term_witness :
    ∃ f f2,
      interpolated (pick (writeShares (fun _ => 12345) 3 2 [72, 73]) ([0] ++ 1 :: [])) = some f ∧
      interpolated (pick (writeShares (fun _ => 12345) 3 2 [72, 73]) [0]
          ++ flipBit ((writeShares (fun _ => 12345) 3 2 [72, 73]).getD 1 []) 0 0
            :: pick (writeShares (fun _ => 12345) 3 2 [72, 73]) []) = some f2 ∧
      f.getD 0 0 ≠ f2.getD 0 0 ∧
      (reconstruct (pick (writeShares (fun _ => 12345) 3 2 [72, 73]) [0]
            ++ flipBit ((writeShares (fun _ => 12345) 3 2 [72, 73]).getD 1 []) 0 0
              :: pick (writeShares (fun _ => 12345) 3 2 [72, 73]) [])
          ≠ reconstruct (pick (writeShares (fun _ => 12345) 3 2 [72, 73]) ([0] ++ 1 :: [])) ∨
        f.getD 0 0 + 256 ^ [72, 73].length = f2.getD 0 0 ∨
        f2.getD 0 0 + 256 ^ [72, 73].length = f.getD 0 0) :=
  corruption_changes_constant_term (fun _ => 12345) 3 2 [72, 73] [0] [] 1 0 0 (by decide)
    (by decide)
    (by rw [show fieldPrime [72, 73].length = 65537 from fieldPrime_two]; decide)
    (by rw [show fieldPrime [72, 73].length = 65537 from fieldPrime_two]; decide)
    (by decide) (by decide)

/-- C7 counterexample: three reconstructions whose output is the same before and
after one bit of a share value is flipped.  Secret `[0]`, shares 1 and 2, lowest
bit of share 2: the constant coefficient changes from 0 to 256 and the byte
written is 0 both times.  The empty secret: the output is empty either way.
Secret `[5]` with `n = 257`, shares 1 and 257: share 257 is evaluated at
0 modulo `p = 257` and alone fixes the result. -/
theorem corruption_counterexample :
    (reconstruct (pick (writeShares (fun _ => 1) 2 2 [0]) [0]
        ++ flipBit ((writeShares (fun _ => 1) 2 2 [0]).getD 1 []) 0 0
          :: pick (writeShares (fun _ => 1) 2 2 [0]) []) = some [0] ∧
      reconstruct (pick (writeShares (fun _ => 1) 2 2 [0]) [0, 1]) = some [0]) ∧
    (reconstruct (pick (writeShares (fun _ => 1) 2 2 []) []
        ++ flipBit ((writeShares (fun _ => 1) 2 2 []).getD 0 []) 0 3
          :: pick (writeShares (fun _ => 1) 2 2 []) [1]) = some [] ∧
      reconstruct (pick (writeShares (fun _ => 1) 2 2 []) [0, 1]) = some []) ∧
    (reconstruct (pick (writeShares (fun _ => 1) 257 2 [5]) []
        ++ flipBit ((writeShares (fun _ => 1) 257 2 [5]).getD 0 []) 0 0
          :: pick (writeShares (fun _ => 1) 257 2 [5]) [256]) = some [5] ∧
      reconstruct (pick (writeShares (fun _ => 1) 257 2 [5]) [0, 256]) = some [5]) := by
  refine ⟨?_, by decide, ?_⟩
  · have hW : writeShares (fun _ => 1) 2 2 [0] = [[1, 0, 0, 0, 1, 0], [2, 0, 0, 0, 2, 0]] := by
      simp only [writeShares, distribute, List.length_cons, List.length_nil, Nat.reduceAdd,
        fieldPrime_one]
      decide
    rw [hW]
    have e1 : pick [[1, 0, 0, 0, 1, 0], [2, 0, 0, 0, 2, 0]] [0]
        ++ flipBit (([[1, 0, 0, 0, 1, 0], [2, 0, 0, 0, 2, 0]] : List (List Nat)).getD 1 []) 0 0
          :: pick [[1, 0, 0, 0, 1, 0], [2, 0, 0, 0, 2, 0]] []
        = [[1, 0, 0, 0, 1, 0], [2, 0, 0, 0, 3, 0]] := by decide
    have e2 : pick [[1, 0, 0, 0, 1, 0], [2, 0, 0, 0, 2, 0]] [0, 1]
        = [[1, 0, 0, 0, 1, 0], [2, 0, 0, 0, 2, 0]] := by decide
    rw [e1, e2]
    constructor
    · simp only [reconstruct, interpolated, List.length_cons, List.length_nil, List.headD_cons,
        Nat.reduceAdd, Nat.reduceSub, Nat.reduceLT, if_false, fieldPrime_one]
      decide
    · simp only [reconstruct, interpolated, List.length_cons, List.length_nil, List.headD_cons,
        Nat.reduceAdd, Nat.reduceSub, Nat.reduceLT, if_false, fieldPrime_one]
      decide
  · have hlen : (writeShares (fun _ => 1) 257 2 [5]).length = 257 := writeShares_length _ _ _ _
    have h0 : (writeShares (fun _ => 1) 257 2 [5]).getD 0 [] = [1, 0, 0, 0, 6, 0] := by
      rw [writeShares_getD (fun _ => 1) 257 2 [5] 0 (by decide) (by decide)]
      rw [show fieldPrime [5].length = 257 from fieldPrime_one]
      decide
    have h256 : (writeShares (fun _ => 1) 257 2 [5]).getD 256 [] = [1, 1, 0, 0, 5, 0] := by
      rw [writeShares_getD (fun _ => 1) 257 2 [5] 256 (by decide) (by decide)]
      rw [show fieldPrime [5].length = 257 from fieldPrime_one]
      decide
    rw [pick_getD _ [0, 256] (by rw [hlen]; decide), pick_getD _ [256] (by rw [hlen]; decide),
      pick_getD _ [] (by simp)]
    simp only [List.map_cons, List.map_nil, List.nil_append, h0, h256]
    have e1 : flipBit [1, 0, 0, 0, 6, 0] 0 0 = [1, 0, 0, 0, 7, 0] := by decide
    rw [e1]
    constructor
    · simp only [reconstruct, interpolated, List.length_cons, List.length_nil, List.headD_cons,
        Nat.reduceAdd, Nat.reduceSub, Nat.reduceLT, if_false, fieldPrime_one]
      decide
    · simp only [reconstruct, interpolated, List.length_cons, List.length_nil, List.headD_cons,
        Nat.reduceAdd, Nat.reduceSub, Nat.reduceLT, if_false, fieldPrime_one]
      decide

/-- C8, amended (under-threshold non-guarantee): for every distribution with
threshold `t` and every choice of `k` of its share files, `2 <= k < t`, with
indices below `2^32` and pairwise distinct and non-zero modulo `p`:
if one of the chosen shares holds a non-zero value, the reconstruction branch
raises no error and writes `L` bytes, and the run of `main` (for any options
that pass the threshold check) selects the modulus, writes these bytes to
standard output and returns 0; over the `p^(t-1)` choices of the coefficients
`(c_1..c_{t-1})` the interpolated constant coefficient takes every value of
`GF(p)` equally often, `p^(t-2)` times, so the output is the secret for at most
`2 * p^(t-2)` of them (a share of at most `2/p`), and for at least `p^(t-2)`
when the secret has a non-zero byte.  A single share is never reconstructed:
given one file, `main` distributes it as a secret; in scenario 2 (secret "HI",
`n = 3`, `t = 2`, share 1 alone) the run writes three share files of the
7-byte share file and nothing to standard output. -/
theorem under_threshold_returns (rnd : Nat → Nat) (n t : Nat) (data idx : List Nat)
    (hd : IsBytes data) (hk2 : 2 ≤ idx.length) (hk : idx.length < t) (_htn : t ≤ n)
    (hidx : ∀ i ∈ idx, i < n ∧ i + 1 < 2 ^ 32)
    (hdist : (idx.map fun i => (i + 1) % fieldPrime data.length).Nodup)
    (hnz : ∀ i ∈ idx, (i + 1) % fieldPrime data.length ≠ 0) :
    ((∃ i ∈ idx, (distribute rnd n t data).getD i 0 ≠ 0) →
      ∃ out, reconstruct (pick (writeShares rnd n t data) idx) = some out ∧
        out.length = data.length ∧
        ∀ (rnd2 : Nat → Nat) (n2 t2 : Nat) (stdin : List Nat), ¬ n2 < t2 →
          main rnd2 n2 t2 stdin (pick (writeShares rnd n t data) idx)
            = Run.mk [Event.modulus (fieldPrime data.length), Event.output out] (some 0)) ∧
    (∀ v, v < fieldPrime data.length →
      (Finset.univ.filter
          (fun c : Fin (t - 1) → Fin (fieldPrime data.length) =>
            (interpolated (pick (writeShares (drawsOf c) n t data) idx)).map
              (fun f => f.getD 0 0) = some v)).card
        = fieldPrime data.length ^ (t - 2)) ∧
    (Finset.univ.filter
        (fun c : Fin (t - 1) → Fin (fieldPrime data.length) =>
          reconstruct (pick (writeShares (drawsOf c) n t data) idx) = some data)).card
      ≤ 2 * fieldPrime data.length ^ (t - 2) ∧
    ((∃ b ∈ data, b ≠ 0) →
      fieldPrime data.length ^ (t - 2) ≤
        (Finset.univ.filter
          (fun c : Fin (t - 1) → Fin (fieldPrime data.length) =>
            reconstruct (pick (writeShares (drawsOf c) n t data) idx) = some data)).card) ∧
    ∀ (rnd1 rnd2 : Nat → Nat) (stdin : List Nat),
      main rnd2 3 2 stdin (pick (writeShares rnd1 3 2 [72, 73]) [0])
        = Run.mk
            (Event.modulus (fieldPrime 7) ::
              (List.range 3).map fun i =>
                Event.written (i + 1)
                  ((writeShares rnd2 3 2 ((writeShares rnd1 3 2 [72, 73]).getD 0 [])).getD i []))
            (some 0) ∧
      ∀ out, Event.output out ∉
        (main rnd2 3 2 stdin (pick (writeShares rnd1 3 2 [72, 73]) [0])).events := by
  have hne : idx ≠ [] := by
    intro h
    rw [h] at hk2
    simp at hk2
  have hcard := card_reconstruct_secret n t data idx hd hne hk hidx hdist hnz
  refine ⟨?_, ?_, hcard.1, hcard.2, ?_⟩
  · intro hval
    obtain ⟨out, hout, hlen⟩ := reconstruct_returns rnd n t data idx hne hidx hdist hval
    exact ⟨out, hout, hlen, fun rnd2 n2 t2 stdin ht =>
      main_of_reconstruct_out rnd rnd2 n t n2 t2 data stdin idx out hk2
        (fun i hi => (hidx i hi).1) ht hout⟩
  · intro v hv
    exact card_const_coeff n t data idx v hne hk hidx hdist hnz hv
  · intro rnd1 rnd2 stdin
    have hpick : pick (writeShares rnd1 3 2 [72, 73]) [0]
        = [(writeShares rnd1 3 2 [72, 73]).getD 0 []] := by
      rw [pick_getD _ [0] (by rw [writeShares_length]; decide)]
      rfl
    have hlen : ((writeShares rnd1 3 2 [72, 73]).getD 0 []).length = 7 := by
      rw [writeShares_getD rnd1 3 2 [72, 73] 0 (by decide) (by decide), shareFile_length]
      rfl
    have hm := main_single_file rnd2 3 2 stdin ((writeShares rnd1 3 2 [72, 73]).getD 0 [])
      (by decide)
    rw [hlen] at hm
    rw [hpick]
    exact hm

/-- C8 witness: the secret "HI" with `n = 3`, `t = 3`, drawn coefficients 12345,
shares 1 and 2. -/
theorem under_threshold_returns_witness :
    ((∃ i ∈ [0, 1], (distribute (fun _ => 12345) 3 3 [72, 73]).getD i 0 ≠ 0) →
      ∃ out, reconstruct (pick (writeShares (fun _ => 12345) 3 3 [72, 73]) [0, 1]) = some out ∧
        out.length = [72, 73].length ∧
        ∀ (rnd2 : Nat → Nat) (n2 t2 : Nat) (stdin : List Nat), ¬ n2 < t2 →
          main rnd2 n2 t2 stdin (pick (writeShares (fun _ => 12345) 3 3 [72, 73]) [0, 1])
            = Run.mk [Event.modulus (fieldPrime [72, 73].length), Event.output out]
                (some 0)) ∧
    (∀ v, v < fieldPrime [72, 73].length →
      (Finset.univ.filter
          (fun c : Fin (3 - 1) → Fin (fieldPrime [72, 73].length) =>
            (interpolated (pick (writeShares (drawsOf c) 3 3 [72, 73]) [0, 1])).map
              (fun f => f.getD 0 0) = some v)).card
        = fieldPrime [72, 73].length ^ (3 - 2)) ∧
    (Finset.univ.filter
        (fun c : Fin (3 - 1) → Fin (fieldPrime [72, 73].length) =>
          reconstruct (pick (writeShares (drawsOf c) 3 3 [72, 73]) [0, 1]) = some [72, 73])).card
      ≤ 2 * fieldPrime [72, 73].length ^ (3 - 2) ∧
    ((∃ b ∈ [72, 73], b ≠ 0) →
      fieldPrime [72, 73].length ^ (3 - 2) ≤
        (Finset.univ.filter
          (fun c : Fin (3 - 1) → Fin (fieldPrime [72, 73].length) =>
            reconstruct (pick (writeShares (drawsOf c) 3 3 [72, 73]) [0, 1])
              = some [72, 73])).card) ∧
    ∀ (rnd1 rnd2 : Nat → Nat) (stdin : List Nat),
      main rnd2 3 2 stdin (pick (writeShares rnd1 3 2 [72, 73]) [0])
        = Run.mk
            (Event.modulus (fieldPrime 7) ::
              (List.range 3).map fun i =>
                Event.written (i + 1)
                  ((writeShares rnd2 3 2 ((writeShares rnd1 3 2 [72, 73]).getD 0 [])).getD i []))
            (some 0) ∧
      ∀ out, Event.output out ∉
        (main rnd2 3 2 stdin (pick (writeShares rnd1 3 2 [72, 73]) [0])).events :=
  under_threshold_returns (fun _ => 12345) 3 3 [72, 73] [0, 1] (by decide) (by decide)
    (by decide) (by decide) (by decide)
    (by rw [show fieldPrime [72, 73].length = 65537 from fieldPrime_two]; decide)
    (by rw [show fieldPrime [72, 73].length = 65537 from fieldPrime_two]; decide)

/-- C8 counterexample: two runs on fewer shares than the threshold that return
no value.  The secret `[7]` with `n = 2^32 + 1`, `t = 3`, shares 1 and
`2^32 + 1`: both files store the index 1, `interpolate` stops with an error and
the run ends without output.  Scenario 2, the secret "HI" with `n = 3`,
`t = 2`, drawn coefficient 12345, share 1 alone: the run distributes the share
file, writes nothing to standard output and returns 0. -/
theorem under_threshold_counterexample :
    main (fun _ => 0) 3 2 [] (pick (writeShares (fun _ => 1) (2 ^ 32 + 1) 3 [7]) [0, 2 ^ 32])
      = Run.mk [Event.modulus 257, Event.stopped] none ∧
    (∀ out, Event.output out ∉
      (main (fun _ => 0) 3 2 [] (pick (writeShares (fun _ => 12345) 3 2 [72, 73]) [0])).events) ∧
    (main (fun _ => 0) 3 2 [] (pick (writeShares (fun _ => 12345) 3 2 [72, 73]) [0])).ret
      = some 0 := by
  refine ⟨?_, ?_⟩
  · have hrec : reconstruct (pick (writeShares (fun _ => 1) (2 ^ 32 + 1) 3 [7]) [0, 2 ^ 32])
        = none := by
      haveI : Fact (fieldPrime 1).Prime := ⟨fieldPrime_prime 1⟩
      rw [pick_writeShares _ _ _ _ _ (by
        intro i hi
        simp only [List.mem_cons, List.mem_singleton, List.not_mem_nil, or_false] at hi
        rcases hi with rfl | rfl <;> norm_num)]
      simp only [List.map_cons, List.map_nil, List.length_cons, List.length_nil, toUInt32]
      norm_num
      have h := reconstruct_shareFiles 1
        [(1, eval (fieldPrime 1) (sharePoly (fieldPrime 1) (fun _ => 1) 3 [7]) (1 % fieldPrime 1)),
         (1, eval (fieldPrime 1) (sharePoly (fieldPrime 1) (fun _ => 1) 3 [7])
            (4294967297 % fieldPrime 1))]
        (by simp) (by simp) (by
          intro q hq
          simp only [List.mem_cons, List.mem_singleton, List.not_mem_nil, or_false] at hq
          rcases hq with rfl | rfl <;> exact eval_lt _ _ _ (fieldPrime_prime 1).pos)
      simp only [List.map_cons, List.map_nil] at h
      rw [h, interpolate_dup (fieldPrime 1) [1 % fieldPrime 1, 1 % fieldPrime 1]
        [eval (fieldPrime 1) (sharePoly (fieldPrime 1) (fun _ => 1) 3 [7]) (1 % fieldPrime 1),
         eval (fieldPrime 1) (sharePoly (fieldPrime 1) (fun _ => 1) 3 [7])
            (4294967297 % fieldPrime 1)] rfl (by
        intro x hx
        simp only [List.mem_cons, List.mem_singleton, List.not_mem_nil, or_false] at hx
        rcases hx with rfl | rfl <;> exact Nat.mod_lt _ (fieldPrime_prime 1).pos) (by simp)]
    rw [main_of_reconstruct_none (fun _ => 1) (fun _ => 0) (2 ^ 32 + 1) 3 3 2 [7] [] [0, 2 ^ 32]
      (by simp) (by
        intro i hi
        simp only [List.mem_cons, List.mem_singleton, List.not_mem_nil, or_false] at hi
        rcases hi with rfl | rfl <;> norm_num) (by decide) hrec]
    rw [show fieldPrime [7].length = 257 from fieldPrime_one]
  · have hpick : pick (writeShares (fun _ => 12345) 3 2 [72, 73]) [0]
        = [(writeShares (fun _ => 12345) 3 2 [72, 73]).getD 0 []] := by
      rw [pick_getD _ [0] (by rw [writeShares_length]; decide)]
      rfl
    have hm := main_single_file (fun _ => 0) 3 2 []
      ((writeShares (fun _ => 12345) 3 2 [72, 73]).getD 0 []) (by decide)
    rw [hpick]
    refine ⟨hm.2, ?_⟩
    rw [hm.1]

/-- C9, amended (shares are evaluations at `1..n`): for every secret, every `t`
and every `n < 2^32`, `distribute` produces exactly `n` shares and the
distribution branch `n` files; with `f` the generated polynomial, `f(0)` is the
secret integer `S`; file `i` (for `i = 1..n`) stores the index `i` and the
value `f(i mod p)`; the stored indices are `1, 2, ..., n` in order, hence
pairwise distinct elements of `{1, ..., n}`. -/
theorem shares_are_evaluations (rnd : Nat → Nat) (n t : Nat) (data : List Nat)
    (hd : IsBytes data) (hn : n < 2 ^ 32) :
    (distribute rnd n t data).length = n ∧
    (writeShares rnd n t data).length = n ∧
    eval (fieldPrime data.length) (sharePoly (fieldPrime data.length) rnd t data) 0
      = ZZFromBytes data ∧
    (∀ i, i < n →
      (distribute rnd n t data).getD i 0
        = eval (fieldPrime data.length) (sharePoly (fieldPrime data.length) rnd t data)
            ((i + 1) % fieldPrime data.length) ∧
      ZZFromBytes (((writeShares rnd n t data).getD i []).take 4) = i + 1 ∧
      ZZFromBytes (((writeShares rnd n t data).getD i []).drop 4)
        = (distribute rnd n t data).getD i 0) ∧
    (writeShares rnd n t data).map (fun r => ZZFromBytes (r.take 4))
      = (List.range n).map (fun i => i + 1) := by
  have hp := fieldPrime_prime data.length
  refine ⟨distribute_length rnd n t data, writeShares_length rnd n t data,
    eval_zero_sharePoly rnd t data hd, ?_, ?_⟩
  · intro i hi
    have hfile := writeShares_getElem? rnd n t data i hi
    rw [List.getD_eq_getElem?_getD (writeShares rnd n t data), hfile,
      distribute_getD rnd n t data i hi]
    simp only [Option.getD_some]
    refine ⟨trivial, ?_, shareFile_value _ _ _ (eval_lt _ _ _ hp.pos)⟩
    have h32 : toUInt32 (i + 1) = i + 1 := Nat.mod_eq_of_lt (by omega)
    rw [h32]
    exact shareFile_index _ _ _ (by omega)
  · unfold writeShares
    rw [List.map_map]
    apply List.map_congr_left
    intro i hi
    have hi2 : i < n := List.mem_range.mp hi
    have h32 : toUInt32 (i + 1) = i + 1 := Nat.mod_eq_of_lt (by omega)
    simp only [Function.comp, h32]
    exact shareFile_index _ _ _ (by omega)

/-- C9 witness: the secret "HI" with `n = 3`, `t = 2`. -/
theorem shares_are_evaluations_witness :
    (distribute (fun _ => 12345) 3 2 [72, 73]).length = 3 ∧
    (writeShares (fun _ => 12345) 3 2 [72, 73]).length = 3 ∧
    eval (fieldPrime [72, 73].length) (sharePoly (fieldPrime [72, 73].length)
      (fun _ => 12345) 2 [72, 73]) 0 = ZZFromBytes [72, 73] ∧
    (∀ i, i < 3 →
      (distribute (fun _ => 12345) 3 2 [72, 73]).getD i 0
        = eval (fieldPrime [72, 73].length) (sharePoly (fieldPrime [72, 73].length)
            (fun _ => 12345) 2 [72, 73]) ((i + 1) % fieldPrime [72, 73].length) ∧
      ZZFromBytes (((writeShares (fun _ => 12345) 3 2 [72, 73]).getD i []).take 4) = i + 1 ∧
      ZZFromBytes (((writeShares (fun _ => 12345) 3 2 [72, 73]).getD i []).drop 4)
        = (distribute (fun _ => 12345) 3 2 [72, 73]).getD i 0) ∧
    (writeShares (fun _ => 12345) 3 2 [72, 73]).map (fun r => ZZFromBytes (r.take 4))
      = (List.range 3).map (fun i => i + 1) :=
  shares_are_evaluations (fun _ => 12345) 3 2 [72, 73] (by decide) (by decide)

/-- C9 counterexample: with `n = 2^32` shares the last file, share number
`2^32`, stores the index 0, which is not in `{1, ..., n}`. -/
theorem shares_index_counterexample :
    ((writeShares (fun _ => 0) (2 ^ 32) 1 [])[2 ^ 32 - 1]?).map
      (fun r => ZZFromBytes (r.take 4)) = some 0 := by
  rw [writeShares_getElem? _ _ _ _ _ (by norm_num)]
  simp only [Option.map_some', Option.some.injEq]
  unfold shareFile
  rw [List.take_left' (BytesFromZZ_length _ _), ZZFromBytes_BytesFromZZ]
  decide

/-- C10 (empty secret, `n = 5`, `t = 3`), as the code behaves: the modulus is 2 and
every share value is 0 or 1, but for every choice of three of the five share
files the reconstruction branch produces no output, because two of any three
indices in `1..5` agree modulo 2 and `interpolate` stops with an error. -/
theorem empty_secret_reconstruction_fails (rnd : Nat → Nat) :
    fieldPrime ([] : List Nat).length = 2 ∧
    (∀ y ∈ distribute rnd 5 3 [], y = 0 ∨ y = 1) ∧
    ∀ idx : List Nat, idx.length = 3 ∧ idx.Nodup ∧ (∀ i ∈ idx, i < 5) →
      reconstruct (pick (writeShares rnd 5 3 []) idx) = none := by
  haveI : Fact (fieldPrime ([] : List Nat).length).Prime := ⟨fieldPrime_prime _⟩
  have hp2 : fieldPrime ([] : List Nat).length = 2 := fieldPrime_zero
  refine ⟨hp2, ?_, ?_⟩
  · intro y hy
    rw [distribute_eq] at hy
    obtain ⟨i, _, rfl⟩ := List.mem_map.mp hy
    have := eval_lt (fieldPrime ([] : List Nat).length)
      (sharePoly (fieldPrime ([] : List Nat).length) rnd 3 [])
      ((i + 1) % fieldPrime ([] : List Nat).length) (fieldPrime_prime _).pos
    rw [hp2] at this ⊢
    omega
  · rintro idx ⟨hlen, _, hlt⟩
    have hne : idx ≠ [] := by
      intro h
      rw [h] at hlen
      simp at hlen
    rw [reconstruct_pick_interp rnd 5 3 [] idx hne (fun i hi => ⟨hlt i hi, by
      have := hlt i hi
      omega⟩)]
    rw [interpolate_dup (fieldPrime ([] : List Nat).length) _ _ (by simp) (by
      intro x hx
      obtain ⟨i, _, rfl⟩ := List.mem_map.mp hx
      exact Nat.mod_lt _ (fieldPrime_prime _).pos)]
    rw [hp2]
    match idx, hlen with
    | [a, b, c], _ =>
      simp only [List.map_cons, List.map_nil, List.nodup_cons, List.mem_cons, List.mem_singleton,
        List.not_mem_nil, or_false, not_false_eq_true, List.nodup_nil, and_true, not_and, not_or]
      omega

/-- C11 (degenerate threshold): for every secret and every `n`, whatever the
random source returns, `distribute` with `t = 1` yields `n` shares whose values
all equal the secret integer `S`; the `L + 1` value bytes of every share file
are the bytes of the secret followed by a zero byte. -/
theorem threshold_one_shares_are_secret (rnd : Nat → Nat) (n : Nat) (data : List Nat)
    (hd : IsBytes data) :
    (distribute rnd n 1 data).length = n ∧
    (∀ y ∈ distribute rnd n 1 data, y = ZZFromBytes data) ∧
    (writeShares rnd n 1 data).length = n ∧
    ∀ i, i < n → ((writeShares rnd n 1 data).getD i []).drop 4 = data ++ [0] := by
  have hc := distribute_const rnd n 1 data hd (le_refl 1)
  refine ⟨distribute_length rnd n 1 data, ?_, writeShares_length rnd n 1 data, ?_⟩
  · intro y hy
    rw [hc] at hy
    exact List.eq_of_mem_replicate hy
  · intro i hi
    rw [writeShares_value_bytes rnd n 1 data i hi, hc, replicate_getD _ _ _ _ hi,
      secret_value_bytes data hd]

/-- C11 witness: the secret "HI" with `n = 3`, `t = 1`. -/
theorem threshold_one_shares_are_secret_witness :
    (distribute (fun _ => 12345) 3 1 [72, 73]).length = 3 ∧
    (∀ y ∈ distribute (fun _ => 12345) 3 1 [72, 73], y = ZZFromBytes [72, 73]) ∧
    (writeShares (fun _ => 12345) 3 1 [72, 73]).length = 3 ∧
    ∀ i, i < 3 →
      ((writeShares (fun _ => 12345) 3 1 [72, 73]).getD i []).drop 4 = [72, 73] ++ [0] :=
  threshold_one_shares_are_secret (fun _ => 12345) 3 [72, 73] (by decide)

/-- C12 (threshold check): `main` rejects the request (message on standard
error, return value 1) exactly when `n < t`; the rejected run consists of the
message alone, so no modulus is selected and no share file or output is
written; with `t = n` the request is not rejected, and a request to distribute
then selects the modulus and writes the `n` share files. -/
theorem invalid_threshold_rejected_first (rnd : Nat → Nat) (n t : Nat) (stdin : List Nat)
    (files : List (List Nat)) :
    (main rnd n t stdin files = Run.mk [Event.message] (some 1) ↔ n < t) ∧
    (Event.message ∈ (main rnd n t stdin files).events ↔ n < t) ∧
    ((main rnd n t stdin files).ret = some 1 ↔ n < t) ∧
    (n < t → ∀ e ∈ (main rnd n t stdin files).events, e = Event.message) ∧
    main rnd n n stdin files ≠ Run.mk [Event.message] (some 1) ∧
    (files.length < 2 →
      main rnd n n stdin files
        = Run.mk
            (Event.modulus (fieldPrime (files.headD stdin).length) ::
              (List.range n).map fun i =>
                Event.written (i + 1) ((writeShares rnd n n (files.headD stdin)).getD i []))
            (some 0)) := by
  have hrej : n < t → main rnd n t stdin files = Run.mk [Event.message] (some 1) :=
    main_of_lt rnd n t stdin files
  have hacc : ∀ t2, ¬ n < t2 →
      Event.message ∉ (main rnd n t2 stdin files).events ∧
        (main rnd n t2 stdin files).ret ≠ some 1 :=
    fun t2 h => main_accepted rnd n t2 stdin files h
  refine ⟨⟨?_, hrej⟩, ⟨?_, ?_⟩, ⟨?_, ?_⟩, ?_, ?_, ?_⟩
  · intro h
    by_contra hcon
    have := (hacc t hcon).2
    rw [h] at this
    exact this rfl
  · intro h
    by_contra hcon
    exact (hacc t hcon).1 h
  · intro h
    rw [hrej h]
    simp
  · intro h
    by_contra hcon
    exact (hacc t hcon).2 h
  · intro h
    rw [hrej h]
  · intro h e he
    rw [hrej h] at he
    simpa using he
  · intro h
    have := (hacc n (lt_irrefl n)).2
    rw [h] at this
    exact this rfl
  · intro h
    exact main_distribute rnd n n stdin files (lt_irrefl n) h


/-- C13, amended (records shorter than 5 bytes): the program has no check of the
record length.  A file of fewer than 5 bytes that follows a record of the
length of the first file is read as if it were completed by the bytes of that
record from the position where it ends (the missing index bytes and the whole
value field): the completed record has the full length, and `interpolate`, the
output and the whole run are those for the completed record. -/
theorem short_record_completed_from_previous (pre post : List (List Nat)) (prev cur : List Nat)
    (h5 : 5 ≤ ((pre ++ [prev]).headD []).length)
    (hprev : prev.length = ((pre ++ [prev]).headD []).length)
    (hcur : cur.length < 5) :
    (cur ++ prev.drop cur.length).length = prev.length ∧
    interpolated (pre ++ prev :: cur :: post)
      = interpolated (pre ++ prev :: (cur ++ prev.drop cur.length) :: post) ∧
    reconstruct (pre ++ prev :: cur :: post)
      = reconstruct (pre ++ prev :: (cur ++ prev.drop cur.length) :: post) ∧
    ∀ (rnd : Nat → Nat) (n t : Nat) (stdin : List Nat),
      main rnd n t stdin (pre ++ prev :: cur :: post)
        = main rnd n t stdin (pre ++ prev :: (cur ++ prev.drop cur.length) :: post) := by
  have e : cur.take prev.length = cur := List.take_of_length_le (by omega)
  have hi := interpolated_splice pre post prev cur h5 hprev
  have hr := reconstruct_splice pre post prev cur h5 hprev
  rw [e] at hi hr
  refine ⟨?_, hi.symm, hr.symm, ?_⟩
  · rw [List.length_append, List.length_drop]
    omega
  · intro rnd n t stdin
    apply main_congr rnd n t stdin _ _ (by simp; omega) (by simp; omega) _ hr.symm
    cases pre <;> rfl

/-- C13 witness: the 3-byte file `[2, 0, 0]` after the record `[1, 0, 0, 0, 8, 0]`
(index 1, value 8) is read as the record `[2, 0, 0, 0, 8, 0]` (index 2,
value 8). -/
theorem short_record_completed_from_previous_witness :
    ([2, 0, 0] ++ [1, 0, 0, 0, 8, 0].drop [2, 0, 0].length).length
      = [1, 0, 0, 0, 8, 0].length ∧
    interpolated ([] ++ [1, 0, 0, 0, 8, 0] :: [2, 0, 0] :: [])
      = interpolated ([] ++ [1, 0, 0, 0, 8, 0] ::
          ([2, 0, 0] ++ [1, 0, 0, 0, 8, 0].drop [2, 0, 0].length) :: []) ∧
    reconstruct ([] ++ [1, 0, 0, 0, 8, 0] :: [2, 0, 0] :: [])
      = reconstruct ([] ++ [1, 0, 0, 0, 8, 0] ::
          ([2, 0, 0] ++ [1, 0, 0, 0, 8, 0].drop [2, 0, 0].length) :: []) ∧
    ∀ (rnd : Nat → Nat) (n t : Nat) (stdin : List Nat),
      main rnd n t stdin ([] ++ [1, 0, 0, 0, 8, 0] :: [2, 0, 0] :: [])
        = main rnd n t stdin ([] ++ [1, 0, 0, 0, 8, 0] ::
            ([2, 0, 0] ++ [1, 0, 0, 0, 8, 0].drop [2, 0, 0].length) :: []) :=
  short_record_completed_from_previous [] [] [1, 0, 0, 0, 8, 0] [2, 0, 0] (by decide) (by decide)
    (by decide)

/-- C13 counterexample: reconstruction from the record `[1, 0, 0, 0, 8, 0]` and the
3-byte file `[2, 0, 0]` with the default options `n = 3`, `t = 2`: the run
selects the modulus 257, writes the byte 8 to standard output and returns 0; no
error is reported. -/
theorem short_record_counterexample :
    main (fun _ => 0) 3 2 [] [[1, 0, 0, 0, 8, 0], [2, 0, 0]]
      = Run.mk [Event.modulus 257, Event.output [8]] (some 0) := by
  rw [main_reconstruct _ _ _ _ _ (by decide) (by decide) (by decide)]
  simp only [reconstruct, interpolated, List.length_cons, List.length_nil, List.headD_cons,
    Nat.reduceAdd, Nat.reduceSub, Nat.reduceLT, if_false, fieldPrime_one]
  decide

/-- C14, amended (records of another width): the program compares no record
lengths and reports no error.  Every file is read through buffers of the length
of the first file: a longer file is cut to that length, a shorter one is
completed by what the record before it left in the buffers.  For any files
whose first has at least 5 bytes, the records so obtained all have the length
of the first file, and `interpolate`, the output and the whole run are those
for these records; a request that passes the threshold check prints no
message. -/
theorem other_width_read_through_buffers (first : List Nat) (rest : List (List Nat))
    (h5 : 5 ≤ first.length) :
    (completed first.length (List.replicate first.length 0) (first :: rest)).length
      = (first :: rest).length ∧
    (∀ r ∈ completed first.length (List.replicate first.length 0) (first :: rest),
      r.length = first.length) ∧
    interpolated (first :: rest)
      = interpolated (completed first.length (List.replicate first.length 0) (first :: rest)) ∧
    reconstruct (first :: rest)
      = reconstruct (completed first.length (List.replicate first.length 0) (first :: rest)) ∧
    ∀ (rnd : Nat → Nat) (n t : Nat) (stdin : List Nat),
      (1 ≤ rest.length →
        main rnd n t stdin (first :: rest)
          = main rnd n t stdin
              (completed first.length (List.replicate first.length 0) (first :: rest))) ∧
      (¬ n < t → Event.message ∉ (main rnd n t stdin (first :: rest)).events) := by
  have hlen := completed_length first.length (first :: rest) (List.replicate first.length 0)
  refine ⟨hlen, completed_width first.length (first :: rest) _ (by simp),
    (interpolated_completed first rest h5).symm, (reconstruct_completed first rest h5).symm, ?_⟩
  intro rnd n t stdin
  refine ⟨?_, fun h => (main_accepted rnd n t stdin _ h).1⟩
  intro h1
  apply main_congr rnd n t stdin _ _ (by simp; omega) (by rw [hlen]; simp; omega) _
    (reconstruct_completed first rest h5).symm
  rw [completed_head]
  rfl

/-- C14 witness: the record `[1, 0, 0, 0, 8, 0]` followed by the 7-byte file
`[2, 0, 0, 0, 8, 0, 99]`, whose value width is 3 instead of 2. -/
theorem other_width_read_through_buffers_witness :
    (completed [1, 0, 0, 0, 8, 0].length (List.replicate [1, 0, 0, 0, 8, 0].length 0)
        ([1, 0, 0, 0, 8, 0] :: [[2, 0, 0, 0, 8, 0, 99]])).length
      = ([1, 0, 0, 0, 8, 0] :: [[2, 0, 0, 0, 8, 0, 99]]).length ∧
    (∀ r ∈ completed [1, 0, 0, 0, 8, 0].length (List.replicate [1, 0, 0, 0, 8, 0].length 0)
        ([1, 0, 0, 0, 8, 0] :: [[2, 0, 0, 0, 8, 0, 99]]),
      r.length = [1, 0, 0, 0, 8, 0].length) ∧
    interpolated ([1, 0, 0, 0, 8, 0] :: [[2, 0, 0, 0, 8, 0, 99]])
      = interpolated (completed [1, 0, 0, 0, 8, 0].length
          (List.replicate [1, 0, 0, 0, 8, 0].length 0)
          ([1, 0, 0, 0, 8, 0] :: [[2, 0, 0, 0, 8, 0, 99]])) ∧
    reconstruct ([1, 0, 0, 0, 8, 0] :: [[2, 0, 0, 0, 8, 0, 99]])
      = reconstruct (completed [1, 0, 0, 0, 8, 0].length
          (List.replicate [1, 0, 0, 0, 8, 0].length 0)
          ([1, 0, 0, 0, 8, 0] :: [[2, 0, 0, 0, 8, 0, 99]])) ∧
    ∀ (rnd : Nat → Nat) (n t : Nat) (stdin : List Nat),
      (1 ≤ [[2, 0, 0, 0, 8, 0, 99]].length →
        main rnd n t stdin ([1, 0, 0, 0, 8, 0] :: [[2, 0, 0, 0, 8, 0, 99]])
          = main rnd n t stdin
              (completed [1, 0, 0, 0, 8, 0].length (List.replicate [1, 0, 0, 0, 8, 0].length 0)
                ([1, 0, 0, 0, 8, 0] :: [[2, 0, 0, 0, 8, 0, 99]]))) ∧
      (¬ n < t →
        Event.message ∉
          (main rnd n t stdin ([1, 0, 0, 0, 8, 0] :: [[2, 0, 0, 0, 8, 0, 99]])).events) :=
  other_width_read_through_buffers [1, 0, 0, 0, 8, 0] [[2, 0, 0, 0, 8, 0, 99]] (by decide)

/-- C14 counterexample: reconstruction from the record `[1, 0, 0, 0, 8, 0]` (value
width 2) and the file `[2, 0, 0, 0, 8, 0, 99]` (value width 3), and from the
same record and the file `[2, 0, 0, 0, 9]` (value width 1), with the default
options `n = 3`, `t = 2`: each run selects the modulus 257, writes one byte to
standard output and returns 0; no error is reported. -/
theorem other_width_counterexample :
    main (fun _ => 0) 3 2 [] [[1, 0, 0, 0, 8, 0], [2, 0, 0, 0, 8, 0, 99]]
      = Run.mk [Event.modulus 257, Event.output [8]] (some 0) ∧
    main (fun _ => 0) 3 2 [] [[1, 0, 0, 0, 8, 0], [2, 0, 0, 0, 9]]
      = Run.mk [Event.modulus 257, Event.output [7]] (some 0) := by
  constructor
  · rw [main_reconstruct _ _ _ _ _ (by decide) (by decide) (by decide)]
    simp only [reconstruct, interpolated, List.length_cons, List.length_nil, List.headD_cons,
      Nat.reduceAdd, Nat.reduceSub, Nat.reduceLT, if_false, fieldPrime_one]
    decide
  · rw [main_reconstruct _ _ _ _ _ (by decide) (by decide) (by decide)]
    simp only [reconstruct, interpolated, List.length_cons, List.length_nil, List.headD_cons,
      Nat.reduceAdd, Nat.reduceSub, Nat.reduceLT, if_false, fieldPrime_one]
    decide


/-- C15 (fixed-width secret conversion): for every byte string `d` of length
`L`, the integer `S = ZZFromBytes d` satisfies `S < 2^(8L) < p`; written into
`L + 1` bytes it is `d` followed by one zero byte; whatever the reconstruction
branch writes for records of value width `L + 1` has exactly `L` bytes; and
when the coefficient `f[0]` it reads from the interpolated polynomial is `S`,
the byte it drops is 0 and the output is `d`. -/
theorem fixed_width_secret_conversion (d : List Nat) (hd : IsBytes d) :
    ZZFromBytes d < 2 ^ (8 * d.length) ∧
    2 ^ (8 * d.length) < fieldPrime d.length ∧
    BytesFromZZ (ZZFromBytes d) (d.length + 1) = d ++ [0] ∧
    (∀ files out, (files.headD []).length = 4 + (d.length + 1) →
      reconstruct files = some out → out.length = d.length) ∧
    ∀ files f0 fs, (files.headD []).length = 4 + (d.length + 1) →
      interpolated files = some (f0 :: fs) → f0 = ZZFromBytes d →
        (BytesFromZZ f0 (d.length + 1)).getD d.length 0 = 0 ∧
        (BytesFromZZ f0 (d.length + 1)).take d.length = d ∧
        reconstruct files = some d := by
  have h1 := ZZFromBytes_lt d hd
  rw [pow_256] at h1
  refine ⟨h1, fieldPrime_gt d.length, secret_value_bytes d hd, ?_, ?_⟩
  · intro files out hlen hrec
    rw [reconstruct_eq d.length files hlen] at hrec
    cases hi : interpolated files with
    | none => rw [hi] at hrec; simp at hrec
    | some f =>
      rw [hi] at hrec
      cases f with
      | nil => simp at hrec
      | cons f0 fs =>
        simp only [Option.some.injEq] at hrec
        rw [← hrec, List.length_take, BytesFromZZ_length]
        omega
  · intro files f0 fs hlen hi hf0
    subst hf0
    have hb := secret_value_bytes d hd
    refine ⟨?_, ?_, ?_⟩
    · rw [hb, List.getD_eq_getElem?_getD, List.getElem?_append_right (le_refl _)]
      simp
    · rw [hb]
      simp
    · rw [reconstruct_eq d.length files hlen, hi]
      simp only [hb]
      simp

/-- C15 witness: the byte string `[0, 72, 0]`, which starts and ends with a zero
byte. -/
theorem fixed_width_secret_conversion_witness :
    ZZFromBytes [0, 72, 0] < 2 ^ (8 * [0, 72, 0].length) ∧
    2 ^ (8 * [0, 72, 0].length) < fieldPrime [0, 72, 0].length ∧
    BytesFromZZ (ZZFromBytes [0, 72, 0]) ([0, 72, 0].length + 1) = [0, 72, 0] ++ [0] ∧
    (∀ files out, (files.headD []).length = 4 + ([0, 72, 0].length + 1) →
      reconstruct files = some out → out.length = [0, 72, 0].length) ∧
    ∀ files f0 fs, (files.headD []).length = 4 + ([0, 72, 0].length + 1) →
      interpolated files = some (f0 :: fs) → f0 = ZZFromBytes [0, 72, 0] →
        (BytesFromZZ f0 ([0, 72, 0].length + 1)).getD [0, 72, 0].length 0 = 0 ∧
        (BytesFromZZ f0 ([0, 72, 0].length + 1)).take [0, 72, 0].length = [0, 72, 0] ∧
        reconstruct files = some [0, 72, 0] :=
  fixed_width_secret_conversion [0, 72, 0] (by decide)


/-- C16 (Lagrange value at 0): for every prime `p` and every non-empty list of
points `(x_i, y_i)` whose `x_i` are pairwise distinct modulo `p`, `interpolate`
on the points reduced modulo `p` returns a polynomial whose coefficient 0, the
value `f[0]` the reconstruction branch extracts, equals the sum over `i` of
`y_i * prod over j ≠ i of (-x_j) * inverse(x_i - x_j)` modulo `p`; when `p` is
the modulus for the length `L`, this polynomial is the one the reconstruction
branch interpolates from the records of the points. -/
theorem interpolate_constant_is_lagrange (p : Nat) (pts : List (Nat × Nat))
    (hp : Nat.Prime p) (hne : pts ≠ [])
    (hnd : (pts.map fun q => toZZ_p p q.1).Nodup) :
    ∃ f, interpolate p (pts.map fun q => toZZ_p p q.1) (pts.map fun q => toZZ_p p q.2) = some f ∧
      f.getD 0 0 = lagrangeAtZero p (pts.map fun q => (toZZ_p p q.1, toZZ_p p q.2)) ∧
      (∀ f0 fs, f = f0 :: fs →
        f0 = lagrangeAtZero p (pts.map fun q => (toZZ_p p q.1, toZZ_p p q.2))) ∧
      ∀ L, fieldPrime L = p → (∀ q ∈ pts, q.1 < 2 ^ 32 ∧ q.2 < 256 ^ (L + 1)) →
        interpolated (pts.map fun q => shareFile L q.1 q.2) = some f := by
  haveI : Fact p.Prime := ⟨hp⟩
  obtain ⟨f, hf, hcoef⟩ := interpolate_const_coeff p
    (pts.map fun q => (toZZ_p p q.1, toZZ_p p q.2)) (by simpa using hne)
    (by
      intro q hq
      obtain ⟨r, _, rfl⟩ := List.mem_map.mp hq
      exact ⟨Nat.mod_lt _ hp.pos, Nat.mod_lt _ hp.pos⟩)
    (by simpa [List.map_map, Function.comp_def] using hnd)
  simp only [List.map_map, Function.comp_def] at hf
  refine ⟨f, hf, hcoef, ?_, ?_⟩
  · intro f0 fs h
    rw [h] at hcoef
    simpa using hcoef
  · intro L hL h32
    subst hL
    rw [interpolated_shareFiles L pts hne (fun q hq => (h32 q hq).1) (fun q hq => (h32 q hq).2),
      ← hf]
    rfl

/-- C16 witness: the points `(1, 8)` and `(259, 9)` modulo 257. -/
theorem interpolate_constant_is_lagrange_witness :
    ∃ f, interpolate 257 ([(1, 8), (259, 9)].map fun q => toZZ_p 257 q.1)
        ([(1, 8), (259, 9)].map fun q => toZZ_p 257 q.2) = some f ∧
      f.getD 0 0
        = lagrangeAtZero 257 ([(1, 8), (259, 9)].map fun q => (toZZ_p 257 q.1, toZZ_p 257 q.2)) ∧
      (∀ f0 fs, f = f0 :: fs →
        f0 = lagrangeAtZero 257
          ([(1, 8), (259, 9)].map fun q => (toZZ_p 257 q.1, toZZ_p 257 q.2))) ∧
      ∀ L, fieldPrime L = 257 → (∀ q ∈ [(1, 8), (259, 9)], q.1 < 2 ^ 32 ∧ q.2 < 256 ^ (L + 1)) →
        interpolated ([(1, 8), (259, 9)].map fun q => shareFile L q.1 q.2) = some f :=
  interpolate_constant_is_lagrange 257 [(1, 8), (259, 9)] (by norm_num) (by simp) (by decide)

/-- C17, amended (over-supply): for every distribution with `1 <= t <= n` and
every choice of `k` share files, `t <= k <= n`, whose indices are below `2^32`
and pairwise distinct modulo `p`, the reconstruction branch hands all `k` points
to `interpolate`, which returns the polynomial of the distribution, and the
output is exactly the secret bytes, provided some secret byte or some drawn
coefficient `1 .. t-1` is non-zero in `GF(p)`; with `k >= 2` files the run of
`main` (for any options that pass the threshold check) selects the modulus and
writes the secret bytes to standard output. -/
theorem over_supply_round_trip (rnd : Nat → Nat) (n t : Nat) (data idx : List Nat)
    (hd : IsBytes data) (h1 : 1 ≤ t) (_htn : t ≤ n) (hk : t ≤ idx.length)
    (_hkn : idx.length ≤ n)
    (hidx : ∀ i ∈ idx, i < n ∧ i + 1 < 2 ^ 32)
    (hdist : (idx.map fun i => (i + 1) % fieldPrime data.length).Nodup)
    (hnz : (∃ b ∈ data, b ≠ 0) ∨ ∃ i, 1 ≤ i ∧ i < t ∧ rnd i % fieldPrime data.length ≠ 0) :
    interpolated (pick (writeShares rnd n t data) idx)
      = interpolate (fieldPrime data.length)
          (idx.map fun i => (i + 1) % fieldPrime data.length)
          ((idx.map fun i => (i + 1) % fieldPrime data.length).map
            (eval (fieldPrime data.length) (sharePoly (fieldPrime data.length) rnd t data))) ∧
    interpolated (pick (writeShares rnd n t data) idx)
      = some (sharePoly (fieldPrime data.length) rnd t data) ∧
    reconstruct (pick (writeShares rnd n t data) idx) = some data ∧
    (2 ≤ idx.length → ∀ (rnd2 : Nat → Nat) (n2 t2 : Nat) (stdin : List Nat), ¬ n2 < t2 →
      main rnd2 n2 t2 stdin (pick (writeShares rnd n t data) idx)
        = Run.mk [Event.modulus (fieldPrime data.length), Event.output data] (some 0)) := by
  haveI : Fact (fieldPrime data.length).Prime := ⟨fieldPrime_prime _⟩
  have hp := fieldPrime_prime data.length
  have hne : idx ≠ [] := by
    intro h
    rw [h] at hk
    simp at hk
    omega
  have hi := interpolated_pick rnd n t data idx hne hidx
  have hrec := reconstruct_of_enough rnd n t data idx hd hne hk hidx hdist hnz
  refine ⟨hi, ?_, hrec, fun h2 rnd2 n2 t2 stdin ht =>
    main_of_reconstruct rnd rnd2 n t n2 t2 data stdin idx h2 (fun i hi => (hidx i hi).1) ht hrec⟩
  rw [hi, interpolate_eval (fieldPrime data.length) _ _
      (sharePoly_lt (fieldPrime data.length) hp.pos rnd t data)
    (by
      have := sharePoly_length (fieldPrime data.length) rnd t data
      simp only [List.length_map]
      omega)
    (by
      intro x hx
      obtain ⟨i, _, rfl⟩ := List.mem_map.mp hx
      exact Nat.mod_lt _ hp.pos)
    hdist, sharePoly_normalize]

/-- C17 witness: the secret "HI" with `n = 3`, `t = 2` is recovered from all three
shares. -/
theorem over_supply_round_trip_witness :
    interpolated (pick (writeShares (fun _ => 12345) 3 2 [72, 73]) [0, 1, 2])
      = interpolate (fieldPrime [72, 73].length)
          ([0, 1, 2].map fun i => (i + 1) % fieldPrime [72, 73].length)
          (([0, 1, 2].map fun i => (i + 1) % fieldPrime [72, 73].length).map
            (eval (fieldPrime [72, 73].length)
              (sharePoly (fieldPrime [72, 73].length) (fun _ => 12345) 2 [72, 73]))) ∧
    interpolated (pick (writeShares (fun _ => 12345) 3 2 [72, 73]) [0, 1, 2])
      = some (sharePoly (fieldPrime [72, 73].length) (fun _ => 12345) 2 [72, 73]) ∧
    reconstruct (pick (writeShares (fun _ => 12345) 3 2 [72, 73]) [0, 1, 2]) = some [72, 73] ∧
    (2 ≤ [0, 1, 2].length → ∀ (rnd2 : Nat → Nat) (n2 t2 : Nat) (stdin : List Nat), ¬ n2 < t2 →
      main rnd2 n2 t2 stdin (pick (writeShares (fun _ => 12345) 3 2 [72, 73]) [0, 1, 2])
        = Run.mk [Event.modulus (fieldPrime [72, 73].length), Event.output [72, 73]] (some 0)) :=
  over_supply_round_trip (fun _ => 12345) 3 2 [72, 73] [0, 1, 2] (by decide) (by decide)
    (by decide) (by decide) (by decide) (by decide)
    (by simp [fieldPrime_two])
    (Or.inl ⟨72, by simp, by decide⟩)

/-- C17 counterexample: the secret `[7]` with `t = 1` and `n = 2^32 + 1`, shares 1
and `2^32 + 1`: the indices are distinct modulo `p = 257` (1 and 2), but both
files store the index 1 and the reconstruction branch produces no output. -/
theorem over_supply_counterexample :
    ([0, 2 ^ 32].map fun i => (i + 1) % fieldPrime [7].length).Nodup ∧
    reconstruct (pick (writeShares (fun _ => 1) (2 ^ 32 + 1) 1 [7]) [0, 2 ^ 32]) = none := by
  constructor
  · rw [show fieldPrime [7].length = 257 from fieldPrime_one]
    decide
  · haveI : Fact (fieldPrime 1).Prime := ⟨fieldPrime_prime 1⟩
    rw [pick_writeShares _ _ _ _ _ (by
      intro i hi
      simp only [List.mem_cons, List.mem_singleton, List.not_mem_nil, or_false] at hi
      rcases hi with rfl | rfl <;> norm_num)]
    simp only [List.map_cons, List.map_nil, List.length_cons, List.length_nil, toUInt32]
    norm_num
    have h := reconstruct_shareFiles 1
      [(1, eval (fieldPrime 1) (sharePoly (fieldPrime 1) (fun _ => 1) 1 [7]) (1 % fieldPrime 1)),
       (1, eval (fieldPrime 1) (sharePoly (fieldPrime 1) (fun _ => 1) 1 [7])
          (4294967297 % fieldPrime 1))]
      (by simp) (by simp) (by
        intro q hq
        simp only [List.mem_cons, List.mem_singleton, List.not_mem_nil, or_false] at hq
        rcases hq with rfl | rfl <;> exact eval_lt _ _ _ (fieldPrime_prime 1).pos)
    simp only [List.map_cons, List.map_nil] at h
    rw [h, interpolate_dup (fieldPrime 1) [1 % fieldPrime 1, 1 % fieldPrime 1]
      [eval (fieldPrime 1) (sharePoly (fieldPrime 1) (fun _ => 1) 1 [7]) (1 % fieldPrime 1),
       eval (fieldPrime 1) (sharePoly (fieldPrime 1) (fun _ => 1) 1 [7])
          (4294967297 % fieldPrime 1)] rfl (by
      intro x hx
      simp only [List.mem_cons, List.mem_singleton, List.not_mem_nil, or_false] at hx
      rcases hx with rfl | rfl <;> exact Nat.mod_lt _ (fieldPrime_prime 1).pos) (by simp)]

/-- C18, as the code behaves: `distribute` evaluates the polynomial at the points
`ZZ_p(i + 1)`, `i < n`, and never compares `n` with `p`; the points are pairwise
distinct in `GF(p)` exactly when `n <= p`.  For the empty secret (`p = 2`) and
`n = 3` the points are 1, 0, 1: shares 1 and 3 use the same point. -/
theorem evaluation_points_repeat (rnd : Nat → Nat) (n t : Nat) (data : List Nat) :
    distribute rnd n t data
      = ((List.range n).map fun i => toZZ_p (fieldPrime data.length) (i + 1)).map
          (eval (fieldPrime data.length) (sharePoly (fieldPrime data.length) rnd t data)) ∧
    (((List.range n).map fun i => toZZ_p (fieldPrime data.length) (i + 1)).Nodup
      ↔ n ≤ fieldPrime data.length) ∧
    ((List.range 3).map fun i => toZZ_p (fieldPrime ([] : List Nat).length) (i + 1))
      = [1, 0, 1] ∧
    (distribute rnd 3 t []).getD 0 0 = (distribute rnd 3 t []).getD 2 0 := by
  refine ⟨?_, evalPoints_nodup_iff _ n (fieldPrime_prime _).one_lt, ?_, ?_⟩
  · rw [distribute_eq, List.map_map]
    rfl
  · rw [show fieldPrime ([] : List Nat).length = 2 from fieldPrime_zero]
    decide
  · rw [distribute_getD rnd 3 t [] 0 (by decide), distribute_getD rnd 3 t [] 2 (by decide),
      show fieldPrime ([] : List Nat).length = 2 from fieldPrime_zero]


/-- C19 (index wrap-around): the value of share `i` depends only on `i` modulo
`p`: shares whose numbers agree modulo `p` have equal values, in particular
shares `i` and `i + p`; and whenever `n >= p` the share with number `p` has the
value `f(0) = S`, so the value bytes of its file are the bytes of the secret
(followed by the zero byte).  Examples: a one-byte secret (`p = 257`,
`n >= 257`, share 257) and the empty secret (`p = 2`, share 2). -/
theorem index_wraparound_leaks_secret (rnd : Nat → Nat) (n t : Nat) (data : List Nat)
    (hd : IsBytes data) :
    (∀ i j, i < n → j < n →
      (i + 1) % fieldPrime data.length = (j + 1) % fieldPrime data.length →
        (distribute rnd n t data).getD i 0 = (distribute rnd n t data).getD j 0) ∧
    (∀ i, i + fieldPrime data.length < n →
      (distribute rnd n t data).getD i 0
        = (distribute rnd n t data).getD (i + fieldPrime data.length) 0) ∧
    (fieldPrime data.length ≤ n →
      (distribute rnd n t data).getD (fieldPrime data.length - 1) 0 = ZZFromBytes data ∧
      ((writeShares rnd n t data).getD (fieldPrime data.length - 1) []).drop 4 = data ++ [0]) ∧
    (data.length = 1 → 257 ≤ n →
      ((writeShares rnd n t data).getD 256 []).drop 4 = data ++ [0]) ∧
    (data.length = 0 → 2 ≤ n →
      ((writeShares rnd n t data).getD 1 []).drop 4 = data ++ [0]) := by
  have hp := fieldPrime_prime data.length
  have hsame : ∀ i j, i < n → j < n →
      (i + 1) % fieldPrime data.length = (j + 1) % fieldPrime data.length →
        (distribute rnd n t data).getD i 0 = (distribute rnd n t data).getD j 0 := by
    intro i j hi hj h
    rw [distribute_getD rnd n t data i hi, distribute_getD rnd n t data j hj, h]
  have hleak : fieldPrime data.length ≤ n →
      (distribute rnd n t data).getD (fieldPrime data.length - 1) 0 = ZZFromBytes data ∧
      ((writeShares rnd n t data).getD (fieldPrime data.length - 1) []).drop 4
        = data ++ [0] := by
    intro hn
    have hlt : fieldPrime data.length - 1 < n := by
      have := hp.pos
      omega
    have hv : (distribute rnd n t data).getD (fieldPrime data.length - 1) 0
        = ZZFromBytes data := by
      rw [distribute_getD rnd n t data _ hlt, Nat.sub_add_cancel hp.pos, Nat.mod_self,
        eval_zero_sharePoly rnd t data hd]
    exact ⟨hv, by rw [writeShares_value_bytes rnd n t data _ hlt, hv, secret_value_bytes data hd]⟩
  refine ⟨hsame, ?_, hleak, ?_, ?_⟩
  · intro i hi
    apply hsame i _ (by omega) hi
    have e : i + fieldPrime data.length + 1 = (i + 1) + fieldPrime data.length := by omega
    rw [e, Nat.add_mod_right]
  · intro hL hn
    have h := hleak
    rw [hL, fieldPrime_one] at h
    exact (h hn).2
  · intro hL hn
    have h := hleak
    rw [hL, fieldPrime_zero] at h
    exact (h hn).2

/-- C19 witness: the secret `[5]` with `n = 257`, `t = 2`. -/
theorem index_wraparound_leaks_secret_witness :
    (∀ i j, i < 257 → j < 257 →
      (i + 1) % fieldPrime [5].length = (j + 1) % fieldPrime [5].length →
        (distribute (fun _ => 1) 257 2 [5]).getD i 0
          = (distribute (fun _ => 1) 257 2 [5]).getD j 0) ∧
    (∀ i, i + fieldPrime [5].length < 257 →
      (distribute (fun _ => 1) 257 2 [5]).getD i 0
        = (distribute (fun _ => 1) 257 2 [5]).getD (i + fieldPrime [5].length) 0) ∧
    (fieldPrime [5].length ≤ 257 →
      (distribute (fun _ => 1) 257 2 [5]).getD (fieldPrime [5].length - 1) 0 = ZZFromBytes [5] ∧
      ((writeShares (fun _ => 1) 257 2 [5]).getD (fieldPrime [5].length - 1) []).drop 4
        = [5] ++ [0]) ∧
    ([5].length = 1 → 257 ≤ 257 →
      ((writeShares (fun _ => 1) 257 2 [5]).getD 256 []).drop 4 = [5] ++ [0]) ∧
    ([5].length = 0 → 2 ≤ 257 →
      ((writeShares (fun _ => 1) 257 2 [5]).getD 1 []).drop 4 = [5] ++ [0]) :=
  index_wraparound_leaks_secret (fun _ => 1) 257 2 [5] (by decide)

/-- C20 (zero threshold): a request with `t = 0` passes the threshold check for
every `n` (the run is not the rejection, prints no message and does not return
1), and `distribute` with `t = 0` produces the same shares as with `t = 1`,
whatever the random draws: `n` shares, each equal to the secret integer, whose
value bytes are the bytes of the secret followed by a zero byte. -/
theorem zero_threshold_not_rejected (rnd rnd1 : Nat → Nat) (n : Nat) (data : List Nat)
    (hd : IsBytes data) :
    (∀ stdin files,
      main rnd n 0 stdin files ≠ Run.mk [Event.message] (some 1) ∧
      Event.message ∉ (main rnd n 0 stdin files).events ∧
      (main rnd n 0 stdin files).ret ≠ some 1) ∧
    main rnd n 0 data []
      = Run.mk
          (Event.modulus (fieldPrime data.length) ::
            (List.range n).map fun i =>
              Event.written (i + 1) ((writeShares rnd n 0 data).getD i []))
          (some 0) ∧
    distribute rnd n 0 data = distribute rnd1 n 1 data ∧
    writeShares rnd n 0 data = writeShares rnd1 n 1 data ∧
    distribute rnd n 0 data = List.replicate n (ZZFromBytes data) ∧
    ∀ i, i < n → ((writeShares rnd n 0 data).getD i []).drop 4 = data ++ [0] := by
  have h0 := distribute_const rnd n 0 data hd (Nat.zero_le 1)
  have h1 := distribute_const rnd1 n 1 data hd (le_refl 1)
  refine ⟨?_, ?_, by rw [h0, h1], ?_, h0, ?_⟩
  · intro stdin files
    have hacc := main_accepted rnd n 0 stdin files (Nat.not_lt_zero n)
    refine ⟨?_, hacc.1, hacc.2⟩
    intro h
    rw [h] at hacc
    exact hacc.2 rfl
  · exact main_distribute rnd n 0 data [] (Nat.not_lt_zero n) (by simp)
  · unfold writeShares
    rw [h0, h1]
  · intro i hi
    rw [writeShares_value_bytes rnd n 0 data i hi, h0, replicate_getD _ _ _ _ hi,
      secret_value_bytes data hd]

/-- C20 witness: the secret "HI" with `n = 3`, `t = 0`. -/
theorem zero_threshold_not_rejected_witness :
    (∀ stdin files,
      main (fun _ => 12345) 3 0 stdin files ≠ Run.mk [Event.message] (some 1) ∧
      Event.message ∉ (main (fun _ => 12345) 3 0 stdin files).events ∧
      (main (fun _ => 12345) 3 0 stdin files).ret ≠ some 1) ∧
    main (fun _ => 12345) 3 0 [72, 73] []
      = Run.mk
          (Event.modulus (fieldPrime [72, 73].length) ::
            (List.range 3).map fun i =>
              Event.written (i + 1) ((writeShares (fun _ => 12345) 3 0 [72, 73]).getD i []))
          (some 0) ∧
    distribute (fun _ => 12345) 3 0 [72, 73] = distribute (fun _ => 678) 3 1 [72, 73] ∧
    writeShares (fun _ => 12345) 3 0 [72, 73] = writeShares (fun _ => 678) 3 1 [72, 73] ∧
    distribute (fun _ => 12345) 3 0 [72, 73] = List.replicate 3 (ZZFromBytes [72, 73]) ∧
    ∀ i, i < 3 →
      ((writeShares (fun _ => 12345) 3 0 [72, 73]).getD i []).drop 4 = [72, 73] ++ [0] :=
  zero_threshold_not_rejected (fun _ => 12345) (fun _ => 678) 3 [72, 73] (by decide)


end SShare
